import Mathlib

/-!
# throttle: bandwidth limiting pipe

A shallow embedding of `throttle()` from `src/throttle.c` and the properties
of it that the specification states.

Conventions of the embedding.

* A `double` is the rational number it stands for, and every operation of the
  code on doubles is the exact operation followed by the rounding `fl` to
  binary64 (round to nearest, ties to even), one rounding for each operation:
  the evaluation of an x86-64 build, where `FLT_EVAL_METHOD` is `0` and no
  product is fused with a sum.  The constants `0.000001`, `0.000000001` and
  `999999*0.000001` are the doubles `fl (1/10^6)`, `fl (1/10^9)` and
  `fl (999999 * fl (1/10^6))`.  The exponent of `fl` is not bounded above: a
  value of `2^1024` or more stands for the infinity the code computes, and the
  comparisons and conversions the code applies to it give the same results for
  both.  `main` refuses a limit that is not positive; at `Bps = 0` the quotient
  of `BSECS` is the `0` of Lean's division and not the infinity or NaN of C,
  and the statements about the value of `sync` take `Bps` positive.
* `size_t` and `ssize_t` are the 64-bit types of an LP64 host and are carried
  as `Nat`/`Int`; the narrowing of a sum or of `nread` to the `int32_t`
  counter `bytesread` is made explicit as `toInt32` (reduction modulo `2^32`
  into the signed range, the conversion GCC and Clang implement).
* The conversion of a `double` to `time_t` or `long` (`toInt64`) and to
  `unsigned int` (`toUInt32`) is the truncation toward zero when the result
  fits.  C leaves the other case undefined; the embedding gives it the value
  an x86-64 build computes: `cvttsd2si` returns `-2^63` for a value outside
  the range of a 64-bit integer, and the `unsigned int` is the low 32 bits of
  the 64-bit result.
* The three `#if` configurations of the sleeping code are the three values of
  `SleepImpl`.
-/

namespace Throttle

/-! ## Machine arithmetic and time values -/

/-- Conversion of an integer to `int32_t`: wrap modulo `2^32` into
`[-2^31, 2^31)`. -/
def toInt32 (x : Int) : Int := (x + 2147483648) % 4294967296 - 2147483648

/-- The largest `int32_t`. -/
def INT32_MAX : Int := 2147483647

/-- C conversion of a `double` to an integer type: truncation toward zero. -/
def truncToInt (x : ℚ) : Int := if 0 ≤ x then ⌊x⌋ else ⌈x⌉

/-- The power `2^e` of two, for an integer exponent. -/
def pow2 (e : Int) : ℚ :=
  if 0 ≤ e then ((2 ^ e.toNat : Nat) : ℚ) else 1 / ((2 ^ (-e).toNat : Nat) : ℚ)

/-- The position of the leading bit of `n`, counted from zero; the first
argument bounds the number of halvings. -/
def log2Fuel : Nat → Nat → Nat
  | 0, _ => 0
  | fuel + 1, n => if n < 2 then 0 else log2Fuel fuel (n / 2) + 1

/-- The binary exponent of a positive rational: the `e` with
`2^e ≤ x < 2^(e+1)`. -/
def ilog2 (x : ℚ) : Int :=
  let e0 : Int := (log2Fuel x.num.natAbs x.num.natAbs : Int) - (log2Fuel x.den x.den : Int)
  if pow2 e0 ≤ x then e0 else e0 - 1

/-- Rounding of a rational to the nearest integer, a tie going to the even
one. -/
def roundEven (r : ℚ) : Int :=
  if r - (⌊r⌋ : ℚ) < 1 / 2 then ⌊r⌋
  else if 1 / 2 < r - (⌊r⌋ : ℚ) then ⌊r⌋ + 1
  else if ⌊r⌋ % 2 = 0 then ⌊r⌋ else ⌊r⌋ + 1

/-- Rounding of a non-negative rational to binary64: a significand of 53 bits
at the binary exponent of `x`, which is taken no less than `-1022` (below it
the numbers are subnormal), rounded to nearest with ties to even. -/
def flPos (x : ℚ) : ℚ :=
  (roundEven (x / pow2 (max (ilog2 x) (-1022) - 52)) : ℚ) * pow2 (max (ilog2 x) (-1022) - 52)

/-- Rounding of a rational to a `double`. -/
def fl (x : ℚ) : ℚ := if 0 ≤ x then flPos x else -flPos (-x)

/-- Sum of two doubles. -/
def fadd (a b : ℚ) : ℚ := fl (a + b)

/-- Difference of two doubles. -/
def fsub (a b : ℚ) : ℚ := fl (a - b)

/-- Product of two doubles. -/
def fmul (a b : ℚ) : ℚ := fl (a * b)

/-- Quotient of two doubles. -/
def fdiv (a b : ℚ) : ℚ := fl (a / b)

/-- Conversion of an integer to `double`. -/
def ofInt (n : Int) : ℚ := fl (n : ℚ)

/-- Conversion of a `double` to a 64-bit signed integer (`time_t`, `long`):
the truncation when it fits, `-2^63` otherwise. -/
def toInt64 (x : ℚ) : Int :=
  if -9223372036854775808 ≤ truncToInt x ∧ truncToInt x < 9223372036854775808 then truncToInt x
  else -9223372036854775808

/-- Conversion of a `double` to `unsigned int`: the low 32 bits of the
conversion to a 64-bit integer. -/
def toUInt32 (x : ℚ) : Int := toInt64 x % 4294967296

/-- `struct timeval`. -/
structure Timeval where
  tv_sec : Int
  tv_usec : Int
deriving DecidableEq, Repr

/-- `struct timespec`. -/
structure Timespec where
  tv_sec : Int
  tv_nsec : Int
deriving DecidableEq, Repr

/-- The `timersub` macro of `<sys/time.h>`: `a - b` with a borrow when the
microsecond difference is negative. -/
def timersub (a b : Timeval) : Timeval :=
  let sec := a.tv_sec - b.tv_sec
  let usec := a.tv_usec - b.tv_usec
  if usec < 0 then ⟨sec - 1, usec + 1000000⟩ else ⟨sec, usec⟩

/-- `TSECS(tvp)`: a timeval as seconds,
`((double)tv_sec) + (((double)tv_usec) * 0.000001)`. -/
def TSECS (tvp : Timeval) : ℚ :=
  fadd (ofInt tvp.tv_sec) (fmul (ofInt tvp.tv_usec) (fl (1 / 1000000)))

/-- `BSECS(bytes,Bps)`: the time `bytes` take at `Bps` bytes per second,
`((double)(bytes)) / ((double)(Bps))`. -/
def BSECS (bytes : Int) (Bps : ℚ) : ℚ := fdiv (ofInt bytes) (fl Bps)

/-! ## Window accounting (lines 98-125) -/

/-- The variables of `throttle()` that carry the accounting window from one
iteration to the next. -/
structure Acct where
  starttime : Timeval
  elapsedtime : Timeval
  bytesread : Int
deriving DecidableEq, Repr

/-- Lines 74-75: `elapsedtime.tv_sec = window; bytesread = 0`.  `starttime`
and `elapsedtime.tv_usec` are not initialised by the code; they are assigned
before they are first read, and the embedding starts them at zero. -/
def initAcct (window : Int) : Acct :=
  { starttime := ⟨0, 0⟩, elapsedtime := ⟨window, 0⟩, bytesread := 0 }

/-- The test of line 102-103 after `bytesread += nread`: the window has
expired or the counter has rolled over. -/
def resets (window : Int) (s : Acct) (nread : Nat) : Bool :=
  decide (s.elapsedtime.tv_sec ≥ window) || decide (toInt32 (s.bytesread + nread) < 0)

/-- Lines 98-125 for a block of `nread` bytes, given what `gettimeofday`
returned (`none` for `-1`).  The result is `none` when the function returns
`-1`, and otherwise the new accounting variables and `sync`. -/
def account (Bps : ℚ) (window : Int) (s : Acct) (nread : Nat)
    (clock : Option Timeval) : Option (Acct × ℚ) :=
  let bytesread := toInt32 (s.bytesread + nread)
  if resets window s nread then
    let elapsedtime : Timeval := { s.elapsedtime with tv_sec := 0 }
    let bytesread := toInt32 nread
    match clock with
    | none => none
    | some starttime =>
      some ({ starttime := starttime, elapsedtime := elapsedtime, bytesread := bytesread },
            BSECS bytesread Bps)
  else
    match clock with
    | none => none
    | some currenttime =>
      let elapsedtime := timersub currenttime s.starttime
      some ({ starttime := s.starttime, elapsedtime := elapsedtime, bytesread := bytesread },
            fsub (BSECS bytesread Bps) (TSECS elapsedtime))

/-! ## Conversion of `sync` for the sleep primitives (lines 127-155) -/

/-- The build configurations of the sleeping code: `HAVE_NANOSLEEP`; no
`nanosleep` but `HAVE_SUBSEC_USLEEP` (`sleep` then `usleep`); neither
(`usleep` alone). -/
inductive SleepImpl
  | nanosleep
  | sleepUsleep
  | usleepOnly
deriving DecidableEq, Repr

/-- Lines 129-130: `ts_sync.tv_sec = (time_t)sync;
ts_sync.tv_nsec = (long)((sync - ts_sync.tv_sec) * 1e+9)`. -/
def toTimespec (sync : ℚ) : Timespec :=
  let sec := toInt64 sync
  { tv_sec := sec, tv_nsec := toInt64 (fmul (fsub sync (ofInt sec)) 1000000000) }

/-- Line 140: `seconds = (unsigned int)sync`. -/
def wholeSeconds (sync : ℚ) : Int := toUInt32 sync

/-- Lines 144-150: `sync -= (double)((unsigned int)sync)` followed by the
clamp to `999999*0.000001`. -/
def fracAfterSleep (sync : ℚ) : ℚ :=
  let sync := fsub sync (ofInt (toUInt32 sync))
  if sync > fmul 999999 (fl (1 / 1000000)) then fmul 999999 (fl (1 / 1000000)) else sync

/-- Line 154: the argument `(unsigned int)(sync * 1000000)` of `usleep`. -/
def usleepArg (sync : ℚ) : Int := toUInt32 (fmul sync 1000000)

/-! ## The environment: source, destination, clock and sleep primitives -/

/-- A byte of the stream; the relay never looks inside one. -/
abbrev Byte := Fin 256

/-- Behaviour of one `read` call: the change of the wall clock across the
call and the result, `none` for `-1`, `some k` for "`k` bytes are on offer". -/
structure ReadEv where
  delay : Int
  ret : Option Nat
deriving DecidableEq, Repr

/-- Behaviour of one `write` call: the change of the wall clock across the
call and the result, `none` for `-1`, `some k` for "up to `k` bytes are
accepted". -/
structure WriteEv where
  delay : Int
  ret : Option Nat
deriving DecidableEq, Repr

/-- Behaviour of one `gettimeofday` call: the change of the wall clock before
the reading is taken, and whether the call succeeds. -/
structure ClockEv where
  delay : Int
  ok : Bool
deriving DecidableEq, Repr

/-- Behaviour of one call of a sleep primitive.  `complete extra`: the call
sleeps the requested time and `extra` nanoseconds more.  `interrupted slept
rem`: a signal ends the call after `slept` nanoseconds and the primitive
reports `rem` as left to sleep (nanoseconds for `nanosleep`, seconds for
`sleep`; `usleep` reports nothing).  `error`: the call fails at once with an
error other than `EINTR`. -/
inductive SleepEv
  | complete (extra : Int)
  | interrupted (slept : Int) (rem : Nat)
  | error
deriving DecidableEq, Repr

/-- A system call as it appears in the trace.  `flush` is not a call: it
marks the moment the writing of a block begins (line 157) and records the
number of bytes of the block, the start of the current window and the number
of bytes read since that start. -/
inductive Call
  | read (nbyte : Nat) (ret : Option Nat)
  | gettimeofday (ret : Option Timeval)
  | nanosleep (req : Timespec)
  | sleep (seconds : Int)
  | usleep (usec : Int)
  | flush (nread : Nat) (winStart : Timeval) (winBytes : Nat)
  | write (nbyte : Nat) (ret : Option Nat)
deriving DecidableEq, Repr

/-- A trace entry: the wall clock (nanoseconds) when the call began. -/
structure Event where
  t : Int
  call : Call
deriving DecidableEq, Repr

/-- The world around `throttle()`: the wall clock in nanoseconds, the bytes
the source has still to deliver, the behaviour of the calls to come (a call
that finds its list empty succeeds in full and takes no time), the bytes the
destination has accepted, and the trace. -/
structure World where
  now : Int
  input : List Byte
  reads : List ReadEv
  clocks : List ClockEv
  sleeps : List SleepEv
  writes : List WriteEv
  output : List Byte
  log : List Event
deriving DecidableEq, Repr

/-- A timeval reading of the wall clock. -/
def toTimeval (now : Int) : Timeval :=
  { tv_sec := now / 1000000000, tv_usec := now % 1000000000 / 1000 }

/-- A timeval in nanoseconds. -/
def Timeval.toNs (tv : Timeval) : Int := tv.tv_sec * 1000000000 + tv.tv_usec * 1000

/-- A timespec in nanoseconds. -/
def Timespec.toNs (ts : Timespec) : Int := ts.tv_sec * 1000000000 + ts.tv_nsec

/-- The timespec of a number of nanoseconds. -/
def Timespec.ofNs (n : Nat) : Timespec :=
  { tv_sec := ((n / 1000000000 : Nat) : Int), tv_nsec := ((n % 1000000000 : Nat) : Int) }

/-- The number of bytes a `read` of `nbyte` bytes returns when `k` are on
offer and `avail` remain in the stream: at least one unless the stream is at
its end (or nothing was asked for), never more than asked for. -/
def readCount (k nbyte avail : Nat) : Nat := min (max 1 k) (min nbyte avail)

/-- `read(STDIN_FILENO, ptr, nbyte)`: the bytes returned (`none` for `-1`,
the empty list at end of stream) and the world after the call. -/
def sysRead (w : World) (nbyte : Nat) : Option (List Byte) × World :=
  let e := w.reads.headD ⟨0, some nbyte⟩
  let w1 := { w with reads := w.reads.tail, now := w.now + e.delay }
  match e.ret with
  | none => (none, { w1 with log := w.log ++ [⟨w.now, .read nbyte none⟩] })
  | some k =>
    let n := readCount k nbyte w.input.length
    (some (w.input.take n),
     { w1 with input := w.input.drop n, log := w.log ++ [⟨w.now, .read nbyte (some n)⟩] })

/-- `write(STDOUT_FILENO, ptr, nbyte)` where `data` are the `nbyte` bytes at
`ptr`: the return value (`none` for `-1`) and the world after the call. -/
def sysWrite (w : World) (data : List Byte) : Option Nat × World :=
  let e := w.writes.headD ⟨0, some data.length⟩
  let w1 := { w with writes := w.writes.tail, now := w.now + e.delay }
  match e.ret with
  | none => (none, { w1 with log := w.log ++ [⟨w.now, .write data.length none⟩] })
  | some k =>
    let n := min k data.length
    (some n,
     { w1 with output := w.output ++ data.take n,
               log := w.log ++ [⟨w.now, .write data.length (some n)⟩] })

/-- `gettimeofday(&tv, NULL)`: the reading (`none` for `-1`) and the world
after the call. -/
def sysGettimeofday (w : World) : Option Timeval × World :=
  let e := w.clocks.headD ⟨0, true⟩
  let now := w.now + e.delay
  let ret := if e.ok then some (toTimeval now) else none
  (ret, { w with clocks := w.clocks.tail, now := now,
                 log := w.log ++ [⟨w.now, .gettimeofday ret⟩] })

/-- The requests `nanosleep` accepts: seconds that are not negative and
nanoseconds from `0` to `999999999`.  Any other request fails at once with
`EINVAL`. -/
def Timespec.valid (ts : Timespec) : Bool :=
  decide (0 ≤ ts.tv_sec) && decide (0 ≤ ts.tv_nsec) && decide (ts.tv_nsec ≤ 999999999)

/-- Line 131: `while (nanosleep(&ts_sync, &ts_sync) != 0 && errno == EINTR)`.
An interrupted call leaves the time remaining in `ts_sync`, which is the
request of the next call; a call that fails for another reason (`EINVAL` for a
request that is not valid, or the `error` behaviour) ends the loop.  The first
argument is the behaviour of the sleep calls to come. -/
def nanosleepLoop : List SleepEv → Timespec → World → World
  | [], ts, w =>
    if ts.valid then
      { w with sleeps := [], now := w.now + ts.toNs, log := w.log ++ [⟨w.now, .nanosleep ts⟩] }
    else { w with sleeps := [], log := w.log ++ [⟨w.now, .nanosleep ts⟩] }
  | e :: es, ts, w =>
    if ts.valid then
      match e with
      | .complete extra =>
        { w with sleeps := es, now := w.now + ts.toNs + extra,
                 log := w.log ++ [⟨w.now, .nanosleep ts⟩] }
      | .interrupted slept rem =>
        nanosleepLoop es (Timespec.ofNs rem)
          { w with sleeps := es, now := w.now + slept,
                   log := w.log ++ [⟨w.now, .nanosleep ts⟩] }
      | .error => { w with sleeps := es, log := w.log ++ [⟨w.now, .nanosleep ts⟩] }
    else { w with sleeps := e :: es, log := w.log ++ [⟨w.now, .nanosleep ts⟩] }

/-- Line 141: `while ((seconds = sleep(seconds)) != 0)`.  `sleep` returns the
seconds left when a signal interrupts it and zero otherwise; it has no error
return, and an `error` behaviour is read as a return of zero. -/
def sleepLoop : List SleepEv → Int → World → World
  | [], seconds, w =>
    { w with sleeps := [], now := w.now + seconds * 1000000000,
             log := w.log ++ [⟨w.now, .sleep seconds⟩] }
  | .complete extra :: es, seconds, w =>
    { w with sleeps := es, now := w.now + seconds * 1000000000 + extra,
             log := w.log ++ [⟨w.now, .sleep seconds⟩] }
  | .interrupted slept rem :: es, seconds, w =>
    let w1 := { w with sleeps := es, now := w.now + slept,
                       log := w.log ++ [⟨w.now, .sleep seconds⟩] }
    if rem = 0 then w1 else sleepLoop es (rem : Int) w1
  | .error :: es, seconds, w =>
    { w with sleeps := es, log := w.log ++ [⟨w.now, .sleep seconds⟩] }

/-- Line 154: `usleep(usec)`, called once; its return value is not looked
at. -/
def sysUsleep (usec : Int) (w : World) : World :=
  let w1 := { w with sleeps := w.sleeps.tail, log := w.log ++ [⟨w.now, .usleep usec⟩] }
  match w.sleeps.headD (.complete 0) with
  | .complete extra => { w1 with now := w.now + usec * 1000 + extra }
  | .interrupted slept _ => { w1 with now := w.now + slept }
  | .error => w1

/-- Lines 127-155: the throttle phase for the computed `sync`. -/
def doSleep (impl : SleepImpl) (sync : ℚ) (w : World) : World :=
  match impl with
  | .nanosleep =>
    if sync ≥ fl (1 / 1000000000) then nanosleepLoop w.sleeps (toTimespec sync) w else w
  | .sleepUsleep =>
    let w1 := if sync ≥ 1 then sleepLoop w.sleeps (wholeSeconds sync) w else w
    let sync1 := if sync ≥ 1 then fracAfterSleep sync else sync
    if sync1 ≥ fl (1 / 1000000) then sysUsleep (usleepArg sync1) w1 else w1
  | .usleepOnly =>
    if sync ≥ fl (1 / 1000000) then sysUsleep (usleepArg sync) w else w

/-! ## The block buffer and the fill and flush loops -/

/-- The bytes `data` stored in the block from offset `ptr` on. -/
def store (block : Nat → Byte) (ptr : Nat) (data : List Byte) : Nat → Byte :=
  fun i => if i < ptr then block i else data.getD (i - ptr) (block i)

/-- The `n` bytes of the block from offset `ptr` on. -/
def load (block : Nat → Byte) (ptr n : Nat) : List Byte :=
  (List.range n).map (fun i => block (ptr + i))

/-- How the fill loop ends: a read failed; the loop is left with `nleft`
bytes of the block unfilled, `done` telling whether end of stream was seen;
or the fuel of the embedding ran out. -/
inductive Fill
  | readError (w : World)
  | filled (w : World) (block : Nat → Byte) (nleft : Nat) (done : Bool)
  | outOfFuel (w : World)

/-- Lines 82-96, the fill loop `do { ... } while (nleft > 0)`; `ptr` is the
offset of the C pointer from `block`. -/
def fillLoop : Nat → World → (Nat → Byte) → Nat → Nat → Fill
  | 0, w, _, _, _ => .outOfFuel w
  | fuel + 1, w, block, ptr, nleft =>
    match sysRead w nleft with
    | (none, w1) => .readError w1
    | (some data, w1) =>
      if data.length = 0 then .filled w1 block nleft true
      else
        let block1 := store block ptr data
        let nleft1 := nleft - data.length
        let ptr1 := ptr + data.length
        if nleft1 > 0 then fillLoop fuel w1 block1 ptr1 nleft1
        else .filled w1 block1 nleft1 false

/-- How the flush loop ends. -/
inductive Flush
  | writeError (w : World)
  | flushed (w : World)
  | outOfFuel (w : World)

/-- Lines 159-168, the flush loop `while (nleft > 0) { ... }`. -/
def flushLoop : Nat → World → (Nat → Byte) → Nat → Nat → Flush
  | 0, w, _, _, nleft => if nleft > 0 then .outOfFuel w else .flushed w
  | fuel + 1, w, block, ptr, nleft =>
    if nleft > 0 then
      match sysWrite w (load block ptr nleft) with
      | (none, w1) => .writeError w1
      | (some nwritten, w1) =>
        if nwritten ≤ 0 then .writeError w1
        else flushLoop fuel w1 block (ptr + nwritten) (nleft - nwritten)
    else .flushed w

/-! ## The relay -/

/-- What a run of `throttle()` comes to: the value returned, or the fuel of
the embedding ran out. -/
inductive Outcome
  | returned (code : Int)
  | outOfFuel
deriving DecidableEq, Repr

/-- The number of bytes read since the start of the current window, counted
without a width: set to the size of the block when the code resets the
window, increased by it otherwise. -/
def windowBytes (window : Int) (s : Acct) (winBytes nread : Nat) : Nat :=
  if resets window s nread then nread else winBytes + nread

/-- How one pass through the body of the main loop ends: with `return -1`;
at the bottom of the body, with the value of `done`, the accounting
variables, the block and the world; or short of fuel. -/
inductive Iter
  | failed (w : World)
  | completed (done : Bool) (s : Acct) (winBytes : Nat) (block : Nat → Byte) (w : World)
  | outOfFuel (w : World)

/-- Lines 80-168, the body of the main loop: fill, account, sleep, flush.
`winBytes` is not a variable of the code: it is the count of `windowBytes`,
kept for the `flush` mark of the trace. -/
def iteration (impl : SleepImpl) (Bps : ℚ) (window : Int) (blocksize : Nat)
    (s : Acct) (winBytes : Nat) (block : Nat → Byte) (w : World) : Iter :=
  match fillLoop (blocksize + 1) w block 0 blocksize with
  | .readError w1 => .failed w1
  | .outOfFuel w1 => .outOfFuel w1
  | .filled w1 block1 nleft done =>
    let nread := blocksize - nleft
    match sysGettimeofday w1 with
    | (clock, w2) =>
      match account Bps window s nread clock with
      | none => .failed w2
      | some (s1, sync) =>
        let winBytes1 := windowBytes window s winBytes nread
        let w3 := doSleep impl sync w2
        let w4 := { w3 with log := w3.log ++ [⟨w3.now, .flush nread s1.starttime winBytes1⟩] }
        match flushLoop nread w4 block1 0 nread with
        | .writeError w5 => .failed w5
        | .outOfFuel w5 => .outOfFuel w5
        | .flushed w5 => .completed done s1 winBytes1 block1 w5

/-- Lines 78-170, the main loop `do { ... } while (!done)`, and the
`return 0` of line 172. -/
def throttleLoop (impl : SleepImpl) (Bps : ℚ) (window : Int) (blocksize : Nat) :
    Nat → Acct → Nat → (Nat → Byte) → World → Outcome × World
  | 0, _, _, _, w => (.outOfFuel, w)
  | fuel + 1, s, winBytes, block, w =>
    match iteration impl Bps window blocksize s winBytes block w with
    | .failed w1 => (.returned (-1), w1)
    | .outOfFuel w1 => (.outOfFuel, w1)
    | .completed done s1 winBytes1 block1 w1 =>
      if done then (.returned 0, w1)
      else throttleLoop impl Bps window blocksize fuel s1 winBytes1 block1 w1

/-- The function `throttle(Bps, window, block, blocksize)` run in the world
`w`: the outcome and the world it leaves.  One iteration of the main loop
that is not the last consumes a whole block, so `w.input.length + 1`
iterations are enough. -/
def throttle (impl : SleepImpl) (Bps : ℚ) (window : Int) (block : Nat → Byte)
    (blocksize : Nat) (w : World) : Outcome × World :=
  throttleLoop impl Bps window blocksize (w.input.length + 1) (initAcct window) 0 block w

/-- A world with the clock at `now`, the stream `input` to deliver, every call
succeeding in full and at once, nothing written and an empty trace. -/
def World.start (now : Int) (input : List Byte) : World :=
  { now := now, input := input, reads := [], clocks := [], sleeps := [], writes := [],
    output := [], log := [] }

/-! ## Notions used by the statements -/

/-- The trace entries made by the sleep primitives. -/
def Call.isSleep : Call → Bool
  | .nanosleep _ => true
  | .sleep _ => true
  | .usleep _ => true
  | _ => false

/-- What a step of the relay that only sleeps leaves alone: the stream, the
destination and the behaviour of the other calls; the trace grows by sleep
calls. -/
def SleepStep (w w1 : World) : Prop :=
  w1.input = w.input ∧ w1.reads = w.reads ∧ w1.clocks = w.clocks ∧ w1.writes = w.writes ∧
  w1.output = w.output ∧ w1.sleeps <:+ w.sleeps ∧
  ∃ l, w1.log = w.log ++ l ∧ ∀ e ∈ l, e.call.isSleep = true

/-- The number of bytes a trace entry moved: the count a `read` or a `write`
returned. -/
def Event.moved (e : Event) : Nat :=
  match e.call with
  | .read _ (some n) => n
  | .write _ (some n) => n
  | _ => 0

/-- The number of bytes the calls of a trace moved. -/
def moved (l : List Event) : Nat := (l.map Event.moved).sum

/-- Every entry of `l` is a `read` call that asks for what is left of `nleft`
bytes after the reads before it. -/
def ReadsRemainder (nleft : Nat) (l : List Event) : Prop :=
  ∀ pre e post, l = pre ++ e :: post → ∃ r, e.call = .read (nleft - moved pre) r

/-- Every entry of `l` is a `write` call that offers what is left of `nleft`
bytes after the writes before it. -/
def WritesRemainder (nleft : Nat) (l : List Event) : Prop :=
  ∀ pre e post, l = pre ++ e :: post → ∃ r, e.call = .write (nleft - moved pre) r

/-- What the fill loop leaves alone: the destination and the behaviour of the
calls other than `read`. -/
def ReadPhase (w w1 : World) : Prop :=
  w1.output = w.output ∧ w1.writes = w.writes ∧ w1.clocks = w.clocks ∧
  w1.sleeps = w.sleeps ∧ w1.reads <:+ w.reads

/-- What the flush loop leaves alone: the source and the behaviour of the
calls other than `write`. -/
def WritePhase (w w1 : World) : Prop :=
  w1.input = w.input ∧ w1.reads = w.reads ∧ w1.clocks = w.clocks ∧
  w1.sleeps = w.sleeps ∧ w1.writes <:+ w.writes

/-- The trace `rs` of a fill phase that ran to its end with `filled` bytes in
the block: every call is a `read` asking for what is left of the block, the
counts returned add up to `filled`, and the block is full unless the source
reported the end of the stream (`eof`), which it did with the last call. -/
def FillTrace (blocksize : Nat) (rs : List Event) (filled : Nat) (eof : Bool) : Prop :=
  ReadsRemainder blocksize rs ∧ moved rs = filled ∧ filled ≤ blocksize ∧
  (eof = false → filled = blocksize) ∧
  (eof = true → ∃ rs1 t n, rs = rs1 ++ [⟨t, .read n (some 0)⟩])

/-- The trace of a pass of the main loop that reaches the bottom of the body:
the reads of the fill phase, one `gettimeofday`, the sleep calls, the `flush`
mark with the number of bytes filled, and writes that offer what is left of
those bytes and add up to them. -/
def PassTrace (blocksize : Nat) (eof : Bool) (l : List Event) : Prop :=
  ∃ rs c sl f ws filled, l = rs ++ c :: (sl ++ f :: ws) ∧
    FillTrace blocksize rs filled eof ∧ (∃ tv, c.call = .gettimeofday (some tv)) ∧
    (∀ e ∈ sl, e.call.isSleep = true) ∧ (∃ st wb, f.call = .flush filled st wb) ∧
    WritesRemainder filled ws ∧ moved ws = filled

/-- The trace of a pass of the main loop that ends in `return -1`: the reads
of the fill phase up to one that fails; or a whole fill phase and a
`gettimeofday` that fails; or a whole fill phase, a `gettimeofday`, the sleep
calls, the `flush` mark and writes up to one that returns `-1` or `0`. -/
def FailedPass (blocksize : Nat) (l : List Event) : Prop :=
  (∃ rs t n, l = rs ++ [⟨t, .read n none⟩] ∧ ReadsRemainder blocksize l) ∨
  (∃ rs t filled eof, l = rs ++ [⟨t, .gettimeofday none⟩] ∧
    FillTrace blocksize rs filled eof) ∨
  (∃ rs c sl f ws t n r filled eof,
    l = rs ++ c :: (sl ++ f :: (ws ++ [⟨t, .write n r⟩])) ∧ (r = none ∨ r = some 0) ∧
    FillTrace blocksize rs filled eof ∧ (∃ tv, c.call = .gettimeofday (some tv)) ∧
    (∀ e ∈ sl, e.call.isSleep = true) ∧ (∃ st wb, f.call = .flush filled st wb) ∧
    WritesRemainder filled (ws ++ [⟨t, .write n r⟩]))

/-- No `read` call to come fails. -/
def World.ReadsOk (w : World) : Prop := ∀ e ∈ w.reads, e.ret ≠ none

/-- Every `write` call to come accepts at least one byte. -/
def World.WritesOk (w : World) : Prop := ∀ e ∈ w.writes, ∃ k, 1 ≤ k ∧ e.ret = some k

/-- No `gettimeofday` call to come fails. -/
def World.ClocksOk (w : World) : Prop := ∀ e ∈ w.clocks, e.ok = true

/-- The last entry of a trace is a call that failed: a `read` or a
`gettimeofday` that returned `-1`, or a `write` that returned `-1` or `0`. -/
def EndsInFailure (l : List Event) : Prop :=
  ∃ pre t, (∃ n, l = pre ++ [⟨t, .read n none⟩]) ∨ (l = pre ++ [⟨t, .gettimeofday none⟩]) ∨
    (∃ n, l = pre ++ [⟨t, .write n none⟩]) ∨ (∃ n, l = pre ++ [⟨t, .write n (some 0)⟩])

/-- Five bytes of input, delivered and accepted in pieces. -/
def piecewiseWorld : World :=
  { World.start 0 [1, 2, 3, 4, 5] with
    reads := [⟨0, some 2⟩, ⟨5, some 1⟩], writes := [⟨3, some 1⟩, ⟨0, some 9⟩] }

/-- A stream `input` whose first `gettimeofday` fails. -/
def clockFailWorld (input : List Byte) : World :=
  { World.start 0 input with clocks := [⟨0, false⟩] }

/-- A stream of 500 bytes in a world where every call succeeds at once and
every sleep lasts what it was asked for, but for fifteen microseconds that go
by before the fifth reading of the clock. -/
def lateClockWorld : World :=
  { World.start 0 (List.replicate 500 7) with
    clocks := [⟨0, true⟩, ⟨0, true⟩, ⟨0, true⟩, ⟨0, true⟩, ⟨15000, true⟩] }

/-! ## Notions for the timing statements -/

/-- A world whose clock never goes backwards across a call and whose sleep
calls all run to their end, sleeping the time requested or longer. -/
def World.Steady (w : World) : Prop :=
  (∀ e ∈ w.reads, 0 ≤ e.delay) ∧ (∀ e ∈ w.writes, 0 ≤ e.delay) ∧
  (∀ e ∈ w.clocks, 0 ≤ e.delay) ∧
  (∀ e ∈ w.sleeps, ∃ extra, 0 ≤ extra ∧ e = .complete extra)

/-- The resolution of the sleep of a configuration, in nanoseconds: one
nanosecond for `nanosleep`, one microsecond for `usleep`. -/
def resolution : SleepImpl → Int
  | .nanosleep => 1
  | .sleepUsleep => 1000
  | .usleepOnly => 1000

/-- A `flush` mark of the trace: the wall clock when the writing of the block
begins, the size of the block, the start of the window the block belongs to
and the number of bytes read since that start, the block included. -/
structure Mark where
  t : Int
  nread : Nat
  winStart : Timeval
  winBytes : Nat
deriving DecidableEq, Repr

/-- The `flush` marks of a trace, in order. -/
def marks : List Event → List Mark
  | [] => []
  | e :: es =>
    match e.call with
    | .flush n st b => ⟨e.t, n, st, b⟩ :: marks es
    | _ => marks es

/-- The longest computed sleep, in seconds, that the conversion of a
configuration holds: the largest `double` below `2^63` for the `time_t` of
`nanosleep`, `UINT_MAX` seconds for `sleep`, `UINT_MAX` microseconds for
`usleep` alone. -/
def sleepCap : SleepImpl → ℚ
  | .nanosleep => 9223372036854774784
  | .sleepUsleep => 4294967295
  | .usleepOnly => 4294967295 / 1000000

/-- The bytes counted at a mark take at `Bps` no longer than the longest sleep
the configuration can ask for. -/
def Mark.Fits (impl : SleepImpl) (Bps : ℚ) (m : Mark) : Prop :=
  (m.winBytes : ℚ) ≤ Bps * sleepCap impl

/-- The rate bound at a `flush` mark: the bytes read since the start of the
window, the block included, over the time from that start to the mark and one
unit of the sleep resolution more, stay below `Bps` bytes per second and one
part in `2^50` more (times are in nanoseconds). -/
def Mark.Paced (impl : SleepImpl) (Bps : ℚ) (m : Mark) : Prop :=
  (m.winBytes : ℚ) * 1000000000
    < Bps * (((m.t : ℚ) - (m.winStart.toNs : ℚ) + (resolution impl : ℚ))
              * (1 + 1 / 1125899906842624))

/-- The sizes of the blocks a stream of `n` bytes is cut into: whole blocks of
`blocksize` bytes, then what is left, which may be nothing.  The first
argument bounds the number of blocks. -/
def blockSizes (blocksize : Nat) : Nat → Nat → List Nat
  | 0, _ => []
  | fuel + 1, n =>
    if n < blocksize then [n] else blocksize :: blockSizes blocksize fuel (n - blocksize)

/-- The marks `ms` are paced from the instant `origin` (nanoseconds) on, `c`
bytes having gone before them: each mark comes no earlier than `origin` plus
the time the bytes up to and including its block take at `perByte` nanoseconds
a byte, or plus `cap` nanoseconds if that is less, short of it by at most
`slack` nanoseconds. -/
def PacedFrom (origin perByte cap slack : Int) : Nat → List Mark → Prop
  | _, [] => True
  | c, m :: ms =>
    origin + min (((c + m.nread : Nat) : Int) * perByte) cap ≤ m.t + slack ∧
    PacedFrom origin perByte cap slack (c + m.nread) ms


/-! ## Binary64 rounding -/

theorem pow2_eq (e : Int) : pow2 e = (2 : ℚ) ^ e := by
  unfold pow2
  by_cases h : 0 ≤ e
  · rw [if_pos h]
    obtain ⟨n, rfl⟩ := Int.eq_ofNat_of_zero_le h
    simp
  · rw [if_neg h]
    obtain ⟨n, hn⟩ := Int.eq_ofNat_of_zero_le (show 0 ≤ -e by omega)
    have he : e = -(n : Int) := by omega
    subst he
    simp

theorem pow2_pos (e : Int) : 0 < pow2 e := by
  rw [pow2_eq]; exact zpow_pos (by norm_num) e

theorem pow2_add (a b : Int) : pow2 (a + b) = pow2 a * pow2 b := by
  simp only [pow2_eq]; exact zpow_add₀ (by norm_num) a b

theorem pow2_le {a b : Int} (h : a ≤ b) : pow2 a ≤ pow2 b := by
  simp only [pow2_eq]; exact zpow_le_zpow_right₀ (by norm_num) h

theorem pow2_lt {a b : Int} (h : a < b) : pow2 a < pow2 b := by
  simp only [pow2_eq]; exact zpow_lt_zpow_right₀ (by norm_num) h

theorem pow2_lt_iff {a b : Int} : pow2 a < pow2 b ↔ a < b := by
  simp only [pow2_eq]; exact zpow_lt_zpow_iff_right₀ (by norm_num)

theorem pow2_le_iff {a b : Int} : pow2 a ≤ pow2 b ↔ a ≤ b := by
  simp only [pow2_eq]; exact zpow_le_zpow_iff_right₀ (by norm_num)

/-- A power of two with a natural exponent is an integer. -/
theorem pow2_natCast (n : Nat) : pow2 (n : Int) = (((2 : Int) ^ n : Int) : ℚ) := by
  rw [pow2_eq]; push_cast; exact zpow_natCast 2 n

theorem log2Fuel_spec (fuel : Nat) : ∀ n : Nat, n ≤ fuel → n ≠ 0 →
    2 ^ log2Fuel fuel n ≤ n ∧ n < 2 ^ (log2Fuel fuel n + 1) := by
  induction fuel with
  | zero => intro n h h0; omega
  | succ fuel ih =>
    intro n h h0
    unfold log2Fuel
    by_cases h2 : n < 2
    · rw [if_pos h2]
      have : n = 1 := by omega
      subst this
      simp
    · rw [if_neg h2]
      obtain ⟨a, b⟩ := ih (n / 2) (by omega) (by omega)
      rw [pow_succ, pow_succ]
      rw [pow_succ] at b
      constructor <;> omega

theorem ilog2_spec {x : ℚ} (hx : 0 < x) : pow2 (ilog2 x) ≤ x ∧ x < pow2 (ilog2 x + 1) := by
  have hnum : 0 < x.num := Rat.num_pos.mpr hx
  have hn0 : x.num.natAbs ≠ 0 := by omega
  have hd0 : x.den ≠ 0 := x.den_nz
  obtain ⟨na, nb⟩ := log2Fuel_spec x.num.natAbs x.num.natAbs (le_refl _) hn0
  obtain ⟨da, db⟩ := log2Fuel_spec x.den x.den (le_refl _) hd0
  unfold ilog2
  simp only []
  generalize log2Fuel x.num.natAbs x.num.natAbs = a at na nb
  generalize log2Fuel x.den x.den = c at da db
  have hxe : x = (x.num.natAbs : ℚ) / (x.den : ℚ) := by
    have h2 : (x.num.natAbs : ℚ) = (x.num : ℚ) := by
      rw [← Int.cast_natCast, Int.natAbs_of_nonneg (le_of_lt hnum)]
    rw [h2]
    exact (Rat.num_div_den x).symm
  have hdq : (0 : ℚ) < (x.den : ℚ) := by exact_mod_cast Nat.pos_of_ne_zero hd0
  have na' : (2 : ℚ) ^ a ≤ (x.num.natAbs : ℚ) := by exact_mod_cast na
  have nb' : (x.num.natAbs : ℚ) < (2 : ℚ) ^ (a + 1) := by exact_mod_cast nb
  have da' : (2 : ℚ) ^ c ≤ (x.den : ℚ) := by exact_mod_cast da
  have db' : (x.den : ℚ) < (2 : ℚ) ^ (c + 1) := by exact_mod_cast db
  have hpa : (0 : ℚ) < (2 : ℚ) ^ a := pow_pos (by norm_num) a
  have hpc : (0 : ℚ) < (2 : ℚ) ^ c := pow_pos (by norm_num) c
  have e1 : pow2 ((a : Int) - (c : Int) + 1) = (2 : ℚ) ^ (a + 1) / (2 : ℚ) ^ c := by
    rw [pow2_eq, show (a : Int) - (c : Int) + 1 = ((a + 1 : Nat) : Int) - (c : Int) by push_cast; ring,
      zpow_sub₀ (by norm_num), zpow_natCast, zpow_natCast]
  have e2 : pow2 ((a : Int) - (c : Int) - 1) = (2 : ℚ) ^ a / (2 : ℚ) ^ (c + 1) := by
    rw [pow2_eq, show (a : Int) - (c : Int) - 1 = (a : Int) - ((c + 1 : Nat) : Int) by push_cast; ring,
      zpow_sub₀ (by norm_num), zpow_natCast, zpow_natCast]
  have up : x < pow2 ((a : Int) - (c : Int) + 1) := by
    rw [e1, hxe, div_lt_div_iff₀ hdq hpc]
    calc (x.num.natAbs : ℚ) * (2 : ℚ) ^ c < (2 : ℚ) ^ (a + 1) * (2 : ℚ) ^ c :=
          mul_lt_mul_of_pos_right nb' hpc
      _ ≤ (2 : ℚ) ^ (a + 1) * (x.den : ℚ) :=
          mul_le_mul_of_nonneg_left da' (le_of_lt (pow_pos (by norm_num) _))
  have lo : pow2 ((a : Int) - (c : Int) - 1) ≤ x := by
    rw [e2, hxe, div_le_div_iff₀ (pow_pos (by norm_num) _) hdq]
    calc (2 : ℚ) ^ a * (x.den : ℚ) ≤ (2 : ℚ) ^ a * (2 : ℚ) ^ (c + 1) :=
          mul_le_mul_of_nonneg_left (le_of_lt db') (le_of_lt hpa)
      _ ≤ (x.num.natAbs : ℚ) * (2 : ℚ) ^ (c + 1) :=
          mul_le_mul_of_nonneg_right na' (le_of_lt (pow_pos (by norm_num) _))
  by_cases h : pow2 ((a : Int) - (c : Int)) ≤ x
  · rw [if_pos h]
    exact ⟨h, up⟩
  · rw [if_neg h]
    refine ⟨lo, ?_⟩
    rw [show (a : Int) - (c : Int) - 1 + 1 = (a : Int) - (c : Int) by ring]
    exact not_le.mp h

theorem ilog2_unique {x : ℚ} (hx : 0 < x) {e : Int} (h1 : pow2 e ≤ x) (h2 : x < pow2 (e + 1)) :
    ilog2 x = e := by
  obtain ⟨a, b⟩ := ilog2_spec hx
  have h3 : e < ilog2 x + 1 := pow2_lt_iff.mp (lt_of_le_of_lt h1 b)
  have h4 : ilog2 x < e + 1 := pow2_lt_iff.mp (lt_of_le_of_lt a h2)
  omega

theorem ilog2_mono {x y : ℚ} (hx : 0 < x) (h : x ≤ y) : ilog2 x ≤ ilog2 y := by
  obtain ⟨a, -⟩ := ilog2_spec hx
  obtain ⟨-, d⟩ := ilog2_spec (lt_of_lt_of_le hx h)
  have : ilog2 x < ilog2 y + 1 := pow2_lt_iff.mp (lt_of_le_of_lt (le_trans a h) d)
  omega

theorem roundEven_intCast (k : Int) : roundEven (k : ℚ) = k := by
  simp [roundEven]

theorem roundEven_bounds (r : ℚ) :
    ⌊r⌋ ≤ roundEven r ∧ roundEven r ≤ ⌊r⌋ + 1 ∧
    (roundEven r : ℚ) ≤ r + 1 / 2 ∧ r - 1 / 2 ≤ (roundEven r : ℚ) := by
  have h1 : (⌊r⌋ : ℚ) ≤ r := Int.floor_le r
  have h2 : r < (⌊r⌋ : ℚ) + 1 := Int.lt_floor_add_one r
  unfold roundEven
  by_cases ha : r - (⌊r⌋ : ℚ) < 1 / 2
  · rw [if_pos ha]
    refine ⟨le_refl _, by omega, by linarith, by linarith⟩
  · rw [if_neg ha]
    by_cases hb : 1 / 2 < r - (⌊r⌋ : ℚ)
    · rw [if_pos hb]
      refine ⟨by omega, le_refl _, by push_cast; linarith, by push_cast; linarith⟩
    · rw [if_neg hb]
      have heq : r - (⌊r⌋ : ℚ) = 1 / 2 := le_antisymm (not_lt.mp hb) (not_lt.mp ha)
      by_cases hc : ⌊r⌋ % 2 = 0
      · rw [if_pos hc]
        refine ⟨le_refl _, by omega, by linarith, by linarith⟩
      · rw [if_neg hc]
        refine ⟨by omega, le_refl _, by push_cast; linarith, by push_cast; linarith⟩

theorem roundEven_mono {r s : ℚ} (h : r ≤ s) : roundEven r ≤ roundEven s := by
  have hf : ⌊r⌋ ≤ ⌊s⌋ := Int.floor_mono h
  obtain ⟨r1, r2, -, -⟩ := roundEven_bounds r
  obtain ⟨s1, s2, -, -⟩ := roundEven_bounds s
  rcases lt_or_eq_of_le hf with hlt | heq
  · omega
  · unfold roundEven
    rw [← heq]
    have hd : r - (⌊r⌋ : ℚ) ≤ s - (⌊r⌋ : ℚ) := by linarith
    by_cases ha : r - (⌊r⌋ : ℚ) < 1 / 2
    · rw [if_pos ha]
      split
      · exact le_refl _
      · split
        · omega
        · split <;> omega
    · rw [if_neg ha]
      have ha' : ¬ (s - (⌊r⌋ : ℚ) < 1 / 2) := by
        intro hc; apply ha; linarith
      rw [if_neg ha']
      by_cases hb : 1 / 2 < r - (⌊r⌋ : ℚ)
      · rw [if_pos hb, if_pos (by linarith)]
      · rw [if_neg hb]
        by_cases hb' : 1 / 2 < s - (⌊r⌋ : ℚ)
        · rw [if_pos hb']
          split <;> omega
        · rw [if_neg hb']


theorem flPos_zero : flPos 0 = 0 := by
  simp [flPos, roundEven]

theorem fl_zero : fl 0 = 0 := by
  simp [fl, flPos_zero]

theorem fl_neg (x : ℚ) : fl (-x) = -fl x := by
  unfold fl
  rcases lt_trichotomy x 0 with h | h | h
  · rw [if_pos (by linarith), if_neg (by linarith)]
    simp
  · subst h
    simp [flPos_zero]
  · rw [if_neg (by linarith), if_pos (by linarith)]
    simp

theorem flPos_nonneg {x : ℚ} (hx : 0 ≤ x) : 0 ≤ flPos x := by
  unfold flPos
  apply mul_nonneg _ (le_of_lt (pow2_pos _))
  have h1 : 0 ≤ x / pow2 (max (ilog2 x) (-1022) - 52) := div_nonneg hx (le_of_lt (pow2_pos _))
  have h2 : 0 ≤ ⌊x / pow2 (max (ilog2 x) (-1022) - 52)⌋ := Int.floor_nonneg.mpr h1
  have h3 := (roundEven_bounds (x / pow2 (max (ilog2 x) (-1022) - 52))).1
  exact_mod_cast le_trans h2 h3

theorem fl_nonneg {x : ℚ} (hx : 0 ≤ x) : 0 ≤ fl x := by
  unfold fl
  rw [if_pos hx]
  exact flPos_nonneg hx

theorem fl_nonpos {x : ℚ} (hx : x ≤ 0) : fl x ≤ 0 := by
  have := fl_nonneg (show 0 ≤ -x by linarith)
  rw [fl_neg] at this
  linarith

/-- The error of a rounding is at most half a unit in the last place. -/
theorem flPos_err_ulp (x : ℚ) :
    |flPos x - x| ≤ pow2 (max (ilog2 x) (-1022) - 53) := by
  unfold flPos
  generalize max (ilog2 x) (-1022) = e
  have hu : 0 < pow2 (e - 52) := pow2_pos _
  obtain ⟨-, -, a, b⟩ := roundEven_bounds (x / pow2 (e - 52))
  have hx : x = x / pow2 (e - 52) * pow2 (e - 52) := by field_simp
  have h53 : pow2 (e - 53) = 1 / 2 * pow2 (e - 52) := by
    rw [show e - 53 = (-1) + (e - 52) by ring, pow2_add]
    congr 1
  rw [h53, abs_le]
  generalize x / pow2 (e - 52) = m at a b hx
  constructor
  · rw [hx]; nlinarith
  · rw [hx]; nlinarith

theorem ilog2_ge {x : ℚ} {e : Int} (h : pow2 e ≤ x) : e ≤ ilog2 x := by
  have hx : 0 < x := lt_of_lt_of_le (pow2_pos e) h
  obtain ⟨-, b⟩ := ilog2_spec hx
  have : e < ilog2 x + 1 := pow2_lt_iff.mp (lt_of_le_of_lt h b)
  omega

theorem ilog2_lt {x : ℚ} {e : Int} (hx : 0 < x) (h : x < pow2 e) : ilog2 x < e := by
  obtain ⟨a, -⟩ := ilog2_spec hx
  exact pow2_lt_iff.mp (lt_of_le_of_lt a h)

/-- The relative error of a rounding in the normal range is at most
`2^-53`. -/
theorem flPos_err {x : ℚ} (hx : pow2 (-1022) ≤ x) : |flPos x - x| ≤ pow2 (-53) * x := by
  have h0 : 0 < x := lt_of_lt_of_le (pow2_pos _) hx
  have he : -1022 ≤ ilog2 x := ilog2_ge hx
  have := flPos_err_ulp x
  rw [max_eq_left he] at this
  refine le_trans this ?_
  rw [show ilog2 x - 53 = (-53) + ilog2 x by ring, pow2_add]
  exact mul_le_mul_of_nonneg_left (ilog2_spec h0).1 (le_of_lt (pow2_pos _))

theorem fl_err {x : ℚ} (hx : pow2 (-1022) ≤ |x|) : |fl x - x| ≤ pow2 (-53) * |x| := by
  rcases le_or_lt 0 x with h | h
  · rw [abs_of_nonneg h] at hx ⊢
    unfold fl
    rw [if_pos h]
    exact flPos_err hx
  · rw [abs_of_neg h] at hx ⊢
    unfold fl
    rw [if_neg (by linarith)]
    have := flPos_err hx
    rw [show -flPos (-x) - x = -(flPos (-x) - -x) by ring, abs_neg]
    exact this

/-- A rounding stays within the binade of its argument. -/
theorem flPos_le_pow2 {x : ℚ} (hx : 0 < x) : flPos x ≤ pow2 (max (ilog2 x) (-1022) + 1) := by
  unfold flPos
  have hb : x < pow2 (max (ilog2 x) (-1022) + 1) :=
    lt_of_lt_of_le (ilog2_spec hx).2 (pow2_le (by omega))
  generalize max (ilog2 x) (-1022) = e at hb
  have hu : 0 < pow2 (e - 52) := pow2_pos _
  have h1 : pow2 (e + 1) = ((2 ^ 53 : Int) : ℚ) * pow2 (e - 52) := by
    rw [show e + 1 = ((53 : Nat) : Int) + (e - 52) by push_cast; ring, pow2_add, pow2_natCast]
  rw [h1]
  apply mul_le_mul_of_nonneg_right _ (le_of_lt hu)
  have h2 : x / pow2 (e - 52) ≤ ((2 ^ 53 : Int) : ℚ) := by
    rw [div_le_iff₀ hu, ← h1]
    exact le_of_lt hb
  have h3 := roundEven_mono h2
  rw [roundEven_intCast] at h3
  exact_mod_cast h3

theorem pow2_le_flPos {x : ℚ} (hx : pow2 (-1022) ≤ x) : pow2 (ilog2 x) ≤ flPos x := by
  have h0 : 0 < x := lt_of_lt_of_le (pow2_pos _) hx
  have he : -1022 ≤ ilog2 x := ilog2_ge hx
  unfold flPos
  rw [max_eq_left he]
  have ha := (ilog2_spec h0).1
  generalize ilog2 x = e at ha
  have hu : 0 < pow2 (e - 52) := pow2_pos _
  have h1 : pow2 e = ((2 ^ 52 : Int) : ℚ) * pow2 (e - 52) := by
    rw [show e = ((52 : Nat) : Int) + (e - 52) by push_cast; ring, pow2_add, pow2_natCast]
    simp
  rw [h1]
  apply mul_le_mul_of_nonneg_right _ (le_of_lt hu)
  have h2 : ((2 ^ 52 : Int) : ℚ) ≤ x / pow2 (e - 52) := by
    rw [le_div_iff₀ hu, ← h1]
    exact ha
  have h3 := roundEven_mono h2
  rw [roundEven_intCast] at h3
  exact_mod_cast h3

theorem flPos_mono {x y : ℚ} (hx : 0 ≤ x) (h : x ≤ y) : flPos x ≤ flPos y := by
  rcases eq_or_lt_of_le hx with h0 | h0
  · rw [← h0, flPos_zero]
    exact flPos_nonneg (le_trans hx h)
  have hy : 0 < y := lt_of_lt_of_le h0 h
  have hm : ilog2 x ≤ ilog2 y := ilog2_mono h0 h
  rcases eq_or_lt_of_le (max_le_max hm (le_refl (-1022 : Int))) with heq | hlt
  · unfold flPos
    rw [heq]
    apply mul_le_mul_of_nonneg_right _ (le_of_lt (pow2_pos _))
    have := roundEven_mono (div_le_div_of_nonneg_right h (le_of_lt (pow2_pos
      (max (ilog2 y) (-1022) - 52))))
    exact_mod_cast this
  · have hy2 : -1022 < ilog2 y := by
      rcases le_or_lt (ilog2 y) (-1022) with hc | hc
      · rw [max_eq_right hc] at hlt
        have := le_max_right (ilog2 x) (-1022)
        omega
      · exact hc
    have hyn : pow2 (-1022) ≤ y := le_trans (pow2_le (le_of_lt hy2)) (ilog2_spec hy).1
    rw [max_eq_left (le_of_lt hy2)] at hlt
    calc flPos x ≤ pow2 (max (ilog2 x) (-1022) + 1) := flPos_le_pow2 h0
      _ ≤ pow2 (ilog2 y) := pow2_le (by omega)
      _ ≤ flPos y := pow2_le_flPos hyn

theorem fl_mono {x y : ℚ} (h : x ≤ y) : fl x ≤ fl y := by
  rcases le_or_lt 0 x with hx | hx
  · unfold fl
    rw [if_pos hx, if_pos (le_trans hx h)]
    exact flPos_mono hx h
  · rcases le_or_lt 0 y with hy | hy
    · exact le_trans (fl_nonpos (le_of_lt hx)) (fl_nonneg hy)
    · unfold fl
      rw [if_neg (by linarith), if_neg (by linarith)]
      have := flPos_mono (show 0 ≤ -y by linarith) (show -y ≤ -x by linarith)
      linarith

theorem flPos_of_int_mantissa {x : ℚ} {j : Int}
    (h : x / pow2 (max (ilog2 x) (-1022) - 52) = (j : ℚ)) : flPos x = x := by
  unfold flPos
  rw [h, roundEven_intCast, ← h]
  have := pow2_pos (max (ilog2 x) (-1022) - 52)
  field_simp

/-- A multiple of `2^p`, `p` no less than `-1074`, of at most `2^(p+53)` is a
`double`. -/
theorem flPos_of_dyadic {x : ℚ} (hx : 0 < x) (k p : Int) (hk : x = (k : ℚ) * pow2 p)
    (hp : -1074 ≤ p) (hb : x ≤ pow2 (p + 53)) : flPos x = x := by
  rcases eq_or_lt_of_le hb with heq | hlt
  · have he : ilog2 x = p + 53 := ilog2_unique hx (le_of_eq heq.symm)
      (by rw [heq]; exact pow2_lt (by omega))
    apply @flPos_of_int_mantissa x (2 ^ 52)
    rw [he, max_eq_left (by omega), heq, show p + 53 = ((52 : Nat) : Int) + (p + 53 - 52) by
      push_cast; ring, pow2_add, pow2_natCast]
    have := pow2_pos (p + 53 - 52)
    rw [show ((52 : Nat) : Int) + (p + 53 - 52) - 52 = p + 53 - 52 by push_cast; ring]
    field_simp
  · have he : ilog2 x < p + 53 := ilog2_lt hx hlt
    have hE : max (ilog2 x) (-1022) - 52 ≤ p := by
      have := max_le (show ilog2 x ≤ p + 52 by omega) (show (-1022 : Int) ≤ p + 52 by omega)
      omega
    have key : ∃ j : Int, x / pow2 (max (ilog2 x) (-1022) - 52) = (j : ℚ) := by
      generalize max (ilog2 x) (-1022) - 52 = q at hE
      obtain ⟨n, hn⟩ := Int.eq_ofNat_of_zero_le (show 0 ≤ p - q by omega)
      have hpp : pow2 p = pow2 (n : Int) * pow2 q := by
        rw [← pow2_add]; congr 1; omega
      refine ⟨k * 2 ^ n, ?_⟩
      rw [div_eq_iff (ne_of_gt (pow2_pos q)), hk, hpp, pow2_natCast]
      push_cast
      ring
    obtain ⟨j, hj⟩ := key
    exact flPos_of_int_mantissa hj

/-- A rational `k * 2^p` with `p ≥ -1074` and magnitude at most `2^(p+53)` is a
`double`: rounding leaves it unchanged. -/
theorem fl_of_dyadic {x : ℚ} (k p : Int) (hk : x = (k : ℚ) * pow2 p)
    (hp : -1074 ≤ p) (hb : |x| ≤ pow2 (p + 53)) : fl x = x := by
  rcases lt_trichotomy x 0 with h | h | h
  · unfold fl
    rw [if_neg (by linarith)]
    rw [abs_of_neg h] at hb
    rw [flPos_of_dyadic (by linarith) (-k) p (by rw [hk]; push_cast; ring) hp hb]
    ring
  · rw [h]; exact fl_zero
  · unfold fl
    rw [if_pos (le_of_lt h)]
    rw [abs_of_pos h] at hb
    exact flPos_of_dyadic h k p hk hp hb

/-- An integer of at most 53 bits is a `double`. -/
theorem fl_intCast (n : Int) (h : |n| ≤ 2 ^ 53) : fl (n : ℚ) = n := by
  apply fl_of_dyadic n 0
  · simp [pow2]
  · norm_num
  · have : pow2 (0 + 53) = ((2 ^ 53 : Int) : ℚ) := by
      rw [show (0 + 53 : Int) = ((53 : Nat) : Int) by norm_num, pow2_natCast]
    rw [this]
    exact_mod_cast h

/-- A rounded value is a `double`: rounding it again changes nothing. -/
theorem flPos_idem {x : ℚ} (hx : 0 ≤ x) : flPos (flPos x) = flPos x := by
  rcases eq_or_lt_of_le (flPos_nonneg hx) with h0 | h0
  · rw [← h0, flPos_zero]
  have hx0 : 0 < x := by
    rcases eq_or_lt_of_le hx with h | h
    · rw [← h, flPos_zero] at h0; exact absurd h0 (lt_irrefl _)
    · exact h
  apply flPos_of_dyadic h0 (roundEven (x / pow2 (max (ilog2 x) (-1022) - 52)))
    (max (ilog2 x) (-1022) - 52) rfl
  · have := le_max_right (ilog2 x) (-1022)
    omega
  · rw [show max (ilog2 x) (-1022) - 52 + 53 = max (ilog2 x) (-1022) + 1 by ring]
    exact flPos_le_pow2 hx0

theorem fl_idem (x : ℚ) : fl (fl x) = fl x := by
  rcases le_or_lt 0 x with h | h
  · have : fl x = flPos x := by unfold fl; rw [if_pos h]
    rw [this]
    unfold fl
    rw [if_pos (flPos_nonneg h)]
    exact flPos_idem h
  · have : fl x = -flPos (-x) := by unfold fl; rw [if_neg (by linarith)]
    rw [this, fl_neg]
    have h2 : fl (flPos (-x)) = flPos (flPos (-x)) := by
      unfold fl; rw [if_pos (flPos_nonneg (by linarith))]
    rw [h2, flPos_idem (by linarith)]

/-- A positive `double` is a multiple of its unit in the last place. -/
theorem double_dyadic {x : ℚ} (hx : 0 ≤ x) (hd : fl x = x) :
    ∃ k : Int, x = (k : ℚ) * pow2 (max (ilog2 x) (-1022) - 52) := by
  refine ⟨roundEven (x / pow2 (max (ilog2 x) (-1022) - 52)), ?_⟩
  have : fl x = flPos x := by unfold fl; rw [if_pos hx]
  rw [this] at hd
  exact hd.symm

/-- A `double` below one is at most `1 - 2^-53`. -/
theorem double_lt_one {x : ℚ} (hd : fl x = x) (h : x < 1) : x ≤ 1 - pow2 (-53) := by
  have h53 : pow2 (-53) ≤ 1 / 2 := by
    have : pow2 (-1) = 1 / 2 := by simp [pow2]
    rw [← this]
    exact pow2_le (by norm_num)
  rcases le_or_lt x 0 with h0 | h0
  · linarith
  have he : ilog2 x < 0 := ilog2_lt h0 (by simpa [pow2] using h)
  rcases lt_or_eq_of_le (show ilog2 x ≤ -1 by omega) with hlt | heq
  · have := (ilog2_spec h0).2
    have h2 : pow2 (ilog2 x + 1) ≤ pow2 (-1) := pow2_le (by omega)
    have h3 : pow2 (-1) = 1 / 2 := by simp [pow2]
    linarith
  · obtain ⟨k, hk⟩ := double_dyadic (le_of_lt h0) hd
    rw [heq, max_eq_left (by norm_num)] at hk
    have hp : pow2 (-1 - 52) = pow2 (-53) := by congr 1
    rw [hp] at hk
    have hpos := pow2_pos (-53)
    have hone : (1 : ℚ) = ((2 ^ 53 : Int) : ℚ) * pow2 (-53) := by
      simp [pow2]
    have hk1 : (k : ℚ) < ((2 ^ 53 : Int) : ℚ) := by
      by_contra hc
      have hc' := not_lt.mp hc
      have : (1 : ℚ) ≤ x := by
        rw [hk, hone]
        exact mul_le_mul_of_nonneg_right hc' (le_of_lt hpos)
      linarith
    have hk2 : k < 2 ^ 53 := by exact_mod_cast hk1
    have hk3 : (k : ℚ) ≤ ((2 ^ 53 - 1 : Int) : ℚ) := by
      exact_mod_cast (show k ≤ 2 ^ 53 - 1 by omega)
    rw [hk]
    calc (k : ℚ) * pow2 (-53) ≤ ((2 ^ 53 - 1 : Int) : ℚ) * pow2 (-53) :=
          mul_le_mul_of_nonneg_right hk3 (le_of_lt hpos)
      _ = 1 - pow2 (-53) := by
          simp [pow2]
          norm_num


/-- The whole part of a non-negative `double` and what is left of it are
doubles: the subtraction of line 130 and of line 144 is exact. -/
theorem double_floor {s : ℚ} (hd : fl s = s) (h0 : 0 ≤ s) :
    fl (⌊s⌋ : ℚ) = (⌊s⌋ : ℚ) ∧ fl (s - (⌊s⌋ : ℚ)) = s - (⌊s⌋ : ℚ) := by
  rcases eq_or_lt_of_le h0 with hz | hpos
  · rw [← hz]; simp [fl_zero]
  obtain ⟨k, hk⟩ := double_dyadic h0 hd
  have hfl0 : 0 ≤ ⌊s⌋ := Int.floor_nonneg.mpr h0
  have hfl1 : (⌊s⌋ : ℚ) ≤ s := Int.floor_le s
  have hfl2 : s < (⌊s⌋ : ℚ) + 1 := Int.lt_floor_add_one s
  rcases le_or_lt 52 (max (ilog2 s) (-1022)) with hE | hE
  · obtain ⟨n, hn⟩ := Int.eq_ofNat_of_zero_le (show 0 ≤ max (ilog2 s) (-1022) - 52 by omega)
    rw [hn, pow2_natCast] at hk
    have hint : s = ((k * 2 ^ n : Int) : ℚ) := by rw [hk]; push_cast; ring
    have hfs : (⌊s⌋ : ℚ) = s := by rw [hint, Int.floor_intCast]
    rw [hfs, sub_self]
    exact ⟨hd, fl_zero⟩
  · have hs52 : s < pow2 52 :=
      lt_of_lt_of_le (ilog2_spec hpos).2 (pow2_le (by
        have := le_max_left (ilog2 s) (-1022)
        omega))
    have h52 : pow2 52 = ((2 ^ 52 : Int) : ℚ) := by
      rw [show (52 : Int) = ((52 : Nat) : Int) by norm_num, pow2_natCast]
    constructor
    · apply fl_intCast
      have : (⌊s⌋ : ℚ) < ((2 ^ 52 : Int) : ℚ) := by rw [← h52]; linarith
      have h3 : ⌊s⌋ < 2 ^ 52 := by exact_mod_cast this
      rw [abs_of_nonneg hfl0]
      omega
    · obtain ⟨m, hm⟩ := Int.eq_ofNat_of_zero_le
        (show 0 ≤ -(max (ilog2 s) (-1022) - 52) by omega)
      have hone : pow2 (m : Int) * pow2 (max (ilog2 s) (-1022) - 52) = 1 := by
        rw [← pow2_add, ← hm, show -(max (ilog2 s) (-1022) - 52) + (max (ilog2 s) (-1022) - 52)
          = 0 by ring]
        simp [pow2]
      apply fl_of_dyadic (k - ⌊s⌋ * 2 ^ m) (max (ilog2 s) (-1022) - 52)
      · push_cast
        rw [sub_mul, ← hk, mul_assoc]
        rw [pow2_natCast] at hone
        push_cast at hone
        rw [hone, mul_one]
      · have := le_max_right (ilog2 s) (-1022)
        omega
      · rw [abs_of_nonneg (by linarith)]
        have hf0 : (0 : ℚ) ≤ (⌊s⌋ : ℚ) := by exact_mod_cast hfl0
        have h1 : s < pow2 (max (ilog2 s) (-1022) - 52 + 53) :=
          lt_of_lt_of_le (ilog2_spec hpos).2 (pow2_le (by
            have := le_max_left (ilog2 s) (-1022)
            omega))
        linarith

/-- A rounding does not pass an integer of at most 53 bits. -/
theorem int_le_fl {x : ℚ} {k : Int} (hk : |k| ≤ 2 ^ 53) (h : (k : ℚ) ≤ x) : (k : ℚ) ≤ fl x := by
  have := fl_mono h
  rwa [fl_intCast k hk] at this

theorem fl_le_int {x : ℚ} {k : Int} (hk : |k| ≤ 2 ^ 53) (h : x ≤ (k : ℚ)) : fl x ≤ (k : ℚ) := by
  have := fl_mono h
  rwa [fl_intCast k hk] at this

/-- The rounding of a number in the normal range, as a factor close to one. -/
theorem fl_bounds {x : ℚ} (hx : pow2 (-1022) ≤ x) :
    x * (1 - pow2 (-53)) ≤ fl x ∧ fl x ≤ x * (1 + pow2 (-53)) := by
  have h0 : 0 < x := lt_of_lt_of_le (pow2_pos _) hx
  have := fl_err (show pow2 (-1022) ≤ |x| by rw [abs_of_pos h0]; exact hx)
  rw [abs_of_pos h0, abs_le] at this
  constructor <;> nlinarith [this.1, this.2]

theorem pow2_neg53 : pow2 (-53) = 1 / 9007199254740992 := by
  simp [pow2]

theorem pow2_neg1022_lt : pow2 (-1022) < 1 / 1000000000000 := by
  have h1 : pow2 (-1022) ≤ pow2 (-40) := pow2_le (by norm_num)
  have h2 : pow2 (-40) = 1 / 1099511627776 := by simp [pow2]
  rw [h2] at h1
  exact lt_of_le_of_lt h1 (by norm_num)

/-! ## Conversions to integers -/

theorem truncToInt_of_nonneg {x : ℚ} (h : 0 ≤ x) : truncToInt x = ⌊x⌋ := by
  simp [truncToInt, h]

theorem toInt64_of_range {x : ℚ} (h0 : 0 ≤ x) (h : x < 9223372036854775808) :
    toInt64 x = ⌊x⌋ := by
  unfold toInt64
  rw [truncToInt_of_nonneg h0]
  have h1 : 0 ≤ ⌊x⌋ := Int.floor_nonneg.mpr h0
  have h2 : ⌊x⌋ < 9223372036854775808 := by
    rw [Int.floor_lt]; exact_mod_cast h
  rw [if_pos ⟨by omega, h2⟩]

theorem toUInt32_of_range {x : ℚ} (h0 : 0 ≤ x) (h : x < 4294967296) : toUInt32 x = ⌊x⌋ := by
  unfold toUInt32
  rw [toInt64_of_range h0 (by linarith)]
  have h1 : 0 ≤ ⌊x⌋ := Int.floor_nonneg.mpr h0
  have h2 : ⌊x⌋ < 4294967296 := by
    rw [Int.floor_lt]; exact_mod_cast h
  omega

theorem toUInt32_nonneg (x : ℚ) : 0 ≤ toUInt32 x := by
  unfold toUInt32
  omega

/-! ## The conversions of `sync` -/

theorem fl_nano : fl (1 / 1000000000) = 4835703278458517 / 4835703278458516698824704 := by
  decide!

theorem fl_micro : fl (1 / 1000000) = 4722366482869645 / 4722366482869645213696 := by
  decide!

theorem fl_clamp :
    fmul 999999 (fl (1 / 1000000)) = 9007190247541737 / 9007199254740992 := by
  decide!

theorem fl_pow2_neg1022 : fl (pow2 (-1022)) = pow2 (-1022) := by
  apply fl_of_dyadic 1 (-1022) (by simp) (by norm_num)
  rw [abs_of_pos (pow2_pos _)]
  exact pow2_le (by norm_num)

/-- A rounding of a number below one is an integer only at zero and one. -/
theorem floor_fl_small {y : ℚ} (h0 : 0 ≤ y) (h : y < pow2 (-1022)) : ⌊fl y⌋ = 0 := by
  have h1 : fl y ≤ pow2 (-1022) := by
    have := fl_mono (le_of_lt h)
    rwa [fl_pow2_neg1022] at this
  have h2 : 0 ≤ fl y := fl_nonneg h0
  have h3 := pow2_neg1022_lt
  rw [Int.floor_eq_iff]
  push_cast
  constructor <;> linarith

/-- The product of a `double` with `10^9` or `10^6`, rounded and truncated:
it is not below the truncation of the exact product and exceeds the exact
product by at most one part in `2^53`. -/
theorem floor_fl_mul {f c : ℚ} (h0 : 0 ≤ f) (hc : 0 < c) (hb : f * c < 9007199254740992) :
    ⌊f * c⌋ ≤ ⌊fl (f * c)⌋ ∧ ((⌊fl (f * c)⌋ : Int) : ℚ) ≤ f * c * (1 + pow2 (-53)) ∧
    f * c < ((⌊fl (f * c)⌋ : Int) : ℚ) + 1 ∧
    f * c * (1 - pow2 (-53)) < ((⌊fl (f * c)⌋ : Int) : ℚ) + 1 := by
  have hy0 : 0 ≤ f * c := mul_nonneg h0 (le_of_lt hc)
  generalize f * c = y at hy0 hb
  have hp53 := pow2_pos (-53)
  have hfy0 : 0 ≤ ⌊y⌋ := Int.floor_nonneg.mpr hy0
  have hfy1 : ⌊y⌋ < 9007199254740992 := by
    rw [Int.floor_lt]; exact_mod_cast hb
  have h1 : ((⌊y⌋ : Int) : ℚ) ≤ fl y :=
    int_le_fl (by rw [abs_of_nonneg hfy0]; norm_num; omega) (Int.floor_le y)
  have h2 : ⌊y⌋ ≤ ⌊fl y⌋ := Int.le_floor.mpr h1
  have h3 : y < ((⌊y⌋ : Int) : ℚ) + 1 := Int.lt_floor_add_one y
  have h2' : ((⌊y⌋ : Int) : ℚ) ≤ ((⌊fl y⌋ : Int) : ℚ) := by exact_mod_cast h2
  have h4 : y < ((⌊fl y⌋ : Int) : ℚ) + 1 := by linarith
  refine ⟨h2, ?_, h4, by nlinarith⟩
  rcases le_or_lt (pow2 (-1022)) y with hn | hn
  · exact le_trans (Int.floor_le _) (fl_bounds hn).2
  · rw [floor_fl_small hy0 hn]
    push_cast
    nlinarith

/-- The nanosecond conversion of lines 129-130 for a `double` that fits a
`time_t`: the seconds are the whole part, the nanoseconds lie between `0`
and `999999999`, and the two together are `sync` truncated to a nanosecond,
but for the rounding of the product, which can carry the nanoseconds up to the
next one when `sync` is within one part in `2^53` of it. -/
theorem toTimespec_spec {sync : ℚ} (hd : fl sync = sync) (h0 : 0 ≤ sync)
    (hr : sync < 9223372036854775808) :
    (toTimespec sync).tv_sec = ⌊sync⌋ ∧
    0 ≤ (toTimespec sync).tv_nsec ∧ (toTimespec sync).tv_nsec ≤ 999999999 ∧
    ((toTimespec sync).tv_sec : ℚ) + ((toTimespec sync).tv_nsec : ℚ) / 1000000000
      ≤ sync * (1 + pow2 (-53)) ∧
    sync < ((toTimespec sync).tv_sec : ℚ) + (((toTimespec sync).tv_nsec : ℚ) + 1) / 1000000000 ∧
    (toTimespec sync).valid = true := by
  obtain ⟨hfs, hff⟩ := double_floor hd h0
  have hsec : toInt64 sync = ⌊sync⌋ := toInt64_of_range h0 hr
  have h1 : (⌊sync⌋ : ℚ) ≤ sync := Int.floor_le sync
  have h2 : sync < (⌊sync⌋ : ℚ) + 1 := Int.lt_floor_add_one sync
  have hsec0 : 0 ≤ ⌊sync⌋ := Int.floor_nonneg.mpr h0
  have hf0 : 0 ≤ sync - (⌊sync⌋ : ℚ) := by linarith
  have hf1 : sync - (⌊sync⌋ : ℚ) ≤ 1 - pow2 (-53) := double_lt_one hff (by linarith)
  have hns : (toTimespec sync).tv_nsec = ⌊fl ((sync - (⌊sync⌋ : ℚ)) * 1000000000)⌋ := by
    simp only [toTimespec, hsec, ofInt, fsub, fmul, hfs, hff]
    have hy0 : 0 ≤ fl ((sync - (⌊sync⌋ : ℚ)) * 1000000000) := fl_nonneg (by nlinarith)
    have hy1 : fl ((sync - (⌊sync⌋ : ℚ)) * 1000000000) ≤ 1000000000 :=
      @fl_le_int _ 1000000000 (by norm_num) (by push_cast; nlinarith [pow2_pos (-53)])
    exact toInt64_of_range hy0 (by linarith)
  have hcap : fl ((1 - pow2 (-53)) * 1000000000) < 1000000000 := by decide!
  have hy2 : fl ((sync - (⌊sync⌋ : ℚ)) * 1000000000) < 1000000000 :=
    lt_of_le_of_lt (fl_mono (by nlinarith)) hcap
  obtain ⟨a, b, c, -⟩ := @floor_fl_mul (sync - (⌊sync⌋ : ℚ)) 1000000000 hf0 (by norm_num)
    (by nlinarith [pow2_pos (-53)])
  have hn0 : 0 ≤ ⌊fl ((sync - (⌊sync⌋ : ℚ)) * 1000000000)⌋ :=
    Int.floor_nonneg.mpr (fl_nonneg (by nlinarith))
  have hn1 : ⌊fl ((sync - (⌊sync⌋ : ℚ)) * 1000000000)⌋ < 1000000000 := by
    rw [Int.floor_lt]; exact_mod_cast hy2
  have hsec' : (toTimespec sync).tv_sec = ⌊sync⌋ := by simp only [toTimespec, hsec]
  have hp := pow2_pos (-53)
  refine ⟨hsec', by rw [hns]; exact hn0, by rw [hns]; omega, ?_, ?_, ?_⟩
  · rw [hsec', hns]
    have hsq : (0 : ℚ) ≤ (⌊sync⌋ : ℚ) := by exact_mod_cast hsec0
    nlinarith
  · rw [hsec', hns]
    linarith
  · simp only [Timespec.valid, hsec', hns, Bool.and_eq_true, decide_eq_true_eq]
    exact ⟨⟨hsec0, hn0⟩, by omega⟩

theorem fl_usleepCap : fl (fl (4294967295 / 1000000) * 1000000) < 4294967296 := by
  decide!

theorem one_le_usleepCap : (1 : ℚ) ≤ fl (4294967295 / 1000000) := by
  decide!

/-- The microsecond conversion of line 154 for a `double` whose microseconds
fit an `unsigned int`: the argument of `usleep` is the rounded product
truncated, no less than the truncation of `sync` to a microsecond and above
it only when `sync` is within one part in `2^53` of the next microsecond. -/
theorem usleepArg_spec {x : ℚ} (h0 : 0 ≤ x) (hr : x ≤ fl (4294967295 / 1000000)) :
    usleepArg x = ⌊fl (x * 1000000)⌋ ∧ 0 ≤ usleepArg x ∧
    (usleepArg x : ℚ) ≤ x * 1000000 * (1 + pow2 (-53)) ∧ x * 1000000 < (usleepArg x : ℚ) + 1 ∧
    x * 1000000 * (1 - pow2 (-53)) < (usleepArg x : ℚ) + 1 := by
  have hy0 : 0 ≤ fl (x * 1000000) := fl_nonneg (by linarith)
  have hy1 : fl (x * 1000000) < 4294967296 :=
    lt_of_le_of_lt (fl_mono (by linarith)) fl_usleepCap
  have hu : usleepArg x = ⌊fl (x * 1000000)⌋ := by
    simp only [usleepArg, fmul]
    exact toUInt32_of_range hy0 hy1
  have hxb : x * 1000000 < 9007199254740992 := by
    have : fl (4294967295 / 1000000) ≤ 4295 :=
      @fl_le_int _ 4295 (by norm_num) (by norm_num)
    push_cast at this
    linarith
  obtain ⟨a, b, c, d⟩ := @floor_fl_mul x 1000000 h0 (by norm_num) hxb
  rw [hu]
  exact ⟨rfl, Int.floor_nonneg.mpr hy0, b, c, d⟩

theorem usleepArg_le {x c : ℚ} (h0 : 0 ≤ x) (hc : x ≤ c)
    (hcap : fl (c * 1000000) < 1000000) : usleepArg x ≤ 999999 := by
  have hy0 : 0 ≤ fl (x * 1000000) := fl_nonneg (by linarith)
  have hy1 : fl (x * 1000000) < 1000000 :=
    lt_of_le_of_lt (fl_mono (by linarith)) hcap
  have hu : usleepArg x = ⌊fl (x * 1000000)⌋ := by
    simp only [usleepArg, fmul]
    exact toUInt32_of_range hy0 (by linarith)
  have : ⌊fl (x * 1000000)⌋ < 1000000 := by
    rw [Int.floor_lt]; exact_mod_cast hy1
  rw [hu]
  omega

/-- The microseconds of a `double` below one second stay below a million. -/
theorem usleepArg_lt_one {x : ℚ} (hd : fl x = x) (h0 : 0 ≤ x) (h1 : x < 1) :
    usleepArg x ≤ 999999 :=
  usleepArg_le h0 (double_lt_one hd h1) (by decide!)

/-- The microseconds of a remainder that the clamp of lines 149-150 bounds stay
below a million. -/
theorem usleepArg_clamped {x : ℚ} (h0 : 0 ≤ x) (h1 : x ≤ fmul 999999 (fl (1 / 1000000))) :
    usleepArg x ≤ 999999 :=
  usleepArg_le h0 h1 (by decide!)

theorem usleepArg_clamp : usleepArg (fmul 999999 (fl (1 / 1000000))) = 999999 := by
  decide!

/-- Lines 140-150 for a `double` of at least one second that fits an
`unsigned int`: the seconds are the whole part and what goes on to `usleep` is
the rest, exactly, or the value of the clamp if the rest is above it. -/
theorem fracAfterSleep_spec {sync : ℚ} (hd : fl sync = sync) (h0 : 0 ≤ sync)
    (hr : sync < 4294967296) :
    wholeSeconds sync = ⌊sync⌋ ∧
    (sync - (⌊sync⌋ : ℚ) ≤ fmul 999999 (fl (1 / 1000000)) →
      fracAfterSleep sync = sync - (⌊sync⌋ : ℚ)) ∧
    (fmul 999999 (fl (1 / 1000000)) < sync - (⌊sync⌋ : ℚ) →
      fracAfterSleep sync = fmul 999999 (fl (1 / 1000000))) ∧
    0 ≤ fracAfterSleep sync ∧ fracAfterSleep sync ≤ sync - (⌊sync⌋ : ℚ) ∧
    fracAfterSleep sync ≤ fmul 999999 (fl (1 / 1000000)) := by
  obtain ⟨hfs, hff⟩ := double_floor hd h0
  have hw : wholeSeconds sync = ⌊sync⌋ := toUInt32_of_range h0 hr
  have hw' : toUInt32 sync = ⌊sync⌋ := hw
  have h1 : (⌊sync⌋ : ℚ) ≤ sync := Int.floor_le sync
  have hcl : (0 : ℚ) ≤ fmul 999999 (fl (1 / 1000000)) := by rw [fl_clamp]; norm_num
  have hfr : fracAfterSleep sync
      = if sync - (⌊sync⌋ : ℚ) > fmul 999999 (fl (1 / 1000000))
        then fmul 999999 (fl (1 / 1000000)) else sync - (⌊sync⌋ : ℚ) := by
    simp only [fracAfterSleep, hw', ofInt, fsub, hfs, hff]
  refine ⟨hw, fun h => ?_, fun h => ?_, ?_, ?_, ?_⟩
  · rw [hfr, if_neg (not_lt.mpr h)]
  · rw [hfr, if_pos h]
  · rw [hfr]; split
    · exact hcl
    · linarith
  · rw [hfr]; split
    · linarith
    · exact le_refl _
  · rw [hfr]; split
    · exact le_refl _
    · linarith

/-! ## The accounting -/

theorem toInt32_of_lt {x : Int} (h0 : 0 ≤ x) (h1 : x < 2147483648) : toInt32 x = x := by
  unfold toInt32
  omega

theorem account_reset (Bps : ℚ) (window : Int) (s : Acct) (nread : Nat) (tv : Timeval)
    (h : resets window s nread = true) :
    account Bps window s nread (some tv)
      = some ({ starttime := tv, elapsedtime := ⟨0, s.elapsedtime.tv_usec⟩,
                bytesread := toInt32 nread }, BSECS (toInt32 nread) Bps) := by
  simp [account, h]

theorem account_keep (Bps : ℚ) (window : Int) (s : Acct) (nread : Nat) (tv : Timeval)
    (h : resets window s nread = false) :
    account Bps window s nread (some tv)
      = some ({ starttime := s.starttime, elapsedtime := timersub tv s.starttime,
                bytesread := toInt32 (s.bytesread + nread) },
              fsub (BSECS (toInt32 (s.bytesread + nread)) Bps)
                (TSECS (timersub tv s.starttime))) := by
  simp [account, h]

/-- With a block and a counter below `2^31` the accounting does what the
rollover test is there for: the window is reset exactly when it has expired
or the count would pass `INT32_MAX`; a reset leaves the counter at the size of
the block, takes the reading of the clock as the start of the window and
computes the double `nread / Bps`; otherwise the start is kept, the counter
grows by the block and `sync` is, in doubles, the time that count takes at
`Bps` less the time from the start of the window to the reading of the
clock. -/
theorem account_small (Bps : ℚ) (window : Int) (s : Acct) (nread : Nat) (tv : Timeval)
    (hn : nread < 2147483648) (h0 : 0 ≤ s.bytesread) (h1 : s.bytesread < 2147483648) :
    (resets window s nread = true ↔
      s.elapsedtime.tv_sec ≥ window ∨ s.bytesread + nread > INT32_MAX) ∧
    (resets window s nread = true →
      account Bps window s nread (some tv)
        = some ({ starttime := tv, elapsedtime := ⟨0, s.elapsedtime.tv_usec⟩,
                  bytesread := nread }, fl ((nread : ℚ) / fl Bps))) ∧
    (resets window s nread = false →
      account Bps window s nread (some tv)
        = some ({ starttime := s.starttime, elapsedtime := timersub tv s.starttime,
                  bytesread := s.bytesread + nread },
                fl (fl (((s.bytesread + nread : Int) : ℚ) / fl Bps)
                  - TSECS (timersub tv s.starttime)))) := by
  have hneg : toInt32 (s.bytesread + nread) < 0 ↔ s.bytesread + nread > INT32_MAX := by
    unfold toInt32 INT32_MAX
    omega
  have hexact : ∀ k : Int, 0 ≤ k → k < 2147483648 → ofInt k = (k : ℚ) := by
    intro k k0 k1
    exact fl_intCast k (by rw [abs_of_nonneg k0]; omega)
  refine ⟨?_, fun hr => ?_, fun hr => ?_⟩
  · simp only [resets, Bool.or_eq_true, decide_eq_true_eq, hneg]
  · rw [account_reset _ _ _ _ _ hr, toInt32_of_lt (by omega) (by omega), BSECS, fdiv,
      hexact _ (by omega) (by omega)]
    simp
  · have hnn : ¬ (s.bytesread + nread > INT32_MAX) := by
      rw [← hneg]
      simp only [resets, Bool.or_eq_false_iff, decide_eq_false_iff_not] at hr
      exact hr.2
    have hsum : s.bytesread + (nread : Int) < 2147483648 := by
      unfold INT32_MAX at hnn
      omega
    rw [account_keep _ _ _ _ _ hr, toInt32_of_lt (by omega) hsum, BSECS, fdiv, fsub,
      hexact _ (by omega) hsum]

/-- The seconds of a timeval that is in normal form, computed in doubles, are
not negative and exceed the exact seconds by at most two roundings. -/
theorem TSECS_bounds (tv : Timeval) (hs : 0 ≤ tv.tv_sec) (hu0 : 0 ≤ tv.tv_usec)
    (hu1 : tv.tv_usec < 1000000) :
    0 ≤ TSECS tv ∧
    TSECS tv ≤ ((tv.tv_sec : ℚ) + (tv.tv_usec : ℚ) / 1000000) * (1 + pow2 (-53)) ^ 2 := by
  have hp := pow2_neg53
  have hmin := pow2_neg1022_lt
  have hsq : (0 : ℚ) ≤ (tv.tv_sec : ℚ) := by exact_mod_cast hs
  have huq : (0 : ℚ) ≤ (tv.tv_usec : ℚ) := by exact_mod_cast hu0
  have hsec : 0 ≤ ofInt tv.tv_sec ∧ ofInt tv.tv_sec ≤ (tv.tv_sec : ℚ) * (1 + pow2 (-53)) := by
    unfold ofInt
    rcases eq_or_lt_of_le hs with h | h
    · rw [← h]; simp [fl_zero]
    · have h1 : (1 : ℚ) ≤ (tv.tv_sec : ℚ) := by exact_mod_cast (show (1 : Int) ≤ tv.tv_sec by omega)
      exact ⟨fl_nonneg hsq, (fl_bounds (by linarith)).2⟩
  have husec : ofInt tv.tv_usec = (tv.tv_usec : ℚ) :=
    fl_intCast _ (by rw [abs_of_nonneg hu0]; omega)
  unfold TSECS fadd fmul
  rw [husec, fl_micro]
  rcases eq_or_lt_of_le hu0 with h | h
  · rw [← h]
    simp only [Int.cast_zero, zero_mul, fl_zero, add_zero, zero_div]
    unfold ofInt
    rw [fl_idem]
    unfold ofInt at hsec
    refine ⟨hsec.1, ?_⟩
    rw [hp] at hsec ⊢
    nlinarith [hsec.2]
  · have h1 : (1 : ℚ) ≤ (tv.tv_usec : ℚ) := by exact_mod_cast (show (1 : Int) ≤ tv.tv_usec by omega)
    have hpn : pow2 (-1022)
        ≤ (tv.tv_usec : ℚ) * (4722366482869645 / 4722366482869645213696) := by
      nlinarith
    obtain ⟨pa, pb⟩ := fl_bounds hpn
    have hsn : pow2 (-1022) ≤ ofInt tv.tv_sec
        + fl ((tv.tv_usec : ℚ) * (4722366482869645 / 4722366482869645213696)) := by
      rw [hp] at pa
      nlinarith [hsec.1]
    obtain ⟨sa, sb⟩ := fl_bounds hsn
    rw [hp] at pa pb sa sb hsec ⊢
    refine ⟨by nlinarith [hsec.1, hsec.2], ?_⟩
    nlinarith [hsec.1, hsec.2]

theorem timersub_toTimeval {t0 t2 : Int} (h : t0 ≤ t2) :
    0 ≤ (timersub (toTimeval t2) (toTimeval t0)).tv_sec ∧
    0 ≤ (timersub (toTimeval t2) (toTimeval t0)).tv_usec ∧
    (timersub (toTimeval t2) (toTimeval t0)).tv_usec < 1000000 ∧
    (timersub (toTimeval t2) (toTimeval t0)).tv_sec * 1000000000
      + (timersub (toTimeval t2) (toTimeval t0)).tv_usec * 1000
      = (toTimeval t2).toNs - (toTimeval t0).toNs := by
  unfold timersub
  simp only [Timeval.toNs, toTimeval]
  split <;> simp only [] <;> omega

/-! ## The sleep loops -/

theorem sleepStep_refl (w : World) : SleepStep w w :=
  ⟨rfl, rfl, rfl, rfl, rfl, List.suffix_refl _, [], by simp, by simp⟩

theorem sleepStep_trans {a b c : World} (h1 : SleepStep a b) (h2 : SleepStep b c) :
    SleepStep a c := by
  obtain ⟨i1, r1, c1, w1, o1, q1, l1, hl1, hs1⟩ := h1
  obtain ⟨i2, r2, c2, w2, o2, q2, l2, hl2, hs2⟩ := h2
  refine ⟨i2.trans i1, r2.trans r1, c2.trans c1, w2.trans w1, o2.trans o1, q2.trans q1,
    l1 ++ l2, ?_, ?_⟩
  · rw [hl2, hl1, List.append_assoc]
  · intro e he
    rcases List.mem_append.mp he with h | h
    · exact hs1 e h
    · exact hs2 e h

theorem nanosleepLoop_log (es : List SleepEv) (ts : Timespec) (w : World) :
    ∃ rest, (nanosleepLoop es ts w).log = w.log ++ ⟨w.now, .nanosleep ts⟩ :: rest ∧
      ∀ e ∈ rest, ∃ r, e.call = .nanosleep r := by
  induction es generalizing ts w with
  | nil =>
    by_cases hv : ts.valid = true
    · exact ⟨[], by simp [nanosleepLoop, hv], by simp⟩
    · exact ⟨[], by simp [nanosleepLoop, hv], by simp⟩
  | cons e es ih =>
    by_cases hv : ts.valid = true
    · cases e with
      | complete extra => exact ⟨[], by simp [nanosleepLoop, hv], by simp⟩
      | error => exact ⟨[], by simp [nanosleepLoop, hv], by simp⟩
      | interrupted slept rem =>
        obtain ⟨rest, h1, h2⟩ := ih (Timespec.ofNs rem)
          { w with sleeps := es, now := w.now + slept,
                   log := w.log ++ [⟨w.now, .nanosleep ts⟩] }
        refine ⟨⟨w.now + slept, .nanosleep (Timespec.ofNs rem)⟩ :: rest, ?_, ?_⟩
        · simp only [nanosleepLoop, hv, if_true]; rw [h1]; simp
        · intro e he
          rcases List.mem_cons.mp he with h | h
          · exact ⟨_, by rw [h]⟩
          · exact h2 e h
    · exact ⟨[], by simp [nanosleepLoop, hv], by simp⟩

theorem nanosleepLoop_frame (es : List SleepEv) (ts : Timespec) (w : World)
    (hes : es <:+ w.sleeps) : SleepStep w (nanosleepLoop es ts w) := by
  induction es generalizing ts w with
  | nil =>
    by_cases hv : ts.valid = true
    · simp only [nanosleepLoop, hv, if_true]
      exact ⟨rfl, rfl, rfl, rfl, rfl, hes, _, rfl, by simp [Call.isSleep]⟩
    · simp only [nanosleepLoop, hv]
      exact ⟨rfl, rfl, rfl, rfl, rfl, hes, _, rfl, by simp [Call.isSleep]⟩
  | cons e es ih =>
    have hes1 : es <:+ w.sleeps := (List.suffix_cons e es).trans hes
    by_cases hv : ts.valid = true
    · cases e with
      | complete extra =>
        simp only [nanosleepLoop, hv, if_true]
        exact ⟨rfl, rfl, rfl, rfl, rfl, hes1, _, rfl, by simp [Call.isSleep]⟩
      | error =>
        simp only [nanosleepLoop, hv, if_true]
        exact ⟨rfl, rfl, rfl, rfl, rfl, hes1, _, rfl, by simp [Call.isSleep]⟩
      | interrupted slept rem =>
        simp only [nanosleepLoop, hv, if_true]
        refine sleepStep_trans ?_ (ih _ _ (List.suffix_refl _))
        exact ⟨rfl, rfl, rfl, rfl, rfl, hes1, _, rfl, by simp [Call.isSleep]⟩
    · simp only [nanosleepLoop, hv]
      exact ⟨rfl, rfl, rfl, rfl, rfl, hes, _, rfl, by simp [Call.isSleep]⟩

theorem sleepLoop_log (es : List SleepEv) (seconds : Int) (w : World) :
    ∃ rest, (sleepLoop es seconds w).log = w.log ++ ⟨w.now, .sleep seconds⟩ :: rest ∧
      ∀ e ∈ rest, ∃ n, e.call = .sleep n := by
  induction es generalizing seconds w with
  | nil => exact ⟨[], by simp [sleepLoop], by simp⟩
  | cons e es ih =>
    cases e with
    | complete extra => exact ⟨[], by simp [sleepLoop], by simp⟩
    | error => exact ⟨[], by simp [sleepLoop], by simp⟩
    | interrupted slept rem =>
      by_cases hr : rem = 0
      · exact ⟨[], by simp [sleepLoop, hr], by simp⟩
      · obtain ⟨rest, h1, h2⟩ := ih (rem : Int)
          { w with sleeps := es, now := w.now + slept, log := w.log ++ [⟨w.now, .sleep seconds⟩] }
        refine ⟨⟨w.now + slept, .sleep (rem : Int)⟩ :: rest, ?_, ?_⟩
        · simp only [sleepLoop, hr, if_false]; rw [h1]; simp
        · intro e he
          rcases List.mem_cons.mp he with h | h
          · exact ⟨_, by rw [h]⟩
          · exact h2 e h

theorem sleepLoop_frame (es : List SleepEv) (seconds : Int) (w : World)
    (hes : es <:+ w.sleeps) : SleepStep w (sleepLoop es seconds w) := by
  induction es generalizing seconds w with
  | nil => exact ⟨rfl, rfl, rfl, rfl, rfl, hes, _, rfl, by simp [Call.isSleep]⟩
  | cons e es ih =>
    have hes1 : es <:+ w.sleeps := (List.suffix_cons e es).trans hes
    cases e with
    | complete extra => exact ⟨rfl, rfl, rfl, rfl, rfl, hes1, _, rfl, by simp [Call.isSleep]⟩
    | error => exact ⟨rfl, rfl, rfl, rfl, rfl, hes1, _, rfl, by simp [Call.isSleep]⟩
    | interrupted slept rem =>
      simp only [sleepLoop]
      split
      · exact ⟨rfl, rfl, rfl, rfl, rfl, hes1, _, rfl, by simp [Call.isSleep]⟩
      · refine sleepStep_trans ?_ (ih _ _ (List.suffix_refl _))
        exact ⟨rfl, rfl, rfl, rfl, rfl, hes1, _, rfl, by simp [Call.isSleep]⟩

theorem sysUsleep_log (usec : Int) (w : World) :
    (sysUsleep usec w).log = w.log ++ [⟨w.now, .usleep usec⟩] := by
  unfold sysUsleep
  cases w.sleeps.headD (.complete 0) <;> rfl

theorem sysUsleep_frame (usec : Int) (w : World) : SleepStep w (sysUsleep usec w) := by
  unfold sysUsleep
  cases w.sleeps.headD (.complete 0) <;>
    exact ⟨rfl, rfl, rfl, rfl, rfl, List.tail_suffix _, _, rfl, by simp [Call.isSleep]⟩

theorem doSleep_frame (impl : SleepImpl) (sync : ℚ) (w : World) :
    SleepStep w (doSleep impl sync w) := by
  cases impl with
  | nanosleep =>
    simp only [doSleep]
    split
    · exact nanosleepLoop_frame _ _ _ (List.suffix_refl _)
    · exact sleepStep_refl w
  | sleepUsleep =>
    simp only [doSleep]
    by_cases h : sync ≥ 1
    · simp only [h, if_true]
      split
      · exact sleepStep_trans (sleepLoop_frame _ _ _ (List.suffix_refl _)) (sysUsleep_frame _ _)
      · exact sleepLoop_frame _ _ _ (List.suffix_refl _)
    · simp only [h, if_false]
      split
      · exact sysUsleep_frame _ _
      · exact sleepStep_refl w
  | usleepOnly =>
    simp only [doSleep]
    split
    · exact sysUsleep_frame _ _
    · exact sleepStep_refl w



theorem load_add (block : Nat → Byte) (ptr m n : Nat) :
    load block ptr (m + n) = load block ptr m ++ load block (ptr + m) n := by
  simp [load, List.range_add, List.map_map, Function.comp_def, Nat.add_assoc]

theorem load_length (block : Nat → Byte) (ptr n : Nat) : (load block ptr n).length = n := by
  simp [load]

theorem load_congr {b1 b2 : Nat → Byte} {ptr n : Nat}
    (h : ∀ i, i < ptr + n → b1 i = b2 i) : load b1 ptr n = load b2 ptr n := by
  simp only [load]
  apply List.map_congr_left
  intro i hi
  exact h _ (by have := List.mem_range.mp hi; omega)

theorem store_below (block : Nat → Byte) (ptr : Nat) (data : List Byte) {i : Nat}
    (h : i < ptr) : store block ptr data i = block i := by
  simp [store, h]

theorem load_store (block : Nat → Byte) (ptr : Nat) (data : List Byte) :
    load (store block ptr data) ptr data.length = data := by
  apply List.ext_getElem
  · simp [load]
  · intro i h1 h2
    simp only [load, List.getElem_map, List.getElem_range, store]
    have : ¬ (ptr + i < ptr) := by omega
    simp only [this, if_false, Nat.add_sub_cancel_left]
    exact List.getD_eq_getElem _ _ h2

theorem load_take (block : Nat → Byte) (ptr n k : Nat) :
    (load block ptr n).take k = load block ptr (min k n) := by
  simp [load, ← List.map_take, List.take_range]





/-! ## The system calls -/

theorem moved_cons (e : Event) (l : List Event) : moved (e :: l) = e.moved + moved l := by
  simp [moved]

theorem readCount_le (k nbyte avail : Nat) :
    readCount k nbyte avail ≤ nbyte ∧ readCount k nbyte avail ≤ avail ∧
    (readCount k nbyte avail = 0 → nbyte = 0 ∨ avail = 0) := by
  unfold readCount
  omega

/-- A `read` that fails changes nothing but the trace and the clock. -/
theorem sysRead_none {w w1 : World} {nbyte : Nat} (h : sysRead w nbyte = (none, w1)) :
    ReadPhase w w1 ∧ w1.input = w.input ∧ w1.log = w.log ++ [⟨w.now, .read nbyte none⟩] ∧
    (∃ e ∈ w.reads, e.ret = none) ∧ w1.now = w.now + (w.reads.headD ⟨0, some nbyte⟩).delay := by
  unfold sysRead at h
  cases hr : w.reads with
  | nil => simp [hr] at h
  | cons e es =>
    simp only [hr, List.headD_cons, List.tail_cons] at h
    cases he : e.ret with
    | some k => simp [he] at h
    | none =>
      simp only [he, Prod.mk.injEq, true_and] at h
      subst h
      refine ⟨⟨rfl, rfl, rfl, rfl, ?_⟩, rfl, rfl, ⟨e, by simp, he⟩, by simp⟩
      simp [hr]

/-- A `read` that succeeds returns the next bytes of the stream, at most as
many as asked for, and none only at the end of the stream. -/
theorem sysRead_some {w w1 : World} {nbyte : Nat} {data : List Byte}
    (h : sysRead w nbyte = (some data, w1)) :
    ReadPhase w w1 ∧ w.input = data ++ w1.input ∧ data.length ≤ nbyte ∧
    (data.length = 0 → nbyte = 0 ∨ w.input = []) ∧
    w1.log = w.log ++ [⟨w.now, .read nbyte (some data.length)⟩] ∧
    w1.now = w.now + (w.reads.headD ⟨0, some nbyte⟩).delay := by
  simp only [sysRead] at h
  generalize w.reads.headD ⟨0, some nbyte⟩ = ev at h ⊢
  cases he : ev.ret with
  | none => simp [he] at h
  | some k =>
    simp only [he, Prod.mk.injEq, Option.some.injEq] at h
    obtain ⟨h1, h2⟩ := h
    subst h2
    obtain ⟨c1, c2, c3⟩ := readCount_le k nbyte w.input.length
    have hlen : data.length = readCount k nbyte w.input.length := by
      rw [← h1, List.length_take]; omega
    refine ⟨⟨rfl, rfl, rfl, rfl, List.tail_suffix _⟩, ?_, by omega, ?_, ?_, rfl⟩
    · rw [← h1]; exact (List.take_append_drop _ _).symm
    · intro h0
      rcases c3 (by omega) with h | h
      · exact Or.inl h
      · exact Or.inr (List.length_eq_zero.mp h)
    · simp [hlen]

theorem sysWrite_none {w w1 : World} {data : List Byte} (h : sysWrite w data = (none, w1)) :
    WritePhase w w1 ∧ w1.output = w.output ∧
    w1.log = w.log ++ [⟨w.now, .write data.length none⟩] ∧
    (∃ e ∈ w.writes, e.ret = none) ∧
    w1.now = w.now + (w.writes.headD ⟨0, some data.length⟩).delay := by
  unfold sysWrite at h
  cases hr : w.writes with
  | nil => simp [hr] at h
  | cons e es =>
    simp only [hr, List.headD_cons, List.tail_cons] at h
    cases he : e.ret with
    | some k => simp [he] at h
    | none =>
      simp only [he, Prod.mk.injEq, true_and] at h
      subst h
      refine ⟨⟨rfl, rfl, rfl, rfl, ?_⟩, rfl, rfl, ⟨e, by simp, he⟩, by simp⟩
      simp [hr]

theorem sysWrite_some {w w1 : World} {data : List Byte} {n : Nat}
    (h : sysWrite w data = (some n, w1)) :
    WritePhase w w1 ∧ w1.output = w.output ++ data.take n ∧ n ≤ data.length ∧
    w1.log = w.log ++ [⟨w.now, .write data.length (some n)⟩] ∧
    (n = 0 → data.length = 0 ∨ ∃ e ∈ w.writes, e.ret = some 0) ∧
    w1.now = w.now + (w.writes.headD ⟨0, some data.length⟩).delay := by
  simp only [sysWrite] at h
  generalize hev : w.writes.headD ⟨0, some data.length⟩ = ev at h ⊢
  cases he : ev.ret with
  | none => simp [he] at h
  | some k =>
    simp only [he, Prod.mk.injEq, Option.some.injEq] at h
    obtain ⟨h1, h2⟩ := h
    subst h2
    subst h1
    refine ⟨⟨rfl, rfl, rfl, rfl, List.tail_suffix _⟩, rfl, by omega, rfl, ?_, rfl⟩
    intro h0
    cases hr : w.writes with
    | nil =>
      rw [hr] at hev
      simp only [List.headD_nil] at hev
      rw [← hev] at he
      simp only [Option.some.injEq] at he
      left; omega
    | cons e es =>
      rw [hr] at hev
      simp only [List.headD_cons] at hev
      subst hev
      by_cases hk : k = 0
      · right; exact ⟨e, by simp, by rw [he, hk]⟩
      · left; omega

theorem sysGettimeofday_spec (w : World) :
    (sysGettimeofday w).2.input = w.input ∧ (sysGettimeofday w).2.output = w.output ∧
    (sysGettimeofday w).2.reads = w.reads ∧ (sysGettimeofday w).2.writes = w.writes ∧
    (sysGettimeofday w).2.sleeps = w.sleeps ∧ (sysGettimeofday w).2.clocks = w.clocks.tail ∧
    (sysGettimeofday w).2.log = w.log ++ [⟨w.now, .gettimeofday (sysGettimeofday w).1⟩] ∧
    (sysGettimeofday w).2.now = w.now + (w.clocks.headD ⟨0, true⟩).delay ∧
    ((sysGettimeofday w).1 = none → ∃ e ∈ w.clocks, e.ok = false) ∧
    (∀ tv, (sysGettimeofday w).1 = some tv → tv = toTimeval (sysGettimeofday w).2.now) := by
  refine ⟨rfl, rfl, rfl, rfl, rfl, rfl, rfl, rfl, ?_, ?_⟩
  · intro h
    cases hr : w.clocks with
    | nil => simp [sysGettimeofday, hr] at h
    | cons e es =>
      refine ⟨e, by simp, ?_⟩
      simp only [sysGettimeofday, hr, List.headD_cons] at h
      cases hok : e.ok with
      | true => simp [hok] at h
      | false => rfl
  · intro tv h
    simp only [sysGettimeofday] at h ⊢
    split at h
    · exact (Option.some.inj h).symm
    · exact absurd h (by simp)





/-! ## The fill loop -/

theorem readPhase_trans {a b c : World} (h1 : ReadPhase a b) (h2 : ReadPhase b c) :
    ReadPhase a c := by
  obtain ⟨o1, w1, c1, s1, r1⟩ := h1
  obtain ⟨o2, w2, c2, s2, r2⟩ := h2
  exact ⟨o2.trans o1, w2.trans w1, c2.trans c1, s2.trans s1, r2.trans r1⟩

theorem readsRemainder_single (nleft : Nat) (t : Int) (r : Option Nat) :
    ReadsRemainder nleft [⟨t, .read nleft r⟩] := by
  intro pre e post h
  cases pre with
  | nil =>
    simp only [List.nil_append, List.cons.injEq] at h
    exact ⟨r, by rw [← h.1]; simp [moved]⟩
  | cons a pre =>
    simp only [List.cons_append, List.cons.injEq] at h
    exact absurd h.2 (by simp)

theorem readsRemainder_cons {nleft : Nat} {t : Int} {n : Nat} {rest : List Event}
    (h : ReadsRemainder (nleft - n) rest) :
    ReadsRemainder nleft (⟨t, .read nleft (some n)⟩ :: rest) := by
  intro pre e post hl
  cases pre with
  | nil =>
    simp only [List.nil_append, List.cons.injEq] at hl
    exact ⟨some n, by rw [← hl.1]; simp [moved]⟩
  | cons a pre =>
    simp only [List.cons_append, List.cons.injEq] at hl
    obtain ⟨r, hr⟩ := h pre e post hl.2
    refine ⟨r, ?_⟩
    rw [hr, ← hl.1, moved_cons]
    simp [Event.moved, Nat.sub_sub]

theorem fillLoop_spec (fuel : Nat) : ∀ (w : World) (block : Nat → Byte) (ptr nleft : Nat),
    nleft < fuel →
    match fillLoop fuel w block ptr nleft with
    | .outOfFuel _ => False
    | .readError w1 =>
      ReadPhase w w1 ∧ (∃ e ∈ w.reads, e.ret = none) ∧
      ∃ rs t n, w1.log = w.log ++ (rs ++ [⟨t, .read n none⟩]) ∧
        ReadsRemainder nleft (rs ++ [⟨t, .read n none⟩])
    | .filled w1 block1 nleft1 done =>
      ReadPhase w w1 ∧
      ∃ data rs, w.input = data ++ w1.input ∧ data.length + nleft1 = nleft ∧
        load block1 ptr data.length = data ∧ (∀ i, i < ptr → block1 i = block i) ∧
        w1.log = w.log ++ rs ∧ ReadsRemainder nleft rs ∧ moved rs = data.length ∧
        (done = false → nleft1 = 0 ∧ 0 < nleft) ∧
        (done = true → (w1.input = [] ∨ nleft = 0) ∧
          (∃ rs1 t n, rs = rs1 ++ [⟨t, .read n (some 0)⟩]) ∧ (0 < nleft1 ∨ nleft = 0)) := by
  induction fuel with
  | zero => intro w block ptr nleft h; omega
  | succ fuel ih =>
    intro w block ptr nleft hf
    simp only [fillLoop]
    rcases hr : sysRead w nleft with ⟨r, w1⟩
    cases r with
    | none =>
      obtain ⟨hp, -, hlog, hfail, -⟩ := sysRead_none hr
      simp only []
      exact ⟨hp, hfail, [], w.now, nleft, by simpa using hlog, readsRemainder_single _ _ _⟩
    | some data =>
      obtain ⟨hp, hin, hlen, hzero, hlog, -⟩ := sysRead_some hr
      simp only []
      by_cases h0 : data.length = 0
      · rw [if_pos h0]
        have hd : data = [] := List.length_eq_zero.mp h0
        refine ⟨hp, [], [⟨w.now, .read nleft (some 0)⟩], ?_, by simp, by simp [load],
          fun _ _ => rfl, by rw [hlog, h0], readsRemainder_single _ _ _,
          by simp [moved, Event.moved], fun h => absurd h (by simp),
          fun _ => ⟨?_, ⟨[], w.now, nleft, by simp⟩, by omega⟩⟩
        · rw [hin, hd]
        · rcases hzero h0 with h | h
          · exact Or.inr h
          · left
            rw [hin, hd] at h
            simpa using h
      · rw [if_neg h0]
        by_cases hn : nleft - data.length > 0
        · rw [if_pos hn]
          have := ih w1 (store block ptr data) (ptr + data.length) (nleft - data.length) (by omega)
          revert this
          cases fillLoop fuel w1 (store block ptr data) (ptr + data.length) (nleft - data.length) with
          | outOfFuel w2 => exact fun h => h
          | readError w2 =>
            rintro ⟨hp2, hf2, rs, t, n, hl2, hr2⟩
            refine ⟨readPhase_trans hp hp2, ?_, ⟨w.now, .read nleft (some data.length)⟩ :: rs, t, n, ?_, ?_⟩
            · obtain ⟨e, he, hen⟩ := hf2
              exact ⟨e, hp.2.2.2.2.subset he, hen⟩
            · rw [hl2, hlog]; simp
            · exact readsRemainder_cons hr2
          | filled w2 block2 nleft2 done =>
            rintro ⟨hp2, data2, rs, hin2, hlen2, hload2, hbelow2, hl2, hr2, hm2, hd0, hd1⟩
            refine ⟨readPhase_trans hp hp2, data ++ data2, ⟨w.now, .read nleft (some data.length)⟩ :: rs,
              ?_, ?_, ?_, ?_, ?_, readsRemainder_cons hr2, ?_, ?_, ?_⟩
            · rw [hin, hin2, List.append_assoc]
            · simp only [List.length_append]; omega
            · rw [List.length_append, load_add, hload2]
              congr 1
              rw [@load_congr block2 (store block ptr data) ptr data.length (fun i hi => hbelow2 i hi)]
              exact load_store _ _ _
            · intro i hi
              rw [hbelow2 i (by omega), store_below _ _ _ hi]
            · rw [hl2, hlog]; simp
            · rw [moved_cons, hm2]; simp [Event.moved]
            · intro hd
              exact ⟨(hd0 hd).1, by omega⟩
            · intro hd
              obtain ⟨h1, ⟨rs1, t, n, hrs⟩, h3⟩ := hd1 hd
              refine ⟨?_, ⟨⟨w.now, .read nleft (some data.length)⟩ :: rs1, t, n,
                by rw [hrs]; simp⟩, by omega⟩
              rcases h1 with h | h
              · exact Or.inl h
              · omega
        · rw [if_neg hn]
          refine ⟨hp, data, [⟨w.now, .read nleft (some data.length)⟩], hin, by omega,
            load_store _ _ _, fun i hi => store_below _ _ _ hi, hlog,
            readsRemainder_single _ _ _, by simp [moved, Event.moved],
            fun _ => ⟨by omega, by omega⟩, fun h => absurd h (by simp)⟩





/-! ## The flush loop -/

theorem writePhase_trans {a b c : World} (h1 : WritePhase a b) (h2 : WritePhase b c) :
    WritePhase a c := by
  obtain ⟨o1, w1, c1, s1, r1⟩ := h1
  obtain ⟨o2, w2, c2, s2, r2⟩ := h2
  exact ⟨o2.trans o1, w2.trans w1, c2.trans c1, s2.trans s1, r2.trans r1⟩

theorem writePhase_refl (w : World) : WritePhase w w :=
  ⟨rfl, rfl, rfl, rfl, List.suffix_refl _⟩

theorem writesRemainder_single (nleft : Nat) (t : Int) (r : Option Nat) :
    WritesRemainder nleft [⟨t, .write nleft r⟩] := by
  intro pre e post h
  cases pre with
  | nil =>
    simp only [List.nil_append, List.cons.injEq] at h
    exact ⟨r, by rw [← h.1]; simp [moved]⟩
  | cons a pre =>
    simp only [List.cons_append, List.cons.injEq] at h
    exact absurd h.2 (by simp)

theorem writesRemainder_cons {nleft : Nat} {t : Int} {n : Nat} {rest : List Event}
    (h : WritesRemainder (nleft - n) rest) :
    WritesRemainder nleft (⟨t, .write nleft (some n)⟩ :: rest) := by
  intro pre e post hl
  cases pre with
  | nil =>
    simp only [List.nil_append, List.cons.injEq] at hl
    exact ⟨some n, by rw [← hl.1]; simp [moved]⟩
  | cons a pre =>
    simp only [List.cons_append, List.cons.injEq] at hl
    obtain ⟨r, hr⟩ := h pre e post hl.2
    refine ⟨r, ?_⟩
    rw [hr, ← hl.1, moved_cons]
    simp [Event.moved, Nat.sub_sub]

theorem writesRemainder_nil (nleft : Nat) : WritesRemainder nleft [] := by
  intro pre e post h
  exact absurd h (by simp)

theorem head_at_cons (t : Int) (c : Call) (l : List Event) :
    ∀ e, (⟨t, c⟩ :: l : List Event).head? = some e → e.t = t := by
  intro e he
  simp only [List.head?_cons, Option.some.injEq] at he
  rw [← he]

theorem flushLoop_spec (fuel : Nat) : ∀ (w : World) (block : Nat → Byte) (ptr nleft : Nat),
    nleft ≤ fuel →
    match flushLoop fuel w block ptr nleft with
    | .outOfFuel _ => False
    | .writeError w1 =>
      WritePhase w w1 ∧ (∃ e ∈ w.writes, e.ret = none ∨ e.ret = some 0) ∧
      ∃ ws t n r, w1.log = w.log ++ (ws ++ [⟨t, .write n r⟩]) ∧ (r = none ∨ r = some 0) ∧
        WritesRemainder nleft (ws ++ [⟨t, .write n r⟩]) ∧
        (∀ e, (ws ++ [⟨t, .write n r⟩]).head? = some e → e.t = w.now)
    | .flushed w1 =>
      WritePhase w w1 ∧ w1.output = w.output ++ load block ptr nleft ∧
      ∃ ws, w1.log = w.log ++ ws ∧ WritesRemainder nleft ws ∧ moved ws = nleft ∧
        (∀ e, ws.head? = some e → e.t = w.now) := by
  induction fuel with
  | zero =>
    intro w block ptr nleft h
    have h0 : nleft = 0 := by omega
    subst h0
    simp only [flushLoop, gt_iff_lt, lt_self_iff_false, if_false]
    exact ⟨writePhase_refl w, by simp [load], [], by simp, writesRemainder_nil _, rfl, by simp⟩
  | succ fuel ih =>
    intro w block ptr nleft hf
    simp only [flushLoop]
    by_cases hn : nleft > 0
    · rw [if_pos hn]
      rcases hr : sysWrite w (load block ptr nleft) with ⟨r, w1⟩
      cases r with
      | none =>
        obtain ⟨hp, -, hlog, ⟨e, he, hen⟩, -⟩ := sysWrite_none hr
        rw [load_length] at hlog
        simp only []
        exact ⟨hp, ⟨e, he, Or.inl hen⟩, [], w.now, nleft, none, by simpa using hlog,
          Or.inl rfl, writesRemainder_single _ _ _, head_at_cons _ _ _⟩
      | some n =>
        obtain ⟨hp, hout, hle, hlog, hzero, -⟩ := sysWrite_some hr
        rw [load_length] at hlog hle hzero
        simp only []
        by_cases h0 : n ≤ 0
        · rw [if_pos h0]
          have hn0 : n = 0 := by omega
          subst hn0
          rcases hzero rfl with h | ⟨e, he, hen⟩
          · omega
          · exact ⟨hp, ⟨e, he, Or.inr hen⟩, [], w.now, nleft, some 0, by simpa using hlog,
              Or.inr rfl, writesRemainder_single _ _ _, head_at_cons _ _ _⟩
        · rw [if_neg h0]
          have := ih w1 block (ptr + n) (nleft - n) (by omega)
          revert this
          cases flushLoop fuel w1 block (ptr + n) (nleft - n) with
          | outOfFuel w2 => exact fun h => h
          | writeError w2 =>
            rintro ⟨hp2, ⟨e, he, hen⟩, ws, t, m, r, hl2, hr2, hw2, -⟩
            refine ⟨writePhase_trans hp hp2, ⟨e, hp.2.2.2.2.subset he, hen⟩,
              ⟨w.now, .write nleft (some n)⟩ :: ws, t, m, r, ?_, hr2, ?_, head_at_cons _ _ _⟩
            · rw [hl2, hlog]; simp
            · exact writesRemainder_cons hw2
          | flushed w2 =>
            rintro ⟨hp2, hout2, ws, hl2, hw2, hm2, -⟩
            refine ⟨writePhase_trans hp hp2, ?_, ⟨w.now, .write nleft (some n)⟩ :: ws, ?_,
              writesRemainder_cons hw2, ?_, head_at_cons _ _ _⟩
            · rw [hout2, hout, load_take, List.append_assoc, Nat.min_eq_left hle, ← load_add]
              congr 2
              omega
            · rw [hl2, hlog]; simp
            · rw [moved_cons, hm2]; simp only [Event.moved]; omega
    · rw [if_neg hn]
      have h0 : nleft = 0 := by omega
      subst h0
      exact ⟨writePhase_refl w, by simp [load], [], by simp, writesRemainder_nil _, rfl, by simp⟩





/-! ## Time -/

theorem fillLoop_now (fuel : Nat) : ∀ (w : World) (block : Nat → Byte) (ptr nleft : Nat),
    (∀ e ∈ w.reads, 0 ≤ e.delay) →
    match fillLoop fuel w block ptr nleft with
    | .filled w1 _ _ _ => w.now ≤ w1.now
    | _ => True := by
  induction fuel with
  | zero => intro w block ptr nleft _; simp [fillLoop]
  | succ fuel ih =>
    intro w block ptr nleft hd
    have hdel : 0 ≤ (w.reads.headD ⟨0, some nleft⟩).delay := by
      cases hr : w.reads with
      | nil => simp
      | cons e es => simp only [List.headD_cons]; exact hd e (by simp [hr])
    simp only [fillLoop]
    rcases hr : sysRead w nleft with ⟨r, w1⟩
    cases r with
    | none => simp
    | some data =>
      obtain ⟨hp, -, -, -, -, hnow⟩ := sysRead_some hr
      simp only []
      by_cases h0 : data.length = 0
      · rw [if_pos h0]; simp only []; omega
      · rw [if_neg h0]
        by_cases hn : nleft - data.length > 0
        · rw [if_pos hn]
          have := ih w1 (store block ptr data) (ptr + data.length) (nleft - data.length)
            (fun e he => hd e (hp.2.2.2.2.subset he))
          revert this
          cases fillLoop fuel w1 (store block ptr data) (ptr + data.length)
            (nleft - data.length) with
          | filled w2 _ _ _ => intro h; simp only [] at h ⊢; omega
          | readError w2 => intro _; trivial
          | outOfFuel w2 => intro _; trivial
        · rw [if_neg hn]; simp only []; omega

theorem flushLoop_now (fuel : Nat) : ∀ (w : World) (block : Nat → Byte) (ptr nleft : Nat),
    (∀ e ∈ w.writes, 0 ≤ e.delay) →
    match flushLoop fuel w block ptr nleft with
    | .flushed w1 => w.now ≤ w1.now
    | _ => True := by
  induction fuel with
  | zero =>
    intro w block ptr nleft _
    simp only [flushLoop]
    by_cases hn : nleft > 0
    · rw [if_pos hn]; trivial
    · rw [if_neg hn]
  | succ fuel ih =>
    intro w block ptr nleft hd
    simp only [flushLoop]
    by_cases hn : nleft > 0
    · rw [if_pos hn]
      have hdel : 0 ≤ (w.writes.headD ⟨0, some (load block ptr nleft).length⟩).delay := by
        cases hr : w.writes with
        | nil => simp
        | cons e es => simp only [List.headD_cons]; exact hd e (by simp [hr])
      rcases hr : sysWrite w (load block ptr nleft) with ⟨r, w1⟩
      cases r with
      | none => trivial
      | some n =>
        obtain ⟨hp, -, -, -, -, hnow⟩ := sysWrite_some hr
        simp only []
        by_cases h0 : n ≤ 0
        · rw [if_pos h0]; trivial
        · rw [if_neg h0]
          have := ih w1 block (ptr + n) (nleft - n) (fun e he => hd e (hp.2.2.2.2.subset he))
          revert this
          cases flushLoop fuel w1 block (ptr + n) (nleft - n) with
          | flushed w2 => intro h; simp only [] at h ⊢; omega
          | writeError w2 => intro _; trivial
          | outOfFuel w2 => intro _; trivial
    · rw [if_neg hn]




theorem valid_toNs_nonneg {ts : Timespec} (hv : ts.valid = true) : 0 ≤ ts.toNs := by
  simp only [Timespec.valid, Bool.and_eq_true, decide_eq_true_eq] at hv
  simp only [Timespec.toNs]
  omega

theorem nanosleepLoop_steady (ts : Timespec) (w : World) (hv : ts.valid = true)
    (hs : ∀ e ∈ w.sleeps, ∃ extra, 0 ≤ extra ∧ e = SleepEv.complete extra) :
    ∃ extra, 0 ≤ extra ∧ (nanosleepLoop w.sleeps ts w).now = w.now + ts.toNs + extra := by
  cases hq : w.sleeps with
  | nil => exact ⟨0, le_refl _, by simp [nanosleepLoop, hv]⟩
  | cons e es =>
    obtain ⟨extra, h0, he⟩ := hs e (by simp [hq])
    subst he
    exact ⟨extra, h0, by simp [nanosleepLoop, hv]⟩

/-- In a steady world a `nanosleep` loop never sets the clock back, whatever
the request. -/
theorem nanosleepLoop_now_le (ts : Timespec) (w : World)
    (hs : ∀ e ∈ w.sleeps, ∃ extra, 0 ≤ extra ∧ e = SleepEv.complete extra) :
    w.now ≤ (nanosleepLoop w.sleeps ts w).now := by
  by_cases hv : ts.valid = true
  · obtain ⟨extra, h0, h⟩ := nanosleepLoop_steady ts w hv hs
    have := valid_toNs_nonneg hv
    omega
  · cases hq : w.sleeps with
    | nil => simp [nanosleepLoop, hv]
    | cons e es => simp [nanosleepLoop, hv]

theorem sleepLoop_steady (seconds : Int) (w : World)
    (hs : ∀ e ∈ w.sleeps, ∃ extra, 0 ≤ extra ∧ e = SleepEv.complete extra) :
    ∃ extra, 0 ≤ extra ∧
      (sleepLoop w.sleeps seconds w).now = w.now + seconds * 1000000000 + extra := by
  cases hq : w.sleeps with
  | nil => exact ⟨0, le_refl _, by simp [sleepLoop]⟩
  | cons e es =>
    obtain ⟨extra, h0, he⟩ := hs e (by simp [hq])
    subst he
    exact ⟨extra, h0, by simp [sleepLoop]⟩

theorem sysUsleep_steady (usec : Int) (w : World)
    (hs : ∀ e ∈ w.sleeps, ∃ extra, 0 ≤ extra ∧ e = SleepEv.complete extra) :
    ∃ extra, 0 ≤ extra ∧ (sysUsleep usec w).now = w.now + usec * 1000 + extra := by
  cases hq : w.sleeps with
  | nil => exact ⟨0, le_refl _, by simp [sysUsleep, hq]⟩
  | cons e es =>
    obtain ⟨extra, h0, he⟩ := hs e (by simp [hq])
    subst he
    exact ⟨extra, h0, by simp [sysUsleep, hq]⟩

theorem usleep_step_now_le (x : ℚ) (w : World)
    (hs : ∀ e ∈ w.sleeps, ∃ extra, 0 ≤ extra ∧ e = SleepEv.complete extra) :
    w.now ≤ (if x ≥ fl (1 / 1000000) then sysUsleep (usleepArg x) w else w).now := by
  split
  · obtain ⟨extra, he, hn⟩ := sysUsleep_steady (usleepArg x) w hs
    have := toUInt32_nonneg (fmul x 1000000)
    rw [hn]
    unfold usleepArg
    omega
  · exact le_refl _

/-- The `usleep` step of the configurations without `nanosleep` (lines
153-154), for a `double` whose microseconds fit the argument: the time it lets
go by is short of the time computed by less than a microsecond. -/
theorem usleep_step_advances (x : ℚ) (w : World)
    (hs : ∀ e ∈ w.sleeps, ∃ extra, 0 ≤ extra ∧ e = SleepEv.complete extra)
    (hr : x ≤ fl (4294967295 / 1000000)) :
    x * 1000000000
      < ((if x ≥ fl (1 / 1000000) then sysUsleep (usleepArg x) w else w).now : ℚ) - (w.now : ℚ)
        + 1000 := by
  by_cases hx : x ≥ fl (1 / 1000000)
  · rw [if_pos hx]
    have h0 : 0 ≤ x := by
      rw [fl_micro] at hx
      have : (0 : ℚ) ≤ 4722366482869645 / 4722366482869645213696 := by norm_num
      linarith
    obtain ⟨extra, he, hn⟩ := sysUsleep_steady (usleepArg x) w hs
    obtain ⟨-, u0, -, u2, -⟩ := usleepArg_spec h0 hr
    have hq : ((sysUsleep (usleepArg x) w).now : ℚ) - (w.now : ℚ)
        = (usleepArg x : ℚ) * 1000 + (extra : ℚ) := by
      rw [hn]; push_cast; ring
    have he' : (0 : ℚ) ≤ (extra : ℚ) := by exact_mod_cast he
    rw [hq]
    linarith
  · rw [if_neg hx]
    have hx' : x < fl (1 / 1000000) := not_le.mp hx
    rw [fl_micro] at hx'
    have : (4722366482869645 : ℚ) / 4722366482869645213696 < 1 / 1000000 := by norm_num
    simp only [sub_self]
    linarith

theorem fl_sleepCap_nanosleep : fl (sleepCap .nanosleep) = 9223372036854774784 := by
  decide!

theorem fl_sleepCap_sleep : fl (sleepCap .sleepUsleep) = 4294967295 := by
  decide!

theorem micro_le_clamp : fl (1 / 1000000) ≤ fmul 999999 (fl (1 / 1000000)) := by
  decide!

theorem clamp_lt_one : fmul 999999 (fl (1 / 1000000)) < 1 := by
  decide!

/-- In a steady world the throttle phase never sets the clock back. -/
theorem doSleep_now_le (impl : SleepImpl) (sync : ℚ) (w : World)
    (hs : ∀ e ∈ w.sleeps, ∃ extra, 0 ≤ extra ∧ e = SleepEv.complete extra) :
    w.now ≤ (doSleep impl sync w).now := by
  cases impl with
  | nanosleep =>
    simp only [doSleep]
    split
    · exact nanosleepLoop_now_le _ w hs
    · exact le_refl _
  | usleepOnly =>
    simp only [doSleep]
    exact usleep_step_now_le sync w hs
  | sleepUsleep =>
    simp only [doSleep]
    by_cases hx : sync ≥ 1
    · simp only [hx, if_true]
      obtain ⟨e1, he1, hn1⟩ := sleepLoop_steady (wholeSeconds sync) w hs
      have hs1 : ∀ e ∈ (sleepLoop w.sleeps (wholeSeconds sync) w).sleeps,
          ∃ extra, 0 ≤ extra ∧ e = SleepEv.complete extra := by
        intro e he
        exact hs e ((sleepLoop_frame w.sleeps (wholeSeconds sync) w
          (List.suffix_refl _)).2.2.2.2.2.1.subset he)
      have h2 := usleep_step_now_le (fracAfterSleep sync)
        (sleepLoop w.sleeps (wholeSeconds sync) w) hs1
      have h3 : 0 ≤ wholeSeconds sync := toUInt32_nonneg sync
      rw [hn1] at h2
      omega
    · simp only [hx, if_false]
      exact usleep_step_now_le sync w hs

/-- In a steady world the throttle phase lets the computed time go by, less
than one unit of resolution short, when the computed time is a `double` that
the conversion of the configuration holds.  (The factor `1 - 2^-53` is for a
`sync` between `10^-9` and the double `0.000000001`, which is above it and
below which no sleep is made.) -/
theorem doSleep_advances (impl : SleepImpl) (sync : ℚ) (w : World)
    (hs : ∀ e ∈ w.sleeps, ∃ extra, 0 ≤ extra ∧ e = SleepEv.complete extra)
    (hd : fl sync = sync) (hr : sync ≤ fl (sleepCap impl)) :
    sync * 1000000000 * (1 - pow2 (-53))
      < ((doSleep impl sync w).now : ℚ) - (w.now : ℚ) + (resolution impl : ℚ) := by
  have hp := pow2_neg53
  cases impl with
  | nanosleep =>
    simp only [doSleep, resolution]
    rw [fl_sleepCap_nanosleep] at hr
    by_cases hx : sync ≥ fl (1 / 1000000000)
    · rw [if_pos hx]
      have h0 : 0 ≤ sync := by
        rw [fl_nano] at hx
        have : (0 : ℚ) ≤ 4835703278458517 / 4835703278458516698824704 := by norm_num
        linarith
      obtain ⟨hsec, n0, n1, -, n3, hv⟩ := toTimespec_spec hd h0 (by linarith)
      obtain ⟨extra, he, hn⟩ := nanosleepLoop_steady (toTimespec sync) w hv hs
      have hq : ((nanosleepLoop w.sleeps (toTimespec sync) w).now : ℚ) - (w.now : ℚ)
          = ((toTimespec sync).tv_sec : ℚ) * 1000000000 + ((toTimespec sync).tv_nsec : ℚ)
            + (extra : ℚ) := by
        rw [hn]; simp only [Timespec.toNs]; push_cast; ring
      have he' : (0 : ℚ) ≤ (extra : ℚ) := by exact_mod_cast he
      rw [hq, hp]
      push_cast
      nlinarith
    · rw [if_neg hx]
      have hx' : sync < fl (1 / 1000000000) := not_le.mp hx
      rw [fl_nano] at hx'
      simp only [sub_self]
      rw [hp]
      push_cast
      linarith
  | usleepOnly =>
    simp only [doSleep, resolution]
    have b := usleep_step_advances sync w hs hr
    rcases le_or_lt 0 sync with h0 | h0
    · rw [hp]; push_cast; nlinarith
    · have h1 := usleep_step_now_le sync w hs
      have h2 : (w.now : ℚ)
          ≤ ((if sync ≥ fl (1 / 1000000) then sysUsleep (usleepArg sync) w else w).now : ℚ) := by
        exact_mod_cast h1
      rw [hp]; push_cast; nlinarith
  | sleepUsleep =>
    simp only [doSleep, resolution]
    rw [fl_sleepCap_sleep] at hr
    by_cases hx : sync ≥ 1
    · simp only [hx, if_true]
      have h0 : 0 ≤ sync := by linarith
      obtain ⟨hw, hfa, hfb, hf0, hfle, hfcl⟩ := fracAfterSleep_spec hd h0 (by linarith)
      obtain ⟨e1, he1, hn1⟩ := sleepLoop_steady (wholeSeconds sync) w hs
      have hs1 : ∀ e ∈ (sleepLoop w.sleeps (wholeSeconds sync) w).sleeps,
          ∃ extra, 0 ≤ extra ∧ e = SleepEv.complete extra := by
        intro e he
        exact hs e ((sleepLoop_frame w.sleeps (wholeSeconds sync) w
          (List.suffix_refl _)).2.2.2.2.2.1.subset he)
      have hcap : fracAfterSleep sync ≤ fl (4294967295 / 1000000) :=
        le_trans hfcl (le_trans (le_of_lt clamp_lt_one) one_le_usleepCap)
      have b := usleep_step_advances (fracAfterSleep sync)
        (sleepLoop w.sleeps (wholeSeconds sync) w) hs1 hcap
      have he1' : (0 : ℚ) ≤ (e1 : ℚ) := by exact_mod_cast he1
      generalize hN : (if fracAfterSleep sync ≥ fl (1 / 1000000) then
        sysUsleep (usleepArg (fracAfterSleep sync)) (sleepLoop w.sleeps (wholeSeconds sync) w)
        else sleepLoop w.sleeps (wholeSeconds sync) w).now = N at b ⊢
      have hsplit : (N : ℚ) - (w.now : ℚ)
          = ((N : ℚ) - ((sleepLoop w.sleeps (wholeSeconds sync) w).now : ℚ))
            + (⌊sync⌋ : ℚ) * 1000000000 + (e1 : ℚ) := by
        rw [hn1, hw]; push_cast; ring
      have hfl2 : sync < ((⌊sync⌋ : ℤ) : ℚ) + 1 := Int.lt_floor_add_one sync
      rw [hsplit, hp]
      push_cast
      rcases le_or_lt (sync - (⌊sync⌋ : ℚ)) (fmul 999999 (fl (1 / 1000000))) with hc | hc
      · rw [hfa hc] at b
        nlinarith
      · have hfr := hfb hc
        have hge : fracAfterSleep sync ≥ fl (1 / 1000000) := by
          rw [hfr]; exact micro_le_clamp
        rw [if_pos hge] at hN
        obtain ⟨e2, he2, hn2⟩ := sysUsleep_steady (usleepArg (fracAfterSleep sync))
          (sleepLoop w.sleeps (wholeSeconds sync) w) hs1
        rw [hn2, hfr, usleepArg_clamp] at hN
        have he2' : (0 : ℚ) ≤ (e2 : ℚ) := by exact_mod_cast he2
        have hN' : (N : ℚ) - ((sleepLoop w.sleeps (wholeSeconds sync) w).now : ℚ)
            = 999999000 + (e2 : ℚ) := by
          rw [← hN]; push_cast; ring
        rw [hN']
        nlinarith
    · simp only [hx, if_false]
      have hr' : sync ≤ fl (4294967295 / 1000000) :=
        le_trans (le_of_lt (not_le.mp hx)) one_le_usleepCap
      have b := usleep_step_advances sync w hs hr'
      rcases le_or_lt 0 sync with h0 | h0
      · rw [hp]; push_cast; nlinarith
      · have h1 := usleep_step_now_le sync w hs
        have h2 : (w.now : ℚ)
            ≤ ((if sync ≥ fl (1 / 1000000) then sysUsleep (usleepArg sync) w else w).now : ℚ) := by
          exact_mod_cast h1
        rw [hp]; push_cast; nlinarith



/-! ## The rate bound -/

theorem marks_append (a b : List Event) : marks (a ++ b) = marks a ++ marks b := by
  induction a with
  | nil => rfl
  | cons e a ih =>
    simp only [List.cons_append, marks]
    split <;> simp [ih]

theorem marks_eq_nil {l : List Event}
    (h : ∀ e ∈ l, ∀ n st b, e.call ≠ .flush n st b) : marks l = [] := by
  induction l with
  | nil => rfl
  | cons e l ih =>
    simp only [marks]
    split
    · rename_i n st b heq
      exact absurd heq (h e (by simp) n st b)
    · exact ih (fun e he => h e (List.mem_cons_of_mem _ he))

theorem marks_reads {nleft : Nat} {l : List Event} (h : ReadsRemainder nleft l) :
    marks l = [] := by
  apply marks_eq_nil
  intro e he n st b
  obtain ⟨pre, post, hl⟩ := List.append_of_mem he
  obtain ⟨r, hr⟩ := h pre e post hl
  rw [hr]; simp

theorem marks_writes {nleft : Nat} {l : List Event} (h : WritesRemainder nleft l) :
    marks l = [] := by
  apply marks_eq_nil
  intro e he n st b
  obtain ⟨pre, post, hl⟩ := List.append_of_mem he
  obtain ⟨r, hr⟩ := h pre e post hl
  rw [hr]; simp

theorem marks_sleeps {l : List Event} (h : ∀ e ∈ l, e.call.isSleep = true) :
    marks l = [] := by
  apply marks_eq_nil
  intro e he n st b hc
  have := h e he
  rw [hc] at this
  simp [Call.isSleep] at this

theorem toNs_toTimeval (t : Int) :
    (toTimeval t).toNs ≤ t ∧ t < (toTimeval t).toNs + 1000 ∧
    0 ≤ (toTimeval t).tv_usec ∧ (toTimeval t).tv_usec < 1000000 := by
  simp only [Timeval.toNs, toTimeval]
  omega

theorem BSECS_nonneg {n : Nat} {Bps : ℚ} (hB : 0 < Bps) (hBd : fl Bps = Bps)
    (hn : n < 2147483648) :
    BSECS (n : Int) Bps = fl ((n : ℚ) / Bps) ∧ 0 ≤ BSECS (n : Int) Bps ∧
    fl (BSECS (n : Int) Bps) = BSECS (n : Int) Bps := by
  have he : ofInt (n : Int) = (n : ℚ) := by
    unfold ofInt
    rw [fl_intCast (n : Int) (by rw [abs_of_nonneg (by omega)]; omega)]
    simp
  have hb : BSECS (n : Int) Bps = fl ((n : ℚ) / Bps) := by
    unfold BSECS fdiv
    rw [he, hBd]
  refine ⟨hb, ?_, ?_⟩
  · rw [hb]
    exact fl_nonneg (div_nonneg (by exact_mod_cast Nat.zero_le n) (le_of_lt hB))
  · rw [hb, fl_idem]

/-- The heart of the rate bound, in exact terms: `q` seconds is the time the
bytes of the window take, `b` its double, `t` the double of the `e` seconds
since the start of the window, `sync` the double of `b - t`, and `d` seconds
go by before the writing begins, short of `sync` by less than the slack of
the conversion.  Then `q` is below `e + d` and one part in `2^50` more. -/
theorem pace_core {q b t e sync d : ℚ} (hq0 : 0 ≤ q) (he0 : 0 ≤ e) (hd1 : 1 / 1000000000 ≤ d)
    (hb : pow2 (-1022) ≤ q → q * (1 - pow2 (-53)) ≤ b)
    (ht : t ≤ e * (1 + pow2 (-53)) ^ 2)
    (hs : pow2 (-1022) ≤ b - t → (b - t) * (1 - pow2 (-53)) ≤ sync)
    (hd : sync * (1 - pow2 (-53)) < d) :
    q < (e + d) * (1 + 1 / 1125899906842624) := by
  have hp := pow2_neg53
  have hmin := pow2_neg1022_lt
  rcases lt_or_le q (pow2 (-1022)) with hq | hq
  · nlinarith
  · have hb' := hb hq
    rcases lt_or_le (b - t) (pow2 (-1022)) with hδ | hδ
    · rw [hp] at hb' ht
      nlinarith
    · have hs' := hs hδ
      rw [hp] at hb' ht hs' hd
      nlinarith

/-- With blocks and a count below `2^31`, in a world whose clock does not go
back, the counter of the code is the true count of the window, the start of
the window is a reading of the clock, `sync` is a `double` no greater than the
double of the time the count takes at `Bps`, and a writing that begins `d`
seconds after the reading of the clock, short of `sync` by less than the slack
of the conversion, keeps the rate bound. -/
theorem account_paced {Bps : ℚ} {window : Int} {s s1 : Acct} {nread wb : Nat} {sync : ℚ}
    {now0 now2 : Int} (hB : 0 < Bps) (hBd : fl Bps = Bps) (hn : nread < 2147483648)
    (hinv : s.bytesread = wb) (hwb : wb < 2147483648)
    (hstart : s.elapsedtime.tv_sec ≥ window ∨ ∃ t0, t0 ≤ now0 ∧ s.starttime = toTimeval t0)
    (h02 : now0 ≤ now2)
    (hacc : account Bps window s nread (some (toTimeval now2)) = some (s1, sync)) :
    s1.bytesread = (windowBytes window s wb nread : Nat) ∧
    windowBytes window s wb nread < 2147483648 ∧
    (∃ t1, t1 ≤ now2 ∧ s1.starttime = toTimeval t1) ∧
    fl sync = sync ∧
    (∀ cap : ℚ, (windowBytes window s wb nread : ℚ) ≤ Bps * cap → sync ≤ fl cap) ∧
    (∀ d : ℚ, 1 ≤ d → sync * 1000000000 * (1 - pow2 (-53)) < d →
      (windowBytes window s wb nread : ℚ) * 1000000000
        < Bps * ((((toTimeval now2).toNs : ℚ) - (s1.starttime.toNs : ℚ) + d)
                  * (1 + 1 / 1125899906842624))) := by
  have hne : Bps ≠ 0 := ne_of_gt hB
  -- the common part: the bound from the facts about `b`, `t` and `sync`
  have fin : ∀ (n : Nat) (e t : ℚ), n < 2147483648 → 0 ≤ e → t ≤ e * (1 + pow2 (-53)) ^ 2 →
      (pow2 (-1022) ≤ BSECS (n : Int) Bps - t →
        (BSECS (n : Int) Bps - t) * (1 - pow2 (-53)) ≤ sync) →
      ∀ d : ℚ, 1 ≤ d → sync * 1000000000 * (1 - pow2 (-53)) < d →
        (n : ℚ) * 1000000000 < Bps * ((e * 1000000000 + d) * (1 + 1 / 1125899906842624)) := by
    intro n e t hn2 he0 ht hs d hd1 hd
    obtain ⟨hb, -, -⟩ := BSECS_nonneg hB hBd hn2
    have hq0 : (0 : ℚ) ≤ (n : ℚ) / Bps := div_nonneg (by exact_mod_cast Nat.zero_le n) (le_of_lt hB)
    have key := @pace_core ((n : ℚ) / Bps) (BSECS (n : Int) Bps) t e sync (d / 1000000000)
      hq0 he0 (by linarith) (fun h => by rw [hb]; exact (fl_bounds h).1) ht hs (by linarith)
    have hnq : (n : ℚ) * 1000000000 = Bps * ((n : ℚ) / Bps * 1000000000) := by field_simp
    rw [hnq]
    apply mul_lt_mul_of_pos_left _ hB
    linarith
  cases hr : resets window s nread with
  | true =>
    rw [account_reset _ _ _ _ _ hr] at hacc
    simp only [Option.some.injEq, Prod.mk.injEq] at hacc
    obtain ⟨h1, h2⟩ := hacc
    subst h1
    have ht : toInt32 (nread : Int) = nread := toInt32_of_lt (by omega) (by omega)
    have hwbx : windowBytes window s wb nread = nread := by simp [windowBytes, hr]
    rw [ht] at h2
    obtain ⟨hb, hb0, hbd⟩ := BSECS_nonneg hB hBd hn
    rw [hwbx]
    refine ⟨ht, hn, ⟨now2, le_refl _, rfl⟩, by rw [← h2]; exact hbd, fun cap hcap => ?_,
      fun d hd1 hd => ?_⟩
    · rw [← h2, hb]
      apply fl_mono
      rw [div_le_iff₀ hB]
      linarith
    · have hbp : 0 ≤ BSECS (nread : Int) Bps * pow2 (-53) :=
        mul_nonneg hb0 (le_of_lt (pow2_pos (-53)))
      have := fin nread 0 0 hn (le_refl _) (by simp) (fun _ => by
        rw [← h2, sub_zero]
        linarith) d hd1 hd
      simp only [sub_self, zero_add]
      simpa using this
  | false =>
    rw [account_keep _ _ _ _ _ hr] at hacc
    simp only [Option.some.injEq, Prod.mk.injEq] at hacc
    obtain ⟨h1, h2⟩ := hacc
    subst h1
    have hrr := hr
    simp only [resets, Bool.or_eq_false_iff, decide_eq_false_iff_not] at hrr
    have hnn : ¬ (toInt32 (s.bytesread + nread) < 0) := hrr.2
    have hsum : s.bytesread + (nread : Int) < 2147483648 := by
      by_contra hge
      apply hnn
      unfold toInt32
      omega
    have ht : toInt32 (s.bytesread + nread) = ((wb + nread : Nat) : Int) := by
      rw [toInt32_of_lt (by omega) hsum, hinv]; push_cast; ring
    have hwbx : windowBytes window s wb nread = wb + nread := by simp [windowBytes, hr]
    obtain ⟨t0, ht0, hst⟩ : ∃ t0, t0 ≤ now0 ∧ s.starttime = toTimeval t0 := by
      rcases hstart with h | h
      · exact absurd h hrr.1
      · exact h
    have hlt : wb + nread < 2147483648 := by omega
    obtain ⟨hb, hb0, hbd⟩ := BSECS_nonneg hB hBd hlt
    obtain ⟨e0, e1, e2, e3⟩ := timersub_toTimeval (show t0 ≤ now2 by omega)
    rw [← hst] at e0 e1 e2 e3
    obtain ⟨tb0, tb1⟩ := TSECS_bounds _ e0 e1 e2
    rw [ht] at h2
    rw [hwbx]
    simp only
    have hE : ((timersub (toTimeval now2) s.starttime).tv_sec : ℚ)
        + ((timersub (toTimeval now2) s.starttime).tv_usec : ℚ) / 1000000
        = (((toTimeval now2).toNs : ℚ) - (s.starttime.toNs : ℚ)) / 1000000000 := by
      have : (((timersub (toTimeval now2) s.starttime).tv_sec * 1000000000
          + (timersub (toTimeval now2) s.starttime).tv_usec * 1000 : Int) : ℚ)
          = (((toTimeval now2).toNs - s.starttime.toNs : Int) : ℚ) := by rw [e3]
      push_cast at this
      linarith
    have hE0 : (0 : ℚ) ≤ (((toTimeval now2).toNs : ℚ) - (s.starttime.toNs : ℚ)) / 1000000000 := by
      rw [← hE]
      have a0 : (0 : ℚ) ≤ ((timersub (toTimeval now2) s.starttime).tv_sec : ℚ) := by
        exact_mod_cast e0
      have a1 : (0 : ℚ) ≤ ((timersub (toTimeval now2) s.starttime).tv_usec : ℚ) := by
        exact_mod_cast e1
      linarith
    rw [hE] at tb1
    refine ⟨ht, hlt, ⟨t0, by omega, hst⟩, by rw [← h2]; exact fl_idem _, fun cap hcap => ?_,
      fun d hd1 hd => ?_⟩
    · rw [← h2]
      have h3 : fsub (BSECS ((wb + nread : Nat) : Int) Bps)
          (TSECS (timersub (toTimeval now2) s.starttime))
          ≤ BSECS ((wb + nread : Nat) : Int) Bps := by
        unfold fsub
        have := @fl_mono (BSECS ((wb + nread : Nat) : Int) Bps
          - TSECS (timersub (toTimeval now2) s.starttime))
          (BSECS ((wb + nread : Nat) : Int) Bps) (by linarith)
        rwa [hbd] at this
      refine le_trans h3 ?_
      rw [hb]
      apply fl_mono
      rw [div_le_iff₀ hB]
      linarith
    · have := fin (wb + nread) _ _ hlt hE0 tb1 (fun h => by
        rw [← h2]
        exact (fl_bounds h).1) d hd1 hd
      have hc : (((toTimeval now2).toNs : ℚ) - (s.starttime.toNs : ℚ)) / 1000000000 * 1000000000
          = ((toTimeval now2).toNs : ℚ) - (s.starttime.toNs : ℚ) := by
        field_simp
      rw [hc] at this
      exact this



/-! ## One pass of the main loop -/

theorem account_none (Bps : ℚ) (window : Int) (s : Acct) (nread : Nat) :
    account Bps window s nread none = none := by
  unfold account
  split <;> rfl

theorem account_some (Bps : ℚ) (window : Int) (s : Acct) (nread : Nat) (tv : Timeval) :
    ∃ s1 sync, account Bps window s nread (some tv) = some (s1, sync) := by
  unfold account
  split
  · exact ⟨_, _, rfl⟩
  · exact ⟨_, _, rfl⟩

theorem iteration_spec (impl : SleepImpl) (Bps : ℚ) (window : Int) (blocksize : Nat)
    (s : Acct) (winBytes : Nat) (block : Nat → Byte) (w : World) :
    match iteration impl Bps window blocksize s winBytes block w with
    | .outOfFuel _ => False
    | .failed w1 =>
      ((∃ e ∈ w.reads, e.ret = none) ∨ (∃ e ∈ w.clocks, e.ok = false) ∨
        (∃ e ∈ w.writes, e.ret = none ∨ e.ret = some 0)) ∧
      ∃ l, w1.log = w.log ++ l ∧ FailedPass blocksize l ∧
        (w.Steady → 0 < Bps → fl Bps = Bps → blocksize < 2147483648 → s.bytesread = winBytes →
          winBytes < 2147483648 →
          (s.elapsedtime.tv_sec ≥ window ∨ ∃ t0, t0 ≤ w.now ∧ s.starttime = toTimeval t0) →
          ∀ m ∈ marks l, m.Fits impl Bps → m.Paced impl Bps)
    | .completed done s1 winBytes1 _ w1 =>
      ∃ data rs tc clk sync sl tf ws,
        w.input = data ++ w1.input ∧ w1.output = w.output ++ data ∧
        data.length ≤ blocksize ∧ (done = false → data.length = blocksize ∧ 0 < blocksize) ∧
        (done = true → (w1.input = [] ∨ blocksize = 0) ∧
          (∃ rs1 t n, rs = rs1 ++ [⟨t, .read n (some 0)⟩]) ∧
          (data.length < blocksize ∨ blocksize = 0)) ∧
        account Bps window s data.length (some clk) = some (s1, sync) ∧
        winBytes1 = windowBytes window s winBytes data.length ∧
        w1.log = w.log ++ (rs ++ ⟨tc, .gettimeofday (some clk)⟩ ::
          (sl ++ ⟨tf, .flush data.length s1.starttime winBytes1⟩ :: ws)) ∧
        ReadsRemainder blocksize rs ∧ moved rs = data.length ∧
        (∀ e ∈ sl, e.call.isSleep = true) ∧
        WritesRemainder data.length ws ∧ moved ws = data.length ∧
        (∀ e, ws.head? = some e → e.t = tf) ∧
        w1.reads <:+ w.reads ∧ w1.writes <:+ w.writes ∧ w1.clocks <:+ w.clocks ∧
        w1.sleeps <:+ w.sleeps ∧
        ∃ w2 : World, clk = toTimeval w2.now ∧ w2.sleeps = w.sleeps ∧
          w2.log = w.log ++ (rs ++ [⟨tc, .gettimeofday (some clk)⟩]) ∧
          (doSleep impl sync w2).log = w2.log ++ sl ∧
          tf = (doSleep impl sync w2).now ∧
          (w.Steady → w.now ≤ w2.now ∧ w2.now ≤ tf ∧ tf ≤ w1.now) ∧
          (w.Steady → 0 < Bps → fl Bps = Bps → blocksize < 2147483648 →
            s.bytesread = winBytes → winBytes < 2147483648 →
            (s.elapsedtime.tv_sec ≥ window ∨ ∃ t0, t0 ≤ w.now ∧ s.starttime = toTimeval t0) →
            (s1.bytesread = winBytes1 ∧ winBytes1 < 2147483648 ∧
              ∃ t1, t1 ≤ w1.now ∧ s1.starttime = toTimeval t1) ∧
            (Mark.Fits impl Bps ⟨tf, data.length, s1.starttime, winBytes1⟩ →
              Mark.Paced impl Bps ⟨tf, data.length, s1.starttime, winBytes1⟩)) := by
  have hfill := fillLoop_spec (blocksize + 1) w block 0 blocksize (by omega)
  have hfnow := fillLoop_now (blocksize + 1) w block 0 blocksize
  unfold iteration
  revert hfill hfnow
  cases fillLoop (blocksize + 1) w block 0 blocksize with
  | outOfFuel w1 => exact fun h _ => h
  | readError w1 =>
    rintro ⟨-, hf, rs, t, n, hl, hrr⟩ -
    refine ⟨Or.inl hf, _, hl, Or.inl ⟨rs, t, n, rfl, hrr⟩, fun _ _ _ _ _ _ _ => ?_⟩
    rw [marks_reads hrr]
    exact fun m hm => absurd hm (List.not_mem_nil _)
  | filled w1 block1 nleft done =>
    rintro ⟨⟨hpo, hpw, hpc, hps, hpr⟩, data, rs, hin, hlen, hload, -, hlog, hrr, hmv, hd0, hd1⟩
      hfnow
    simp only [] at hfnow
    have hnread : blocksize - nleft = data.length := by omega
    have hft : FillTrace blocksize rs data.length done :=
      ⟨hrr, hmv, by omega, fun hd => by have := (hd0 hd).1; omega, fun hd => (hd1 hd).2.1⟩
    simp only [hnread]
    obtain ⟨gi, go, gr, gw, gs, gc, gl, gnow, gnone, gsome⟩ := sysGettimeofday_spec w1
    rcases hg : sysGettimeofday w1 with ⟨clock, w2⟩
    rw [hg] at gi go gr gw gs gc gl gnow gnone gsome
    simp only at gi go gr gw gs gc gl gnow gnone gsome
    cases clock with
    | none =>
      simp only [account_none]
      obtain ⟨e, he, hok⟩ := gnone rfl
      refine ⟨Or.inr (Or.inl ⟨e, hpc ▸ he, hok⟩), rs ++ [⟨w1.now, .gettimeofday none⟩], ?_,
        Or.inr (Or.inl ⟨rs, w1.now, data.length, done, rfl, hft⟩), fun _ _ _ _ _ _ _ => ?_⟩
      · rw [gl, hlog, List.append_assoc]
      · rw [marks_append, marks_reads hrr]
        exact fun m hm => absurd hm (by simp [marks])
    | some tv =>
      obtain ⟨s1, sync, hacc⟩ := account_some Bps window s data.length tv
      simp only [hacc]
      obtain ⟨si, sr, sc, sw, so, sq, sl, hsl, hsl2⟩ := doSleep_frame impl sync w2
      have hdel : w.Steady → w.now ≤ w1.now ∧ w1.now ≤ w2.now := by
        rintro ⟨hsr, -, hsc, -⟩
        have h1 := hfnow hsr
        have hdel : 0 ≤ (w1.clocks.headD ⟨0, true⟩).delay := by
          rw [hpc]
          cases hq : w.clocks with
          | nil => simp
          | cons e es => simp only [List.headD_cons]; exact hsc e (by simp [hq])
        exact ⟨h1, by omega⟩
      have hpaced : w.Steady → 0 < Bps → fl Bps = Bps → blocksize < 2147483648 →
          s.bytesread = winBytes → winBytes < 2147483648 →
          (s.elapsedtime.tv_sec ≥ window ∨ ∃ t0, t0 ≤ w.now ∧ s.starttime = toTimeval t0) →
          (s1.bytesread = windowBytes window s winBytes data.length ∧
            windowBytes window s winBytes data.length < 2147483648 ∧
            ∃ t1, t1 ≤ w2.now ∧ s1.starttime = toTimeval t1) ∧
          (Mark.Fits impl Bps ⟨(doSleep impl sync w2).now, data.length, s1.starttime,
              windowBytes window s winBytes data.length⟩ →
            Mark.Paced impl Bps ⟨(doSleep impl sync w2).now, data.length, s1.starttime,
              windowBytes window s winBytes data.length⟩) := by
        intro hst hB hBd hbs hinv hwb hstart
        have hss := hst.2.2.2
        have hsw2 : ∀ e ∈ w2.sleeps, ∃ extra, 0 ≤ extra ∧ e = SleepEv.complete extra := by
          rw [gs, hps]; exact hss
        obtain ⟨hn01, hn12⟩ := hdel hst
        have hacc' := hacc
        rw [gsome tv rfl] at hacc'
        obtain ⟨a1, a2, a3, a4, a5, a6⟩ := account_paced hB hBd (by omega) hinv hwb hstart
          (show w.now ≤ w2.now by omega) hacc'
        refine ⟨⟨a1, a2, a3⟩, fun hfit => ?_⟩
        simp only [Mark.Fits] at hfit
        have hadv := doSleep_advances impl sync w2 hsw2 a4 (a5 _ hfit)
        have hle := doSleep_now_le impl sync w2 hsw2
        have hres : (1 : ℚ) ≤ (resolution impl : ℚ) := by
          cases impl <;> simp [resolution]
        have hle' : (w2.now : ℚ) ≤ ((doSleep impl sync w2).now : ℚ) := by exact_mod_cast hle
        have h6 := a6 (((doSleep impl sync w2).now : ℚ) - (w2.now : ℚ) + (resolution impl : ℚ))
          (by linarith) hadv
        have hclk : ((toTimeval w2.now).toNs : ℚ) ≤ (w2.now : ℚ) := by
          exact_mod_cast (toNs_toTimeval w2.now).1
        simp only [Mark.Paced]
        refine lt_of_lt_of_le h6 ?_
        apply mul_le_mul_of_nonneg_left _ (le_of_lt hB)
        apply mul_le_mul_of_nonneg_right _ (by norm_num)
        linarith
      have hflush := flushLoop_spec data.length
        { doSleep impl sync w2 with
          log := (doSleep impl sync w2).log ++
            [⟨(doSleep impl sync w2).now,
              .flush data.length s1.starttime (windowBytes window s winBytes data.length)⟩] }
        block1 0 data.length (le_refl _)
      have hflnow := flushLoop_now data.length
        { doSleep impl sync w2 with
          log := (doSleep impl sync w2).log ++
            [⟨(doSleep impl sync w2).now,
              .flush data.length s1.starttime (windowBytes window s winBytes data.length)⟩] }
        block1 0 data.length
      revert hflush hflnow
      cases flushLoop data.length _ block1 0 data.length with
      | outOfFuel w5 => exact fun h _ => h
      | writeError w5 =>
        rintro ⟨-, ⟨e, he, hen⟩, ws, t, n, r, hl5, hr5, hw5, -⟩ -
        simp only at he hl5
        refine ⟨Or.inr (Or.inr ⟨e, ?_, hen⟩), _, ?_, Or.inr (Or.inr
          ⟨rs, ⟨w1.now, .gettimeofday (some tv)⟩, sl,
            ⟨(doSleep impl sync w2).now,
              .flush data.length s1.starttime (windowBytes window s winBytes data.length)⟩,
            ws, t, n, r, data.length, done, rfl, hr5, hft, ⟨tv, rfl⟩, hsl2, ⟨_, _, rfl⟩, hw5⟩),
          fun h1 h2 h3 h4 h5 h6 h7 => ?_⟩
        · rw [sw, gw, hpw] at he; exact he
        · rw [hl5, hsl, gl, hlog]
          simp only [List.append_assoc, List.cons_append, List.nil_append]
        · have hm : marks (rs ++ ⟨w1.now, .gettimeofday (some tv)⟩ :: (sl ++
              ⟨(doSleep impl sync w2).now,
                .flush data.length s1.starttime (windowBytes window s winBytes data.length)⟩ ::
              (ws ++ [⟨t, .write n r⟩])))
              = [⟨(doSleep impl sync w2).now, data.length, s1.starttime,
                  windowBytes window s winBytes data.length⟩] := by
            simp only [marks_append, marks, marks_reads hrr, marks_sleeps hsl2, marks_writes hw5,
              List.nil_append, List.append_nil]
          rw [hm]
          intro m hmm
          rw [List.mem_singleton.mp hmm]
          exact (hpaced h1 h2 h3 h4 h5 h6 h7).2
      | flushed w5 =>
        rintro ⟨⟨fi, fr, fc, fs, fw⟩, fout, ws, hl5, hw5, hm5, hh5⟩ hflnow
        simp only at fi fr fc fs fw fout hl5 hflnow hh5
        have hw5now : w.Steady → (doSleep impl sync w2).now ≤ w5.now := by
          rintro ⟨-, hsw, -, -⟩
          refine hflnow (fun e he => hsw e ?_)
          rw [sw, gw, hpw] at he; exact he
        refine ⟨data, rs, w1.now, tv, sync, sl, (doSleep impl sync w2).now, ws, ?_, ?_, by omega,
          ?_, ?_, hacc, rfl, ?_, hrr, hmv, hsl2, hw5, hm5, hh5, ?_, ?_, ?_, ?_,
          w2, gsome tv rfl, by rw [gs, hps], ?_, hsl, rfl, ?_, ?_⟩
        · rw [fi, si, gi]; exact hin
        · rw [fout, so, go, hpo, hload]
        · intro hd
          exact ⟨by have := (hd0 hd).1; omega, by have := (hd0 hd).2; omega⟩
        · intro hd
          obtain ⟨h1, h2, h3⟩ := hd1 hd
          refine ⟨?_, h2, by omega⟩
          rw [fi, si, gi]; exact h1
        · rw [hl5, hsl, gl, hlog]; simp
        · rw [fr, sr, gr]; exact hpr
        · rw [sw, gw, hpw] at fw; exact fw
        · rw [fc, sc, gc, hpc]; exact List.tail_suffix _
        · rw [gs, hps] at sq; rw [fs]; exact sq
        · rw [gl, hlog]; simp
        · intro hst
          obtain ⟨h1, h2⟩ := hdel hst
          have h3 := doSleep_now_le impl sync w2 (by rw [gs, hps]; exact hst.2.2.2)
          exact ⟨by omega, h3, hw5now hst⟩
        · intro hst hB hBd hbs hinv hwb hstart
          obtain ⟨⟨a1, a2, t1, ht1, a3⟩, hp⟩ := hpaced hst hB hBd hbs hinv hwb hstart
          have h3 := doSleep_now_le impl sync w2 (by rw [gs, hps]; exact hst.2.2.2)
          have h4 := hw5now hst
          exact ⟨⟨a1, a2, t1, by omega, a3⟩, hp⟩



/-! ## The whole run -/

theorem failedPass_ends {blocksize : Nat} {l : List Event} (pre : List Event)
    (h : FailedPass blocksize l) : EndsInFailure (pre ++ l) := by
  rcases h with ⟨rs, t, n, hl, -⟩ | ⟨rs, t, _, _, hl, -⟩ |
    ⟨rs, c, sl, f, ws, t, n, r, _, _, hl, hr, -⟩
  · exact ⟨pre ++ rs, t, Or.inl ⟨n, by rw [hl, List.append_assoc]⟩⟩
  · exact ⟨pre ++ rs, t, Or.inr (Or.inl (by rw [hl, List.append_assoc]))⟩
  · rcases hr with h | h
    · subst h
      exact ⟨pre ++ (rs ++ c :: (sl ++ f :: ws)), t,
        Or.inr (Or.inr (Or.inl ⟨n, by rw [hl]; simp⟩))⟩
    · subst h
      exact ⟨pre ++ (rs ++ c :: (sl ++ f :: ws)), t,
        Or.inr (Or.inr (Or.inr ⟨n, by rw [hl]; simp⟩))⟩

/-- A run of the main loop returns; it returns `0` with every byte of the
stream written when the block has room for a byte, and returns `-1` only
after a failed `read`, `write` or `gettimeofday`. -/
theorem throttleLoop_result (impl : SleepImpl) (Bps : ℚ) (window : Int) (blocksize : Nat)
    (fuel : Nat) : ∀ (s : Acct) (winBytes : Nat) (block : Nat → Byte) (w : World),
    w.input.length < fuel →
    ((throttleLoop impl Bps window blocksize fuel s winBytes block w).1 = .returned 0 ∧
      (1 ≤ blocksize →
        (throttleLoop impl Bps window blocksize fuel s winBytes block w).2.output
          = w.output ++ w.input)) ∨
    ((throttleLoop impl Bps window blocksize fuel s winBytes block w).1 = .returned (-1) ∧
      EndsInFailure (throttleLoop impl Bps window blocksize fuel s winBytes block w).2.log ∧
      ((∃ e ∈ w.reads, e.ret = none) ∨ (∃ e ∈ w.clocks, e.ok = false) ∨
        (∃ e ∈ w.writes, e.ret = none ∨ e.ret = some 0))) := by
  induction fuel with
  | zero => intro s winBytes block w h; omega
  | succ fuel ih =>
    intro s winBytes block w hf
    have hit := iteration_spec impl Bps window blocksize s winBytes block w
    simp only [throttleLoop]
    revert hit
    cases iteration impl Bps window blocksize s winBytes block w with
    | outOfFuel w1 => exact fun h => h.elim
    | failed w1 =>
      rintro ⟨hf1, l, hl, hf2, -⟩
      exact Or.inr ⟨rfl, hl ▸ failedPass_ends _ hf2, hf1⟩
    | completed done s1 wb1 block1 w1 =>
      rintro ⟨data, rs, tc, clk, sync, sl, tf, ws, hin, hout, hlen, hd0, hd1, -, -, -, -, -, -,
        -, -, -, qr, qw, qc, -⟩
      cases done with
      | true =>
        simp only [if_true]
        refine Or.inl ⟨trivial, fun hb => ?_⟩
        rcases (hd1 rfl).1 with h | h
        · rw [hout, hin, h, List.append_nil]
        · omega
      | false =>
        simp only [Bool.false_eq_true, if_false]
        obtain ⟨hl, hb⟩ := hd0 rfl
        have hlt : w1.input.length < fuel := by
          have : w.input.length = data.length + w1.input.length := by
            rw [hin, List.length_append]
          omega
        rcases ih s1 wb1 block1 w1 hlt with ⟨h1, h2⟩ | ⟨h1, h2, h3⟩
        · refine Or.inl ⟨h1, fun hb1 => ?_⟩
          rw [h2 hb1, hout, hin, List.append_assoc]
        · refine Or.inr ⟨h1, h2, ?_⟩
          rcases h3 with ⟨e, he, hx⟩ | ⟨e, he, hx⟩ | ⟨e, he, hx⟩
          · exact Or.inl ⟨e, qr.subset he, hx⟩
          · exact Or.inr (Or.inl ⟨e, qc.subset he, hx⟩)
          · exact Or.inr (Or.inr ⟨e, qw.subset he, hx⟩)


theorem steady_later {w w1 : World} (h : w.Steady) (hr : w1.reads <:+ w.reads)
    (hw : w1.writes <:+ w.writes) (hc : w1.clocks <:+ w.clocks) (hs : w1.sleeps <:+ w.sleeps) :
    w1.Steady :=
  ⟨fun e he => h.1 e (hr.subset he), fun e he => h.2.1 e (hw.subset he),
    fun e he => h.2.2.1 e (hc.subset he), fun e he => h.2.2.2 e (hs.subset he)⟩

/-- In a steady world, with blocks below `2^31` bytes and a positive rate,
every `flush` mark of a run of the main loop whose count fits the sleep of the
configuration keeps the rate bound. -/
theorem throttleLoop_paced (impl : SleepImpl) (Bps : ℚ) (window : Int) (blocksize : Nat)
    (hB : 0 < Bps) (hBd : fl Bps = Bps) (hbs : blocksize < 2147483648) (fuel : Nat) :
    ∀ (s : Acct) (winBytes : Nat) (block : Nat → Byte) (w : World),
    w.Steady → s.bytesread = winBytes → winBytes < 2147483648 →
    (s.elapsedtime.tv_sec ≥ window ∨ ∃ t0, t0 ≤ w.now ∧ s.starttime = toTimeval t0) →
    ∃ l, (throttleLoop impl Bps window blocksize fuel s winBytes block w).2.log = w.log ++ l ∧
      ∀ m ∈ marks l, m.Fits impl Bps → m.Paced impl Bps := by
  induction fuel with
  | zero =>
    intro s winBytes block w _ _ _ _
    exact ⟨[], by simp [throttleLoop], by simp [marks]⟩
  | succ fuel ih =>
    intro s winBytes block w hst hinv hwb hstart
    have hit := iteration_spec impl Bps window blocksize s winBytes block w
    simp only [throttleLoop]
    revert hit
    cases iteration impl Bps window blocksize s winBytes block w with
    | outOfFuel w1 => exact fun h => h.elim
    | failed w1 =>
      rintro ⟨-, l, hl, -, hp⟩
      exact ⟨l, hl, hp hst hB hBd hbs hinv hwb hstart⟩
    | completed done s1 wb1 block1 w1 =>
      rintro ⟨data, rs, tc, clk, sync, sl, tf, ws, -, -, hlen, -, -, hacc, hwb1, hlog, hrr, -,
        hsl, hws, -, -, qr, qw, qc, qs, w2, -, -, -, -, -, -, hp⟩
      have hm : marks (rs ++ ⟨tc, .gettimeofday (some clk)⟩ ::
          (sl ++ ⟨tf, .flush data.length s1.starttime wb1⟩ :: ws))
          = [⟨tf, data.length, s1.starttime, wb1⟩] := by
        simp only [marks_append, marks, marks_reads hrr, marks_sleeps hsl, marks_writes hws,
          List.nil_append, List.append_nil]
      obtain ⟨⟨h1, h2, h3⟩, hpm⟩ := hp hst hB hBd hbs hinv hwb hstart
      cases done with
      | true =>
        simp only [if_true]
        refine ⟨_, hlog, ?_⟩
        rw [hm]
        intro m hmm
        rw [List.mem_singleton.mp hmm]
        exact hpm
      | false =>
        simp only [Bool.false_eq_true, if_false]
        obtain ⟨l2, hl2, hp2⟩ := ih s1 wb1 block1 w1 (steady_later hst qr qw qc qs)
          h1 h2 (Or.inr h3)
        refine ⟨(rs ++ ⟨tc, .gettimeofday (some clk)⟩ ::
          (sl ++ ⟨tf, .flush data.length s1.starttime wb1⟩ :: ws)) ++ l2,
          by rw [hl2, hlog, List.append_assoc], ?_⟩
        rw [marks_append, hm]
        intro m hmm
        rcases List.mem_append.mp hmm with h | h
        · rw [List.mem_singleton.mp h]
          exact hpm
        · exact hp2 m h

/-! ## The run at 1000 bytes per second with a window of one second -/

theorem timersub_sec_le (a b : Timeval) (ha : 0 ≤ a.tv_usec) (hb : b.tv_usec < 1000000) :
    (timersub a b).tv_sec * 1000000000 ≤ a.toNs - b.toNs := by
  unfold timersub
  simp only [Timeval.toNs]
  split <;> simp only [] <;> omega

theorem fits_thousand (impl : SleepImpl) {m : Mark} (h : m.winBytes ≤ 1000000) :
    m.Fits impl 1000 := by
  have hq : (m.winBytes : ℚ) ≤ 1000000 := by exact_mod_cast h
  cases impl <;> simp only [Mark.Fits, sleepCap] <;> linarith

/-- At 1000 bytes per second a mark that keeps the rate bound comes no earlier
than the start of its window plus the time its bytes take, or plus one second
if that is less, short of it by at most one unit of resolution. -/
theorem paced_thousand {impl : SleepImpl} {m : Mark} (h : m.Paced impl 1000) :
    m.winStart.toNs + min ((m.winBytes : Int) * 1000000) 1000000000
      ≤ m.t + resolution impl := by
  simp only [Mark.Paced] at h
  by_contra hc
  have hlt : m.t + resolution impl + 1
      ≤ m.winStart.toNs + min ((m.winBytes : Int) * 1000000) 1000000000 := by omega
  have hM1 := min_le_left ((m.winBytes : Int) * 1000000) 1000000000
  have hM2 := min_le_right ((m.winBytes : Int) * 1000000) 1000000000
  generalize min ((m.winBytes : Int) * 1000000) 1000000000 = M at hlt hM1 hM2
  have q1 : ((m.t + resolution impl + 1 : Int) : ℚ) ≤ ((m.winStart.toNs + M : Int) : ℚ) := by
    exact_mod_cast hlt
  have q2 : (M : ℚ) ≤ ((m.winBytes : Int) : ℚ) * 1000000 := by exact_mod_cast hM1
  have q3 : (M : ℚ) ≤ 1000000000 := by exact_mod_cast hM2
  push_cast at q1 q2
  nlinarith

/-- One pass at 1000 bytes per second with a window of one second: if the
window that began at `origin` is still the current one, with `c` bytes read in
it, or if a second has passed since `origin`, the writing of the block begins
no earlier than `origin` plus the time `c + nread` bytes take or plus one
second, short of it by at most one unit of resolution, and the same holds
again afterwards with `c + nread`. -/
theorem account_thousand {impl : SleepImpl} {s s1 : Acct} {wb nread c : Nat} {clk : Timeval}
    {sync : ℚ} {origin now0 now2 tf now1 : Int}
    (hacc : account 1000 1 s nread (some clk) = some (s1, sync))
    (hclk : clk = toTimeval now2) (h02 : now0 ≤ now2) (h2f : now2 ≤ tf) (hf1 : tf ≤ now1)
    (hc : c + nread ≤ 1000000)
    (hJ : (s.bytesread = wb ∧ wb = c ∧ (∃ t0, t0 ≤ now0 ∧ s.starttime = toTimeval t0) ∧
            s.starttime.toNs = origin ∧ origin + s.elapsedtime.tv_sec * 1000000000 ≤ now0) ∨
          origin + 1000000000 ≤ now0)
    (hp : s.bytesread = wb → wb < 2147483648 →
      (s.elapsedtime.tv_sec ≥ 1 ∨ ∃ t0, t0 ≤ now0 ∧ s.starttime = toTimeval t0) →
      (s1.bytesread = (windowBytes 1 s wb nread : Nat) ∧
        windowBytes 1 s wb nread < 2147483648 ∧
        ∃ t1, t1 ≤ now1 ∧ s1.starttime = toTimeval t1) ∧
      (Mark.Fits impl 1000 ⟨tf, nread, s1.starttime, windowBytes 1 s wb nread⟩ →
        Mark.Paced impl 1000 ⟨tf, nread, s1.starttime, windowBytes 1 s wb nread⟩)) :
    origin + min (((c + nread : Nat) : Int) * 1000000) 1000000000 ≤ tf + resolution impl ∧
    ((s1.bytesread = (windowBytes 1 s wb nread : Nat) ∧ windowBytes 1 s wb nread = c + nread ∧
        (∃ t1, t1 ≤ now1 ∧ s1.starttime = toTimeval t1) ∧ s1.starttime.toNs = origin ∧
        origin + s1.elapsedtime.tv_sec * 1000000000 ≤ now1) ∨
      origin + 1000000000 ≤ now1) := by
  have hres : 0 ≤ resolution impl := by cases impl <;> simp [resolution]
  have late : origin + 1000000000 ≤ now0 →
      origin + min (((c + nread : Nat) : Int) * 1000000) 1000000000 ≤ tf + resolution impl ∧
      ((s1.bytesread = (windowBytes 1 s wb nread : Nat) ∧
          windowBytes 1 s wb nread = c + nread ∧
          (∃ t1, t1 ≤ now1 ∧ s1.starttime = toTimeval t1) ∧ s1.starttime.toNs = origin ∧
          origin + s1.elapsedtime.tv_sec * 1000000000 ≤ now1) ∨
        origin + 1000000000 ≤ now1) := by
    intro h
    have := min_le_right (((c + nread : Nat) : Int) * 1000000) 1000000000
    exact ⟨by omega, Or.inr (by omega)⟩
  rcases hJ with ⟨hb, hwc, hst0, hst, hel⟩ | hB
  · cases hr : resets 1 s nread with
    | true =>
      apply late
      have hsum : ¬ (toInt32 (s.bytesread + nread) < 0) := by
        rw [hb, hwc, toInt32_of_lt (by omega) (by omega)]
        omega
      simp only [resets, Bool.or_eq_true, decide_eq_true_eq] at hr
      rcases hr with h | h
      · omega
      · exact absurd h hsum
    | false =>
      obtain ⟨⟨a1, a2, a3⟩, hpm⟩ := hp hb (by omega) (Or.inr hst0)
      rw [account_keep _ _ _ _ _ hr] at hacc
      simp only [Option.some.injEq, Prod.mk.injEq] at hacc
      obtain ⟨h1, -⟩ := hacc
      subst h1
      have hwbx : windowBytes 1 s wb nread = c + nread := by
        simp [windowBytes, hr, hwc]
      rw [hwbx] at hpm a1 a2
      have hpaced := paced_thousand (hpm (fits_thousand impl hc))
      simp only at hpaced a3 ⊢
      rw [hst] at hpaced
      obtain ⟨cl, cu, cu0, cu1⟩ := toNs_toTimeval now2
      rw [← hclk] at cl cu cu0 cu1
      obtain ⟨t0, -, hst0'⟩ := hst0
      have hu1 : s.starttime.tv_usec < 1000000 := by
        rw [hst0']; exact (toNs_toTimeval t0).2.2.2
      have hts := timersub_sec_le clk s.starttime cu0 hu1
      refine ⟨hpaced, Or.inl ⟨by rw [hwbx]; exact a1, hwbx, a3, hst, ?_⟩⟩
      omega
  · exact late hB

theorem no_failure {w : World} (hr : w.ReadsOk) (hw : w.WritesOk) (hc : w.ClocksOk) :
    ¬ ((∃ e ∈ w.reads, e.ret = none) ∨ (∃ e ∈ w.clocks, e.ok = false) ∨
        (∃ e ∈ w.writes, e.ret = none ∨ e.ret = some 0)) := by
  rintro (⟨e, he, hx⟩ | ⟨e, he, hx⟩ | ⟨e, he, hx⟩)
  · exact hr e he hx
  · have := hc e he; rw [hx] at this; exact absurd this (by simp)
  · obtain ⟨k, hk, hek⟩ := hw e he
    rcases hx with hx | hx
    · rw [hx] at hek; exact absurd hek (by simp)
    · rw [hx] at hek
      have : k = 0 := (Option.some.inj hek).symm
      omega

/-- The passes after the first at 1000 bytes per second with a window of one
second, in a steady world where no call fails and the stream is of at most a
million bytes: the run returns `0`, the blocks are whole but for the last, and
the marks are paced from `origin`. -/
theorem throttleLoop_thousand (impl : SleepImpl) (blocksize : Nat) (hb1 : 1 ≤ blocksize)
    (hbs : blocksize < 2147483648) (origin : Int) (fuel : Nat) :
    ∀ (s : Acct) (wb : Nat) (block : Nat → Byte) (w : World) (c : Nat),
    w.Steady → w.ReadsOk → w.WritesOk → w.ClocksOk → w.input.length < fuel →
    c + w.input.length ≤ 1000000 →
    ((s.bytesread = wb ∧ wb = c ∧ (∃ t0, t0 ≤ w.now ∧ s.starttime = toTimeval t0) ∧
        s.starttime.toNs = origin ∧ origin + s.elapsedtime.tv_sec * 1000000000 ≤ w.now) ∨
      origin + 1000000000 ≤ w.now) →
    (throttleLoop impl 1000 1 blocksize fuel s wb block w).1 = .returned 0 ∧
    ∃ l, (throttleLoop impl 1000 1 blocksize fuel s wb block w).2.log = w.log ++ l ∧
      (marks l).map Mark.nread = blockSizes blocksize fuel w.input.length ∧
      PacedFrom origin 1000000 1000000000 (resolution impl) c (marks l) := by
  have hBd : fl (1000 : ℚ) = 1000 := by decide!
  induction fuel with
  | zero => intro s wb block w c _ _ _ _ h; omega
  | succ fuel ih =>
    intro s wb block w c hst hro hwo hco hf hc hJ
    have hit := iteration_spec impl 1000 1 blocksize s wb block w
    simp only [throttleLoop]
    revert hit
    cases iteration impl 1000 1 blocksize s wb block w with
    | outOfFuel w1 => exact fun h => h.elim
    | failed w1 =>
      rintro ⟨hfail, -⟩
      exact absurd hfail (no_failure hro hwo hco)
    | completed done s1 wb1 block1 w1 =>
      rintro ⟨data, rs, tc, clk, sync, sl, tf, ws, hin, -, hlen, hd0, hd1, hacc, hwb1, hlog, hrr,
        -, hsl, hws, -, -, qr, qw, qc, qs, w2, hclk, -, -, -, htf, htime, hp⟩
      have hm : marks (rs ++ ⟨tc, .gettimeofday (some clk)⟩ ::
          (sl ++ ⟨tf, .flush data.length s1.starttime wb1⟩ :: ws))
          = [⟨tf, data.length, s1.starttime, wb1⟩] := by
        simp only [marks_append, marks, marks_reads hrr, marks_sleeps hsl, marks_writes hws,
          List.nil_append, List.append_nil]
      have hL : w.input.length = data.length + w1.input.length := by
        rw [hin, List.length_append]
      obtain ⟨h02, h2f, hf1⟩ := htime hst
      obtain ⟨hpace, hJ1⟩ := @account_thousand impl s s1 wb data.length c clk sync origin
        w.now w2.now tf w1.now hacc hclk h02 h2f hf1 (by omega) hJ
        (fun hinv hwb hstart => by
          have := hp hst (by norm_num) hBd hbs hinv hwb hstart
          rw [hwb1] at this
          exact this)
      cases done with
      | true =>
        simp only [if_true]
        obtain ⟨hi, -, hlt⟩ := hd1 rfl
        have hi0 : w1.input.length = 0 := by
          rcases hi with h | h
          · rw [h]; rfl
          · omega
        have hlt' : data.length < blocksize := by omega
        refine ⟨trivial, _, hlog, ?_, ?_⟩
        · rw [hm]
          simp only [List.map_cons, List.map_nil, blockSizes]
          rw [if_pos (by omega)]
          congr 1
          omega
        · rw [hm]
          exact ⟨hpace, trivial⟩
      | false =>
        simp only [Bool.false_eq_true, if_false]
        obtain ⟨hl, hb⟩ := hd0 rfl
        have hJ2 : (s1.bytesread = wb1 ∧ wb1 = c + data.length ∧
            (∃ t1, t1 ≤ w1.now ∧ s1.starttime = toTimeval t1) ∧ s1.starttime.toNs = origin ∧
            origin + s1.elapsedtime.tv_sec * 1000000000 ≤ w1.now) ∨
            origin + 1000000000 ≤ w1.now := by
          rcases hJ1 with ⟨a1, a2, a3⟩ | h
          · exact Or.inl ⟨by rw [hwb1]; exact a1, by rw [hwb1]; exact a2, a3⟩
          · exact Or.inr h
        obtain ⟨hret, l2, hl2, hs2, hp2⟩ := ih s1 wb1 block1 w1 (c + data.length)
          (steady_later hst qr qw qc qs) (fun e he => hro e (qr.subset he))
          (fun e he => hwo e (qw.subset he)) (fun e he => hco e (qc.subset he))
          (by omega) (by omega) hJ2
        refine ⟨hret, (rs ++ ⟨tc, .gettimeofday (some clk)⟩ ::
          (sl ++ ⟨tf, .flush data.length s1.starttime wb1⟩ :: ws)) ++ l2,
          by rw [hl2, hlog, List.append_assoc], ?_, ?_⟩
        · rw [marks_append, hm]
          simp only [List.singleton_append, List.map_cons, blockSizes]
          rw [if_neg (by omega), hs2, hl]
          congr 2
          omega
        · rw [marks_append, hm]
          exact ⟨hpace, hp2⟩

/-- A run at 1000 bytes per second with a window of one second, in a steady
world where no call fails, of a stream of at most a million bytes: the run
returns `0`, the blocks are whole but for the last, and the marks are paced
from the start of the first window. -/
theorem throttle_thousand (impl : SleepImpl) (block : Nat → Byte) (blocksize : Nat)
    (hb1 : 1 ≤ blocksize) (hbs : blocksize < 2147483648) (w : World) (hst : w.Steady)
    (hro : w.ReadsOk) (hwo : w.WritesOk) (hco : w.ClocksOk)
    (hlen : w.input.length ≤ 1000000) :
    (throttle impl 1000 1 block blocksize w).1 = .returned 0 ∧
    ∃ l, (throttle impl 1000 1 block blocksize w).2.log = w.log ++ l ∧
      (marks l).map Mark.nread = blockSizes blocksize (w.input.length + 1) w.input.length ∧
      ∃ first, (marks l).head? = some first ∧
        PacedFrom first.winStart.toNs 1000000 1000000000 (resolution impl) 0 (marks l) := by
  have hBd : fl (1000 : ℚ) = 1000 := by decide!
  have hit := iteration_spec impl 1000 1 blocksize (initAcct 1) 0 block w
  simp only [throttle, throttleLoop]
  revert hit
  cases iteration impl 1000 1 blocksize (initAcct 1) 0 block w with
  | outOfFuel w1 => exact fun h => h.elim
  | failed w1 =>
    rintro ⟨hfail, -⟩
    exact absurd hfail (no_failure hro hwo hco)
  | completed done s1 wb1 block1 w1 =>
    rintro ⟨data, rs, tc, clk, sync, sl, tf, ws, hin, -, hdl, hd0, hd1, hacc, hwb1, hlog, hrr,
      -, hsl, hws, -, -, qr, qw, qc, qs, w2, hclk, -, -, -, htf, htime, hp⟩
    have hm : marks (rs ++ ⟨tc, .gettimeofday (some clk)⟩ ::
        (sl ++ ⟨tf, .flush data.length s1.starttime wb1⟩ :: ws))
        = [⟨tf, data.length, s1.starttime, wb1⟩] := by
      simp only [marks_append, marks, marks_reads hrr, marks_sleeps hsl, marks_writes hws,
        List.nil_append, List.append_nil]
    have hL : w.input.length = data.length + w1.input.length := by
      rw [hin, List.length_append]
    obtain ⟨h02, h2f, hf1⟩ := htime hst
    have hr : resets 1 (initAcct 1) data.length = true := by simp [resets, initAcct]
    have hwbx : windowBytes 1 (initAcct 1) 0 data.length = data.length := by
      simp [windowBytes, hr]
    obtain ⟨⟨a1, a2, a3⟩, hpm⟩ := hp hst (by norm_num) hBd hbs rfl (by norm_num)
      (Or.inl (by simp [initAcct]))
    rw [hwb1, hwbx] at hpm a1
    have hpaced := paced_thousand (hpm (fits_thousand impl (show data.length ≤ 1000000 by omega)))
    simp only at hpaced
    rw [account_reset _ _ _ _ _ hr] at hacc
    simp only [Option.some.injEq, Prod.mk.injEq] at hacc
    obtain ⟨h1, -⟩ := hacc
    have hstart : s1.starttime = clk := by rw [← h1]
    have hel : s1.elapsedtime.tv_sec = 0 := by rw [← h1]
    have hclkle : clk.toNs ≤ w2.now := by rw [hclk]; exact (toNs_toTimeval w2.now).1
    have hpace : s1.starttime.toNs + min (((0 + data.length : Nat) : Int) * 1000000) 1000000000
        ≤ tf + resolution impl := by
      simp only [Nat.zero_add]
      exact hpaced
    have hJ2 : (s1.bytesread = wb1 ∧ wb1 = data.length ∧
        (∃ t1, t1 ≤ w1.now ∧ s1.starttime = toTimeval t1) ∧
        s1.starttime.toNs = s1.starttime.toNs ∧
        s1.starttime.toNs + s1.elapsedtime.tv_sec * 1000000000 ≤ w1.now) ∨
        s1.starttime.toNs + 1000000000 ≤ w1.now :=
      Or.inl ⟨by rw [hwb1, hwbx]; exact a1, by rw [hwb1, hwbx], a3, rfl, by
        rw [hel, hstart]; omega⟩
    cases done with
    | true =>
      simp only [if_true]
      obtain ⟨hi, -, hlt⟩ := hd1 rfl
      have hi0 : w1.input.length = 0 := by
        rcases hi with h | h
        · rw [h]; rfl
        · omega
      have hlt' : data.length < blocksize := by omega
      refine ⟨trivial, _, hlog, ?_, ⟨tf, data.length, s1.starttime, wb1⟩, by rw [hm]; rfl, ?_⟩
      · rw [hm]
        simp only [List.map_cons, List.map_nil, blockSizes]
        rw [if_pos (by omega)]
        congr 1
        omega
      · rw [hm]
        exact ⟨hpace, trivial⟩
    | false =>
      simp only [Bool.false_eq_true, if_false]
      obtain ⟨hl, hb⟩ := hd0 rfl
      obtain ⟨hret, l2, hl2, hs2, hp2⟩ := throttleLoop_thousand impl blocksize hb1 hbs
        s1.starttime.toNs w.input.length s1 wb1 block1 w1 data.length
        (steady_later hst qr qw qc qs) (fun e he => hro e (qr.subset he))
        (fun e he => hwo e (qw.subset he)) (fun e he => hco e (qc.subset he))
        (by omega) (by omega) hJ2
      refine ⟨hret, (rs ++ ⟨tc, .gettimeofday (some clk)⟩ ::
        (sl ++ ⟨tf, .flush data.length s1.starttime wb1⟩ :: ws)) ++ l2,
        by rw [hl2, hlog, List.append_assoc], ?_, ⟨tf, data.length, s1.starttime, wb1⟩,
        by rw [marks_append, hm]; rfl, ?_⟩
      · rw [marks_append, hm]
        simp only [List.singleton_append, List.map_cons, blockSizes]
        rw [if_neg (by omega), hs2, hl]
        congr 2
        omega
      · rw [marks_append, hm]
        refine ⟨hpace, ?_⟩
        simp only [Nat.zero_add]
        exact hp2



theorem doSleep_nonpos (impl : SleepImpl) {sync : ℚ} (h : sync ≤ 0) (w : World) :
    doSleep impl sync w = w := by
  have h1 : ¬ (sync ≥ fl (1 / 1000000000)) := by
    rw [fl_nano]; intro hc
    have : (0 : ℚ) < 4835703278458517 / 4835703278458516698824704 := by norm_num
    linarith
  have h2 : ¬ (sync ≥ fl (1 / 1000000)) := by
    rw [fl_micro]; intro hc
    have : (0 : ℚ) < 4722366482869645 / 4722366482869645213696 := by norm_num
    linarith
  have h3 : ¬ (sync ≥ 1) := by intro hc; linarith
  cases impl with
  | nanosleep => simp only [doSleep]; rw [if_neg h1]
  | sleepUsleep => simp only [doSleep, h3, if_false]; rw [if_neg h2]
  | usleepOnly => simp only [doSleep]; rw [if_neg h2]

theorem BSECS_nonpos {n : Int} (hn : n ≤ 0) {Bps : ℚ} (hB : 0 ≤ Bps) : BSECS n Bps ≤ 0 := by
  unfold BSECS fdiv ofInt
  apply fl_nonpos
  apply div_nonpos_of_nonpos_of_nonneg
  · exact fl_nonpos (by exact_mod_cast hn)
  · exact fl_nonneg hB

theorem throttleLoop_log (impl : SleepImpl) (Bps : ℚ) (window : Int) (blocksize : Nat)
    (fuel : Nat) : ∀ (s : Acct) (winBytes : Nat) (block : Nat → Byte) (w : World),
    ∃ l, (throttleLoop impl Bps window blocksize fuel s winBytes block w).2.log = w.log ++ l := by
  induction fuel with
  | zero => intro s winBytes block w; exact ⟨[], by simp [throttleLoop]⟩
  | succ fuel ih =>
    intro s winBytes block w
    have hit := iteration_spec impl Bps window blocksize s winBytes block w
    simp only [throttleLoop]
    revert hit
    cases iteration impl Bps window blocksize s winBytes block w with
    | outOfFuel w1 => exact fun h => h.elim
    | failed w1 =>
      rintro ⟨-, l, hl, -⟩
      exact ⟨l, hl⟩
    | completed done s1 wb1 block1 w1 =>
      rintro ⟨data, rs, tc, clk, sync, sl, tf, ws, -, -, -, -, -, -, -, hlog, -⟩
      cases done with
      | true => exact ⟨_, hlog⟩
      | false =>
        simp only [Bool.false_eq_true, if_false]
        obtain ⟨l2, hl2⟩ := ih s1 wb1 block1 w1
        exact ⟨(rs ++ ⟨tc, .gettimeofday (some clk)⟩ ::
          (sl ++ ⟨tf, .flush data.length s1.starttime wb1⟩ :: ws)) ++ l2,
          by rw [hl2, hlog, List.append_assoc]⟩

/-- A block of `2^31` bytes is not throttled: at any positive rate, when no
call fails and the stream has `2^31` bytes to give, the writing of the first
block, of `2^31` bytes, begins at the reading of the clock that starts its
window, less than a microsecond after the start recorded. -/
theorem big_block_unthrottled (impl : SleepImpl) (Bps : ℚ) (hB : 0 < Bps) (window : Int)
    (block : Nat → Byte) (w : World) (hro : w.ReadsOk) (hwo : w.WritesOk) (hco : w.ClocksOk)
    (hlen : 2147483648 ≤ w.input.length) :
    ∃ l first, (throttle impl Bps window block 2147483648 w).2.log = w.log ++ l ∧
      (marks l).head? = some first ∧ first.nread = 2147483648 ∧
      first.winBytes = 2147483648 ∧ first.t < first.winStart.toNs + 1000 := by
  have hit := iteration_spec impl Bps window 2147483648 (initAcct window) 0 block w
  simp only [throttle, throttleLoop]
  revert hit
  cases iteration impl Bps window 2147483648 (initAcct window) 0 block w with
  | outOfFuel w1 => exact fun h => h.elim
  | failed w1 =>
    rintro ⟨hfail, -⟩
    exact absurd hfail (no_failure hro hwo hco)
  | completed done s1 wb1 block1 w1 =>
    rintro ⟨data, rs, tc, clk, sync, sl, tf, ws, hin, -, hdl, hd0, hd1, hacc, hwb1, hlog, hrr,
      -, hsl, hws, -, -, -, -, -, -, w2, hclk, -, -, -, htf, -, -⟩
    have hm : marks (rs ++ ⟨tc, .gettimeofday (some clk)⟩ ::
        (sl ++ ⟨tf, .flush data.length s1.starttime wb1⟩ :: ws))
        = [⟨tf, data.length, s1.starttime, wb1⟩] := by
      simp only [marks_append, marks, marks_reads hrr, marks_sleeps hsl, marks_writes hws,
        List.nil_append, List.append_nil]
    have hL : w.input.length = data.length + w1.input.length := by
      rw [hin, List.length_append]
    have hfull : data.length = 2147483648 := by
      cases hd : done with
      | false => exact (hd0 hd).1
      | true =>
        obtain ⟨hi, -, hlt⟩ := hd1 hd
        rcases hi with h | h
        · rw [h] at hL
          simp only [List.length_nil] at hL
          omega
        · omega
    have hr : resets window (initAcct window) data.length = true := by
      simp [resets, initAcct]
    rw [account_reset _ _ _ _ _ hr] at hacc
    simp only [Option.some.injEq, Prod.mk.injEq] at hacc
    obtain ⟨h1, h2⟩ := hacc
    have hsync : sync ≤ 0 := by
      rw [← h2, hfull]
      have : toInt32 ((2147483648 : Nat) : Int) = -2147483648 := by decide
      rw [this]
      exact BSECS_nonpos (by norm_num) (le_of_lt hB)
    rw [doSleep_nonpos impl hsync] at htf
    have hstart : s1.starttime = clk := by rw [← h1]
    have hwbx : wb1 = 2147483648 := by
      rw [hwb1, hfull]; simp [windowBytes, resets, initAcct]
    have hclose : tf < s1.starttime.toNs + 1000 := by
      rw [hstart, hclk, htf]
      exact (toNs_toTimeval w2.now).2.1
    have hfirst : (⟨tf, data.length, s1.starttime, wb1⟩ : Mark).nread = 2147483648 := hfull
    cases done with
    | true =>
      exact ⟨_, ⟨tf, data.length, s1.starttime, wb1⟩, hlog, by rw [hm]; rfl, hfirst, hwbx,
        hclose⟩
    | false =>
      simp only [Bool.false_eq_true, if_false]
      obtain ⟨l2, hl2⟩ := throttleLoop_log impl Bps window 2147483648 w.input.length s1 wb1
        block1 w1
      exact ⟨(rs ++ ⟨tc, .gettimeofday (some clk)⟩ ::
          (sl ++ ⟨tf, .flush data.length s1.starttime wb1⟩ :: ws)) ++ l2,
        ⟨tf, data.length, s1.starttime, wb1⟩, by rw [hl2, hlog, List.append_assoc],
        by rw [marks_append, hm]; rfl, hfirst, hwbx, hclose⟩



theorem doSleep_zero (impl : SleepImpl) (w : World) : doSleep impl 0 w = w :=
  doSleep_nonpos impl (le_refl 0) w

theorem BSECS_zero (Bps : ℚ) : BSECS 0 Bps = 0 := by
  simp [BSECS, fdiv, ofInt, fl_zero]

theorem account_first_empty (Bps : ℚ) (window : Int) (tv : Timeval) :
    account Bps window (initAcct window) 0 (some tv)
      = some ({ starttime := tv, elapsedtime := ⟨0, 0⟩, bytesread := 0 }, 0) := by
  simp [account, resets, initAcct, toInt32, BSECS_zero]

/-! ## The sleep calls of a pass -/

/-- C1, as stated, fails: every read and every write succeeds, yet the bytes
written are not the input, because `gettimeofday` fails and `throttle`
returns before it writes the block it has read. -/
theorem integrity_fails_when_clock_fails :
    (clockFailWorld [1, 2, 3]).ReadsOk ∧ (clockFailWorld [1, 2, 3]).WritesOk ∧
    (throttle .nanosleep 1000 1 (fun _ => 0) 4 (clockFailWorld [1, 2, 3])).2.output = [] := by
  refine ⟨?_, ?_, by decide!⟩
  · intro e he; simp [clockFailWorld, World.start] at he
  · intro e he; simp [clockFailWorld, World.start] at he

/-- C1, amended: for every block size of at least one byte, every rate,
window and sleep configuration and every splitting of the transfer into
partial reads and writes, if no read, no write and no `gettimeofday` fails
then `throttle` returns `0` and the bytes accepted by the destination are the
input, in order. -/
theorem data_integrity (impl : SleepImpl) (Bps : ℚ) (window : Int) (block : Nat → Byte)
    (blocksize : Nat) (w : World) (hb : 1 ≤ blocksize)
    (hr : w.ReadsOk) (hw : w.WritesOk) (hc : w.ClocksOk) :
    (throttle impl Bps window block blocksize w).1 = .returned 0 ∧
    (throttle impl Bps window block blocksize w).2.output = w.output ++ w.input := by
  rcases throttleLoop_result impl Bps window blocksize (w.input.length + 1) (initAcct window) 0
    block w (by omega) with ⟨h1, h2⟩ | ⟨-, -, h3⟩
  · exact ⟨h1, h2 hb⟩
  · exfalso
    rcases h3 with ⟨e, he, hx⟩ | ⟨e, he, hx⟩ | ⟨e, he, hx⟩
    · exact hr e he hx
    · have := hc e he; rw [hx] at this; exact absurd this (by simp)
    · obtain ⟨k, hk, hek⟩ := hw e he
      rcases hx with hx | hx
      · rw [hx] at hek; exact absurd hek (by simp)
      · rw [hx] at hek
        have : k = 0 := (Option.some.inj hek).symm
        omega

/-- The amended C1 at a five-byte stream read and written in pieces. -/
theorem data_integrity_witness :
    1 ≤ 4 ∧ piecewiseWorld.ReadsOk ∧ piecewiseWorld.WritesOk ∧ piecewiseWorld.ClocksOk ∧
    (throttle .nanosleep 1000 1 (fun _ => 0) 4 piecewiseWorld).1 = .returned 0 ∧
    (throttle .nanosleep 1000 1 (fun _ => 0) 4 piecewiseWorld).2.output
      = piecewiseWorld.output ++ piecewiseWorld.input :=
  have hr : piecewiseWorld.ReadsOk := by
    intro e he; simp [piecewiseWorld, World.start] at he; rcases he with h | h <;> simp [h]
  have hw : piecewiseWorld.WritesOk := by
    intro e he; simp [piecewiseWorld, World.start] at he; rcases he with h | h <;> simp [h]
  have hc : piecewiseWorld.ClocksOk := by
    intro e he; simp [piecewiseWorld, World.start] at he
  ⟨by decide, hr, hw, hc,
    data_integrity .nanosleep 1000 1 (fun _ => 0) 4 piecewiseWorld (by decide) hr hw hc⟩

/-- C6, as stated, fails: no read fails and no write fails, and `throttle`
returns `-1`, because `gettimeofday` failed. -/
theorem failure_without_io_failure :
    (clockFailWorld [7, 7]).ReadsOk ∧ (clockFailWorld [7, 7]).WritesOk ∧
    (throttle .nanosleep 1000 1 (fun _ => 0) 1 (clockFailWorld [7, 7])).1 = .returned (-1) := by
  refine ⟨?_, ?_, by decide!⟩
  · intro e he; simp [clockFailWorld, World.start] at he
  · intro e he; simp [clockFailWorld, World.start] at he

/-- C6, amended: `throttle` always returns, with `0` or `-1`; it returns `-1`
only when the last call it made was a `read` that returned `-1`, a `write`
that returned `-1` or `0`, or a `gettimeofday` that returned `-1` (so never
because of a counter overflow or of an interrupted or failing sleep); and
when no read, no write and no `gettimeofday` fails it returns `0`. -/
theorem failure_causes (impl : SleepImpl) (Bps : ℚ) (window : Int) (block : Nat → Byte)
    (blocksize : Nat) (w : World) :
    ((throttle impl Bps window block blocksize w).1 = .returned 0 ∨
      (throttle impl Bps window block blocksize w).1 = .returned (-1)) ∧
    ((throttle impl Bps window block blocksize w).1 = .returned (-1) →
      EndsInFailure (throttle impl Bps window block blocksize w).2.log) ∧
    (w.ReadsOk → w.WritesOk → w.ClocksOk →
      (throttle impl Bps window block blocksize w).1 = .returned 0) := by
  have key := throttleLoop_result impl Bps window blocksize (w.input.length + 1)
    (initAcct window) 0 block w (by omega)
  refine ⟨?_, ?_, ?_⟩
  · rcases key with ⟨h1, -⟩ | ⟨h1, -, -⟩
    · exact Or.inl h1
    · exact Or.inr h1
  · intro hm
    rcases key with ⟨h1, -⟩ | ⟨-, h2, -⟩
    · unfold throttle at hm
      rw [h1] at hm
      exact absurd hm (by decide)
    · exact h2
  · intro hr hw hc
    rcases key with ⟨h1, -⟩ | ⟨-, -, h3⟩
    · exact h1
    · exfalso
      rcases h3 with ⟨e, he, hx⟩ | ⟨e, he, hx⟩ | ⟨e, he, hx⟩
      · exact hr e he hx
      · have := hc e he; rw [hx] at this; exact absurd this (by simp)
      · obtain ⟨k, hk, hek⟩ := hw e he
        rcases hx with hx | hx
        · rw [hx] at hek; exact absurd hek (by simp)
        · rw [hx] at hek
          have : k = 0 := (Option.some.inj hek).symm
          omega

/-- The amended C6 at a run that fails (the clock fails: the trace ends in the
failed call) and at a run with no failing call (it returns `0`). -/
theorem failure_causes_witness :
    (throttle .nanosleep 1000 1 (fun _ => 0) 1 (clockFailWorld [7, 7])).1 = .returned (-1) ∧
    EndsInFailure (throttle .nanosleep 1000 1 (fun _ => 0) 1 (clockFailWorld [7, 7])).2.log ∧
    piecewiseWorld.ReadsOk ∧ piecewiseWorld.WritesOk ∧ piecewiseWorld.ClocksOk ∧
    (throttle .sleepUsleep 1000 1 (fun _ => 0) 4 piecewiseWorld).1 = .returned 0 :=
  have hf : (throttle .nanosleep 1000 1 (fun _ => 0) 1 (clockFailWorld [7, 7])).1
      = .returned (-1) := by decide!
  have hr : piecewiseWorld.ReadsOk := by
    intro e he; simp [piecewiseWorld, World.start] at he; rcases he with h | h <;> simp [h]
  have hw : piecewiseWorld.WritesOk := by
    intro e he; simp [piecewiseWorld, World.start] at he; rcases he with h | h <;> simp [h]
  have hc : piecewiseWorld.ClocksOk := by
    intro e he; simp [piecewiseWorld, World.start] at he
  ⟨hf, (failure_causes .nanosleep 1000 1 (fun _ => 0) 1 (clockFailWorld [7, 7])).2.1 hf,
    hr, hw, hc,
    (failure_causes .sleepUsleep 1000 1 (fun _ => 0) 4 piecewiseWorld).2.2 hr hw hc⟩

/-- C7, as stated, fails: the first read reports end of stream and `throttle`
returns `-1`, because the `gettimeofday` of that pass fails. -/
theorem empty_input_can_fail :
    (sysRead (clockFailWorld []) 512).1 = some [] ∧
    (throttle .nanosleep 1000 60 (fun _ => 0) 512 (clockFailWorld [])).1 = .returned (-1) := by
  refine ⟨by decide, by decide!⟩

/-- C7, amended: for every rate, window, block size and sleep configuration,
when the first read reports end of stream `throttle` makes exactly two calls,
that read and one `gettimeofday` (no write, no sleep), the destination is left
as it was, and `throttle` returns `0` if that `gettimeofday` succeeds and
`-1` if it fails. -/
theorem empty_input (impl : SleepImpl) (Bps : ℚ) (window : Int)
    (block : Nat → Byte) (blocksize : Nat) (w : World)
    (h : (sysRead w blocksize).1 = some []) :
    (throttle impl Bps window block blocksize w).2.log
      = w.log ++ ⟨w.now, .read blocksize (some 0)⟩ ::
          ⟨(sysRead w blocksize).2.now, .gettimeofday (sysGettimeofday (sysRead w blocksize).2).1⟩ ::
          (match (sysGettimeofday (sysRead w blocksize).2).1 with
            | none => []
            | some tv => [⟨(sysGettimeofday (sysRead w blocksize).2).2.now, .flush 0 tv 0⟩]) ∧
    (throttle impl Bps window block blocksize w).2.output = w.output ∧
    ((w.clocks.headD ⟨0, true⟩).ok = true →
      (throttle impl Bps window block blocksize w).1 = .returned 0) ∧
    ((w.clocks.headD ⟨0, true⟩).ok = false →
      (throttle impl Bps window block blocksize w).1 = .returned (-1)) := by
  rcases hr : sysRead w blocksize with ⟨r, w1⟩
  rw [hr] at h
  simp only at h
  subst h
  obtain ⟨⟨ho, -, hc, -, -⟩, -, -, -, hlog, -⟩ := sysRead_some hr
  have hfill : fillLoop (blocksize + 1) w block 0 blocksize = .filled w1 block blocksize true := by
    simp [fillLoop, hr]
  simp only [throttle, throttleLoop, iteration, hfill, Nat.sub_self]
  simp only [List.length_nil] at hlog
  cases hok : (w.clocks.headD ⟨0, true⟩).ok with
  | false =>
    have hok2 : (w.clocks.head?.getD ⟨0, true⟩).ok = false := by simpa using hok
    have hg : sysGettimeofday w1 = (none, (sysGettimeofday w1).2) := by
      simp [sysGettimeofday, hc, hok2]
    rw [hg]
    simp only [account_none]
    refine ⟨?_, ?_, by simp, by simp⟩
    · simp [sysGettimeofday, hc, hok2, hlog]
    · simp [sysGettimeofday, ho]
  | true =>
    have hok2 : (w.clocks.head?.getD ⟨0, true⟩).ok = true := by simpa using hok
    have hg : sysGettimeofday w1
        = (some (toTimeval (w1.now + (w.clocks.headD ⟨0, true⟩).delay)), (sysGettimeofday w1).2) := by
      simp [sysGettimeofday, hc, hok2]
    rw [hg]
    simp only [account_first_empty, doSleep_zero, flushLoop]
    refine ⟨?_, ?_, by simp, by simp⟩
    · simp [sysGettimeofday, hc, hok2, hlog, windowBytes, resets, initAcct]
    · simp [sysGettimeofday, ho]

/-- The amended C7 at an empty stream, with a working clock and with a clock
that fails. -/
theorem empty_input_witness :
    (sysRead (World.start 0 []) 512).1 = some [] ∧
    ((World.start 0 []).clocks.headD ⟨0, true⟩).ok = true ∧
    (throttle .nanosleep 1000 60 (fun _ => 0) 512 (World.start 0 [])).1 = .returned 0 ∧
    (throttle .nanosleep 1000 60 (fun _ => 0) 512 (World.start 0 [])).2.output = [] ∧
    (sysRead (clockFailWorld []) 512).1 = some [] ∧
    ((clockFailWorld []).clocks.headD ⟨0, true⟩).ok = false ∧
    (throttle .usleepOnly 1000 60 (fun _ => 0) 512 (clockFailWorld [])).1 = .returned (-1) :=
  ⟨by decide, by decide,
    (empty_input .nanosleep 1000 60 (fun _ => 0) 512 (World.start 0 []) (by decide)).2.2.1
      (by decide),
    (empty_input .nanosleep 1000 60 (fun _ => 0) 512 (World.start 0 []) (by decide)).2.1,
    by decide, by decide,
    (empty_input .usleepOnly 1000 60 (fun _ => 0) 512 (clockFailWorld []) (by decide)).2.2.2
      (by decide)⟩

/-- C9, as stated, fails in two ways.  The rounding of the product with `10^9`
or `10^6` can carry the value handed to the primitive above `sync`: for the
double `0.3`, which is below `3/10` and is the sleep computed for 300 bytes at
1000 bytes per second, `nanosleep` is asked for 300000000 nanoseconds and
`usleep` for 300000 microseconds.  And a `sync` that does not fit the type of
the argument is not truncated: of the 4294967300 seconds computed for
1073741825 bytes at a quarter of a byte per second `sleep` is asked for 4, and
of the `2^63` seconds computed for one byte at `2^-63` bytes per second
`nanosleep` is asked for a negative time. -/
theorem sleep_argument_not_truncated :
    BSECS 300 1000 = fl (3 / 10) ∧ fl (3 / 10) < 3 / 10 ∧ fl (1 / 1000000000) ≤ fl (3 / 10) ∧
    (doSleep .nanosleep (fl (3 / 10)) (World.start 0 [])).log
      = [⟨0, .nanosleep ⟨0, 300000000⟩⟩] ∧
    (doSleep .sleepUsleep (fl (3 / 10)) (World.start 0 [])).log = [⟨0, .usleep 300000⟩] ∧
    BSECS 1073741825 (1 / 4) = 4294967300 ∧
    (doSleep .sleepUsleep 4294967300 (World.start 0 [])).log
      = [⟨0, .sleep 4⟩, ⟨4000000000, .usleep 999999⟩] ∧
    BSECS 1 (pow2 (-63)) = 9223372036854775808 ∧
    (doSleep .nanosleep 9223372036854775808 (World.start 0 [])).log
      = [⟨0, .nanosleep ⟨-9223372036854775808, -9223372036854775808⟩⟩] := by
  decide!

/-- C9, amended: a computed sleep `sync` (a double) of at least one unit of
resolution that fits the type of the argument reaches the sleep primitive
truncated to that resolution, but for the rounding of the product with `10^9`
or `10^6`, which carries it up to the next unit when `sync` is within one
part in `2^53` of it.  With `nanosleep`, for `sync` below `2^63`, the first
call is made with `tv_sec` the whole part of `sync` and
`0 ≤ tv_nsec ≤ 999999999`, where
`tv_sec + tv_nsec/10^9 ≤ sync * (1 + 2^-53)` and
`sync < tv_sec + (tv_nsec + 1)/10^9`.  With `sleep` and `usleep`, for `sync`
below `2^32`: a `sync` below one second goes to `usleep` alone; otherwise
`sleep` is called first with the whole part of `sync`, the calls that follow
it resume that sleep, and `usleep` comes last, exactly when what is left of
`sync` is at least the double `0.000001`; the microseconds are at most
`999999` and satisfy the same two inequalities. -/
theorem sleep_conversion (sync : ℚ) (w : World) (hd : fl sync = sync) :
    (fl (1 / 1000000000) ≤ sync → sync < 9223372036854775808 →
      ∃ rest, (doSleep .nanosleep sync w).log
          = w.log ++ ⟨w.now, .nanosleep (toTimespec sync)⟩ :: rest ∧
        (toTimespec sync).tv_sec = ⌊sync⌋ ∧
        0 ≤ (toTimespec sync).tv_nsec ∧ (toTimespec sync).tv_nsec ≤ 999999999 ∧
        ((toTimespec sync).tv_sec : ℚ) + ((toTimespec sync).tv_nsec : ℚ) / 1000000000
          ≤ sync * (1 + 1 / 9007199254740992) ∧
        sync < ((toTimespec sync).tv_sec : ℚ)
          + (((toTimespec sync).tv_nsec : ℚ) + 1) / 1000000000) ∧
    (fl (1 / 1000000) ≤ sync → sync < 4294967296 →
      (sync < 1 →
        (doSleep .sleepUsleep sync w).log = w.log ++ [⟨w.now, .usleep (usleepArg sync)⟩] ∧
        0 ≤ usleepArg sync ∧ usleepArg sync ≤ 999999 ∧
        (usleepArg sync : ℚ) / 1000000 ≤ sync * (1 + 1 / 9007199254740992) ∧
        sync < ((usleepArg sync : ℚ) + 1) / 1000000) ∧
      (1 ≤ sync →
        wholeSeconds sync = ⌊sync⌋ ∧
        ∃ resumed, (∀ e ∈ resumed, ∃ n, e.call = .sleep n) ∧
          (sync - (⌊sync⌋ : ℚ) < fl (1 / 1000000) →
            (doSleep .sleepUsleep sync w).log = w.log ++ ⟨w.now, .sleep ⌊sync⌋⟩ :: resumed) ∧
          (fl (1 / 1000000) ≤ sync - (⌊sync⌋ : ℚ) →
            (∃ t, (doSleep .sleepUsleep sync w).log
              = w.log ++ ⟨w.now, .sleep ⌊sync⌋⟩ ::
                  (resumed ++ [⟨t, .usleep (usleepArg (fracAfterSleep sync))⟩])) ∧
            0 ≤ usleepArg (fracAfterSleep sync) ∧ usleepArg (fracAfterSleep sync) ≤ 999999 ∧
            ((⌊sync⌋ : Int) : ℚ) + (usleepArg (fracAfterSleep sync) : ℚ) / 1000000
              ≤ sync * (1 + 1 / 9007199254740992) ∧
            sync < ((⌊sync⌋ : Int) : ℚ)
              + ((usleepArg (fracAfterSleep sync) : ℚ) + 1) / 1000000))) := by
  have hp := pow2_neg53
  have hmicro : (0 : ℚ) < fl (1 / 1000000) := by rw [fl_micro]; norm_num
  refine ⟨fun h hr => ?_, fun h hr => ⟨fun h1 => ?_, fun h1 => ?_⟩⟩
  · have h0 : 0 ≤ sync := by
      rw [fl_nano] at h
      have : (0 : ℚ) ≤ 4835703278458517 / 4835703278458516698824704 := by norm_num
      linarith
    obtain ⟨hsec, a, b, c, d, -⟩ := toTimespec_spec hd h0 hr
    obtain ⟨rest, hl, -⟩ := nanosleepLoop_log w.sleeps (toTimespec sync) w
    rw [hp] at c
    refine ⟨rest, ?_, hsec, a, b, c, d⟩
    simp only [doSleep]
    rw [if_pos h]
    exact hl
  · have h0 : 0 ≤ sync := by linarith
    obtain ⟨-, a, b, c, -⟩ := usleepArg_spec h0
      (le_trans (le_of_lt h1) one_le_usleepCap)
    rw [hp] at b
    refine ⟨?_, a, usleepArg_lt_one hd h0 h1, by linarith, by linarith⟩
    have hn : ¬ sync ≥ 1 := not_le.mpr h1
    simp only [doSleep, hn, if_false]
    rw [if_pos h]
    exact sysUsleep_log _ _
  · have h0 : 0 ≤ sync := by linarith
    obtain ⟨hw, hfa, hfb, hf0, hfle, hfcl⟩ := fracAfterSleep_spec hd h0 hr
    obtain ⟨rest, hl, hrest⟩ := sleepLoop_log w.sleeps (wholeSeconds sync) w
    rw [hw] at hl
    have hs0 : (0 : ℚ) ≤ ((⌊sync⌋ : Int) : ℚ) := by
      exact_mod_cast Int.floor_nonneg.mpr h0
    have hs1 : ((⌊sync⌋ : Int) : ℚ) ≤ sync := Int.floor_le sync
    have hs2 : sync < ((⌊sync⌋ : Int) : ℚ) + 1 := Int.lt_floor_add_one sync
    have hp1 : sync ≥ 1 := h1
    refine ⟨hw, rest, hrest, fun hlt => ?_, fun hge => ?_⟩
    · have hno : ¬ fracAfterSleep sync ≥ fl (1 / 1000000) := by
        intro hc
        have : fracAfterSleep sync < fl (1 / 1000000) := lt_of_le_of_lt hfle hlt
        exact absurd hc (not_le.mpr this)
      simp only [doSleep, hp1, if_true]
      rw [if_neg hno, hw]
      exact hl
    · have hyes : fracAfterSleep sync ≥ fl (1 / 1000000) := by
        rcases le_or_lt (sync - (⌊sync⌋ : ℚ)) (fmul 999999 (fl (1 / 1000000))) with hc | hc
        · rw [hfa hc]; exact hge
        · rw [hfb hc]; exact micro_le_clamp
      obtain ⟨-, a, b, c, -⟩ := usleepArg_spec hf0
        (le_trans hfcl (le_trans (le_of_lt clamp_lt_one) one_le_usleepCap))
      rw [hp] at b
      refine ⟨⟨(sleepLoop w.sleeps ⌊sync⌋ w).now, ?_⟩, a, usleepArg_clamped hf0 hfcl, ?_, ?_⟩
      · simp only [doSleep, hp1, if_true]
        rw [if_pos hyes, sysUsleep_log, hw, hl]
        simp
      · have : (usleepArg (fracAfterSleep sync) : ℚ) / 1000000
            ≤ (sync - (⌊sync⌋ : ℚ)) * (1 + 1 / 9007199254740992) := by
          have h5 : fracAfterSleep sync * (1 + 1 / 9007199254740992)
              ≤ (sync - (⌊sync⌋ : ℚ)) * (1 + 1 / 9007199254740992) :=
            mul_le_mul_of_nonneg_right hfle (by norm_num)
          linarith
        linarith
      · rcases le_or_lt (sync - (⌊sync⌋ : ℚ)) (fmul 999999 (fl (1 / 1000000))) with hc | hc
        · rw [hfa hc] at c ⊢
          linarith
        · rw [hfb hc, usleepArg_clamp]
          push_cast
          linarith

/-- The amended C9 at computed sleeps of three and a half seconds and of half
a second. -/
theorem sleep_conversion_witness :
    fl (7 / 2) = 7 / 2 ∧ fl (1 / 1000000000) ≤ (7 / 2 : ℚ) ∧ (7 / 2 : ℚ) < 9223372036854775808 ∧
    (toTimespec (7 / 2)).tv_sec = ⌊(7 / 2 : ℚ)⌋ ∧ (toTimespec (7 / 2)).tv_nsec ≤ 999999999 ∧
    fl (1 / 1000000) ≤ (7 / 2 : ℚ) ∧ (7 / 2 : ℚ) < 4294967296 ∧ (1 : ℚ) ≤ 7 / 2 ∧
    wholeSeconds (7 / 2) = ⌊(7 / 2 : ℚ)⌋ ∧
    fl (1 / 2) = 1 / 2 ∧ fl (1 / 1000000) ≤ (1 / 2 : ℚ) ∧ (1 / 2 : ℚ) < 4294967296 ∧
    (1 / 2 : ℚ) < 1 ∧
    (doSleep .sleepUsleep (1 / 2) (World.start 0 [])).log
      = (World.start 0 []).log ++ [⟨(World.start 0 []).now, .usleep (usleepArg (1 / 2))⟩] ∧
    usleepArg (1 / 2) ≤ 999999 :=
  have d1 : fl (7 / 2) = 7 / 2 := by decide!
  have h1 : fl (1 / 1000000000) ≤ (7 / 2 : ℚ) := by decide!
  have r1 : (7 / 2 : ℚ) < 9223372036854775808 := by norm_num
  have h2 : fl (1 / 1000000) ≤ (7 / 2 : ℚ) := by decide!
  have r2 : (7 / 2 : ℚ) < 4294967296 := by norm_num
  have h3 : (1 : ℚ) ≤ 7 / 2 := by norm_num
  have d2 : fl (1 / 2) = 1 / 2 := by decide!
  have h4 : fl (1 / 1000000) ≤ (1 / 2 : ℚ) := by decide!
  have r4 : (1 / 2 : ℚ) < 4294967296 := by norm_num
  have h5 : (1 / 2 : ℚ) < 1 := by norm_num
  ⟨d1, h1, r1,
    ((sleep_conversion (7 / 2) (World.start 0 []) d1).1 h1 r1).elim (fun _ h => h.2.1),
    ((sleep_conversion (7 / 2) (World.start 0 []) d1).1 h1 r1).elim (fun _ h => h.2.2.2.1),
    h2, r2, h3,
    (((sleep_conversion (7 / 2) (World.start 0 []) d1).2 h2 r2).2 h3).1,
    d2, h4, r4, h5,
    (((sleep_conversion (1 / 2) (World.start 0 []) d2).2 h4 r4).1 h5).1,
    (((sleep_conversion (1 / 2) (World.start 0 []) d2).2 h4 r4).1 h5).2.2.1⟩

/-- C3 at a block of `2^31` bytes: whenever the seconds of the elapsed time
recorded equal the window length, so that the window has expired (as in the
first pass of a run), whatever the other variables hold, the window is reset
and after the accounting the counter is `-2^31`, not the `2^31` bytes filled
in this pass. -/
theorem window_reset_counter_wraps (Bps : ℚ) (window : Int) (start tv : Timeval)
    (usec bytes : Int) :
    resets window { starttime := start, elapsedtime := ⟨window, usec⟩, bytesread := bytes }
      2147483648 = true ∧
    account Bps window { starttime := start, elapsedtime := ⟨window, usec⟩, bytesread := bytes }
        2147483648 (some tv)
      = some ({ starttime := tv, elapsedtime := ⟨0, usec⟩, bytesread := -2147483648 },
              BSECS (-2147483648) Bps) ∧
    initAcct window = { starttime := ⟨0, 0⟩, elapsedtime := ⟨window, 0⟩, bytesread := 0 } := by
  have hr : resets window
      { starttime := start, elapsedtime := ⟨window, usec⟩, bytesread := bytes } 2147483648
      = true := by
    simp [resets]
  refine ⟨hr, ?_, rfl⟩
  rw [account_reset _ _ _ _ _ hr]
  simp [toInt32]

/-- C4 at blocks of `2^32` bytes: after the first block the counter is `0`,
and adding the second block, which takes the count far past `INT32_MAX`,
leaves the counter at `0` again: the test for a rollover does not fire, the
window is not reset and `sync` is not positive. -/
theorem rollover_undetected (Bps : ℚ) (tv0 tv1 : Timeval) :
    account Bps 60 (initAcct 60) 4294967296 (some tv0)
      = some ({ starttime := tv0, elapsedtime := ⟨0, 0⟩, bytesread := 0 }, 0) ∧
    (0 : Int) + 4294967296 > INT32_MAX ∧
    resets 60 { starttime := tv0, elapsedtime := ⟨0, 0⟩, bytesread := 0 } 4294967296 = false ∧
    account Bps 60 { starttime := tv0, elapsedtime := ⟨0, 0⟩, bytesread := 0 } 4294967296
        (some tv1)
      = some ({ starttime := tv0, elapsedtime := timersub tv1 tv0, bytesread := 0 },
              0 - TSECS (timersub tv1 tv0)) := by
  have hr : resets 60 { starttime := tv0, elapsedtime := ⟨0, 0⟩, bytesread := 0 } 4294967296
      = false := by
    simp [resets, toInt32]
  refine ⟨?_, by decide, hr, ?_⟩
  · rw [account_reset _ _ _ _ _ (by simp [resets, initAcct])]
    simp [initAcct, toInt32, BSECS_zero]
  · rw [account_keep _ _ _ _ _ hr]
    have ht : toInt32 ((0 : Int) + ((4294967296 : Nat) : Int)) = 0 := by decide
    have hd : fl (TSECS (timersub tv1 tv0)) = TSECS (timersub tv1 tv0) := by
      unfold TSECS fadd
      exact fl_idem _
    simp only [ht, BSECS_zero, fsub, zero_sub, fl_neg, hd]

/-- C5 at a block of `2^31` bytes and `1000` bytes per second: whenever the
seconds of the elapsed time recorded equal the window length (as in the first
pass of a run), the window is reset and the computed sleep is the double of
`-2147483648/1000` seconds, not the `2147483648/1000` seconds of
`produced / target_rate` nor the double of them. -/
theorem reset_sleep_from_wrapped_counter (start tv : Timeval) (usec bytes : Int) :
    resets 60 { starttime := start, elapsedtime := ⟨60, usec⟩, bytesread := bytes }
      2147483648 = true ∧
    (account 1000 60 { starttime := start, elapsedtime := ⟨60, usec⟩, bytesread := bytes }
        2147483648 (some tv)).map Prod.snd
      = some (-(1152921504606847 / 536870912)) ∧
    fl (2147483648 / 1000) = 1152921504606847 / 536870912 ∧
    (-(1152921504606847 / 536870912) : ℚ) ≠ 1152921504606847 / 536870912 ∧
    (-(1152921504606847 / 536870912) : ℚ) ≠ 2147483648 / 1000 := by
  have hr : resets 60 { starttime := start, elapsedtime := ⟨60, usec⟩, bytesread := bytes }
      2147483648 = true := by
    simp [resets]
  refine ⟨hr, ?_, by decide!, by norm_num, by norm_num⟩
  rw [account_reset _ _ _ _ _ hr]
  have hb : BSECS (toInt32 ((2147483648 : Nat) : Int)) 1000
      = -(1152921504606847 / 536870912) := by decide!
  simp only [Option.map_some', hb]

/-- C10: the trace of every run is a sequence of passes of the main loop, each
of which fills a whole block and reaches the bottom of the body, followed by a
last pass that either saw the end of the stream (the run returns `0`) or
failed (the run returns `-1`).  In every pass each `read` asks for exactly
what is left unfilled of the block; a fill phase that is not cut short by a
failing read ends with the block full or with the end of the stream reported;
the `gettimeofday`, the sleep calls and the writes of a pass come after its
reads; and the writes of a pass that reaches the bottom offer what is left of
the bytes filled and add up to them, so only the last pass can write fewer
than `blocksize` bytes. -/
theorem block_filling (impl : SleepImpl) (Bps : ℚ) (window : Int) (block : Nat → Byte)
    (blocksize : Nat) (w : World) :
    ∃ (passes : List (List Event)) (last : List Event),
      (throttle impl Bps window block blocksize w).2.log = w.log ++ (passes.flatten ++ last) ∧
      (∀ p ∈ passes, PassTrace blocksize false p) ∧
      (((throttle impl Bps window block blocksize w).1 = .returned 0 ∧
          PassTrace blocksize true last) ∨
        ((throttle impl Bps window block blocksize w).1 = .returned (-1) ∧
          FailedPass blocksize last)) := by
  have key : ∀ (fuel : Nat) (s : Acct) (winBytes : Nat) (block : Nat → Byte) (w : World),
      w.input.length < fuel →
      ∃ (passes : List (List Event)) (last : List Event),
        (throttleLoop impl Bps window blocksize fuel s winBytes block w).2.log
          = w.log ++ (passes.flatten ++ last) ∧
        (∀ p ∈ passes, PassTrace blocksize false p) ∧
        (((throttleLoop impl Bps window blocksize fuel s winBytes block w).1 = .returned 0 ∧
            PassTrace blocksize true last) ∨
          ((throttleLoop impl Bps window blocksize fuel s winBytes block w).1
              = .returned (-1) ∧
            FailedPass blocksize last)) := by
    intro fuel
    induction fuel with
    | zero => intro s winBytes block w h; omega
    | succ fuel ih =>
      intro s winBytes block w hf
      have hit := iteration_spec impl Bps window blocksize s winBytes block w
      simp only [throttleLoop]
      revert hit
      cases iteration impl Bps window blocksize s winBytes block w with
      | outOfFuel w1 => exact fun h => h.elim
      | failed w1 =>
        rintro ⟨-, l, hl, hf2, -⟩
        exact ⟨[], l, by simpa using hl, fun p hp => absurd hp (List.not_mem_nil _), Or.inr ⟨rfl, hf2⟩⟩
      | completed done s1 wb1 block1 w1 =>
        rintro ⟨data, rs, tc, clk, sync, sl, tf, ws, hin, -, hlen, hd0, hd1, -, -, hlog, hrr, hmv,
          hsl, hws, hmw, -, -, -, -⟩
        have hpass : PassTrace blocksize done
            (rs ++ ⟨tc, .gettimeofday (some clk)⟩ ::
              (sl ++ ⟨tf, .flush data.length s1.starttime wb1⟩ :: ws)) :=
          ⟨rs, _, sl, _, ws, data.length, rfl,
            ⟨hrr, hmv, hlen, fun hd => (hd0 hd).1, fun hd => (hd1 hd).2.1⟩, ⟨clk, rfl⟩, hsl,
            ⟨_, _, rfl⟩, hws, hmw⟩
        cases done with
        | true =>
          simp only [if_true]
          exact ⟨[], _, by simpa using hlog, fun p hp => absurd hp (List.not_mem_nil _),
            Or.inl ⟨trivial, hpass⟩⟩
        | false =>
          simp only [Bool.false_eq_true, if_false]
          obtain ⟨hl, hb⟩ := hd0 rfl
          have hlt : w1.input.length < fuel := by
            have : w.input.length = data.length + w1.input.length := by
              rw [hin, List.length_append]
            omega
          obtain ⟨passes, last, h1, h2, h3⟩ := ih s1 wb1 block1 w1 hlt
          refine ⟨(rs ++ ⟨tc, .gettimeofday (some clk)⟩ ::
              (sl ++ ⟨tf, .flush data.length s1.starttime wb1⟩ :: ws)) :: passes, last, ?_, ?_, h3⟩
          · rw [h1, hlog, List.flatten_cons]
            simp only [List.append_assoc]
          · intro p hp
            rcases List.mem_cons.mp hp with h | h
            · rw [h]; exact hpass
            · exact h2 p h
  exact key (w.input.length + 1) (initAcct window) 0 block w (by omega)


/-- C2, as stated, fails in three ways, each in a world where every call
succeeds, the clock does not go back and every sleep lasts what it is asked
for.  The truncation of the sleep to the resolution of the primitive: at 3
bytes per second the sleep of a third of a second computed for a block of one
byte reaches `nanosleep` as 333333333 nanoseconds, and one byte in that time
is more than 3 bytes per second.  The rounding of the double arithmetic: in
the run of the claim (1000 bytes per second, a window of one second, blocks
of 100 bytes, 500 bytes), when the fifth reading of the clock is
400015 microseconds after the start of the window, the sleep computed is
`0.5 - 0.400015` in doubles, which is below `0.099985`, and the writing of
the fifth block begins 499999999 nanoseconds after the start of the window
(499999000 with `usleep`).  The range of the argument: at `1/8192` bytes per
second the 8192 seconds computed for one byte are 8192000000 microseconds,
which `usleep` receives as an `unsigned int`, 3897032704. -/
theorem rate_exceeded :
    (World.start 0 [5]).Steady ∧
    marks (throttle .nanosleep 3 60 (fun _ => 0) 1 (World.start 0 [5])).2.log
      = [⟨333333333, 1, ⟨0, 0⟩, 1⟩, ⟨333333666, 0, ⟨0, 0⟩, 1⟩] ∧
    (3 : ℚ) < (1 : ℚ) / (((333333333 - Timeval.toNs ⟨0, 0⟩ : Int) : ℚ) / 1000000000) ∧
    lateClockWorld.Steady ∧ lateClockWorld.ReadsOk ∧ lateClockWorld.WritesOk ∧
    lateClockWorld.ClocksOk ∧ lateClockWorld.input.length = 500 ∧
    marks (throttle .nanosleep 1000 1 (fun _ => 0) 100 lateClockWorld).2.log
      = [⟨100000000, 100, ⟨0, 0⟩, 100⟩, ⟨200000000, 100, ⟨0, 0⟩, 200⟩,
         ⟨300000000, 100, ⟨0, 0⟩, 300⟩, ⟨400000000, 100, ⟨0, 0⟩, 400⟩,
         ⟨499999999, 100, ⟨0, 0⟩, 500⟩, ⟨500000999, 0, ⟨0, 0⟩, 500⟩] ∧
    marks (throttle .usleepOnly 1000 1 (fun _ => 0) 100 lateClockWorld).2.log
      = [⟨100000000, 100, ⟨0, 0⟩, 100⟩, ⟨200000000, 100, ⟨0, 0⟩, 200⟩,
         ⟨300000000, 100, ⟨0, 0⟩, 300⟩, ⟨400000000, 100, ⟨0, 0⟩, 400⟩,
         ⟨499999000, 100, ⟨0, 0⟩, 500⟩, ⟨500000000, 0, ⟨0, 0⟩, 500⟩] ∧
    (throttle .usleepOnly (1 / 8192) 60 (fun _ => 0) 1 (World.start 0 [5])).2.log
      = [⟨0, .read 1 (some 1)⟩, ⟨0, .gettimeofday (some ⟨0, 0⟩)⟩, ⟨0, .usleep 3897032704⟩,
         ⟨3897032704000, .flush 1 ⟨0, 0⟩ 1⟩, ⟨3897032704000, .write 1 (some 1)⟩,
         ⟨3897032704000, .read 1 (some 0)⟩,
         ⟨3897032704000, .gettimeofday (some ⟨3897, 32704⟩)⟩,
         ⟨3897032704000, .usleep 0⟩,
         ⟨3897032704000, .flush 0 ⟨0, 0⟩ 1⟩] ∧
    ¬ Mark.Paced .usleepOnly (1 / 8192) ⟨3897032704000, 1, ⟨0, 0⟩, 1⟩ := by
  have hst : ∀ input, (World.start 0 input).Steady := fun _ =>
    ⟨fun _ he => absurd he (List.not_mem_nil _), fun _ he => absurd he (List.not_mem_nil _),
      fun _ he => absurd he (List.not_mem_nil _), fun _ he => absurd he (List.not_mem_nil _)⟩
  refine ⟨hst _, by decide!, by norm_num [Timeval.toNs],
    ⟨fun _ he => absurd he (List.not_mem_nil _), fun _ he => absurd he (List.not_mem_nil _),
      ?_, fun _ he => absurd he (List.not_mem_nil _)⟩,
    fun _ he => absurd he (List.not_mem_nil _), fun _ he => absurd he (List.not_mem_nil _),
    ?_, List.length_replicate 500 7, by decide!, by decide!, by decide!, ?_⟩
  · intro e he
    simp only [lateClockWorld, World.start, List.mem_cons, List.mem_singleton,
      List.not_mem_nil, or_false] at he
    rcases he with rfl | rfl | rfl | rfl | rfl <;> decide
  · intro e he
    simp only [lateClockWorld, World.start, List.mem_cons, List.mem_singleton,
      List.not_mem_nil, or_false] at he
    rcases he with h | h | h | h | h <;> rw [h]
  · simp only [Mark.Paced, resolution, Timeval.toNs]
    norm_num

/-- C2, amended: in a world whose clock never goes backwards and whose sleeps
all run to their end and last at least the time asked for, for every positive
rate (a double) and every block size below `2^31`, at the moment the writing
of a block begins, if the bytes read since the start of the current window,
the block included, take no longer at `Bps` than the longest sleep the
configuration can ask for (`sleepCap`), then those bytes divided by the time
since the recorded start of the window plus one unit of the resolution of the
sleep primitive (a nanosecond with `nanosleep`, a microsecond with `usleep`)
stay below `Bps` and one part in `2^50` more.  And at 1000 bytes per second,
a window of one second, blocks of 100 bytes and a stream of 500 bytes, when no
read, write or `gettimeofday` fails, the run returns `0`, the blocks are five
of 100 bytes and an empty one, and the writing of the fifth begins no earlier
than half a second less one unit of resolution after the start of the first
window. -/
theorem rate_bound (impl : SleepImpl) (block : Nat → Byte) (w : World) (hst : w.Steady) :
    (∀ (Bps : ℚ) (window : Int) (blocksize : Nat), 0 < Bps → fl Bps = Bps →
      blocksize < 2147483648 →
      ∃ l, (throttle impl Bps window block blocksize w).2.log = w.log ++ l ∧
        ∀ m ∈ marks l, m.Fits impl Bps → m.Paced impl Bps) ∧
    (w.ReadsOk → w.WritesOk → w.ClocksOk → w.input.length = 500 →
      (throttle impl 1000 1 block 100 w).1 = .returned 0 ∧
      ∃ l, (throttle impl 1000 1 block 100 w).2.log = w.log ++ l ∧
        (marks l).map Mark.nread = [100, 100, 100, 100, 100, 0] ∧
        ∃ first fifth, (marks l)[0]? = some first ∧ (marks l)[4]? = some fifth ∧
          first.winStart.toNs + 500000000 ≤ fifth.t + resolution impl) := by
  refine ⟨fun Bps window blocksize hB hBd hbs => ?_, fun hro hwo hco hlen => ?_⟩
  · exact throttleLoop_paced impl Bps window blocksize hB hBd hbs (w.input.length + 1)
      (initAcct window) 0 block w hst rfl (by decide) (Or.inl (le_refl _))
  · obtain ⟨hret, l, hl, hsz, first, hfirst, hp⟩ :=
      throttle_thousand impl block 100 (by decide) (by decide) w hst hro hwo hco (by omega)
    refine ⟨hret, l, hl, ?_, ?_⟩
    · rw [hsz, hlen]; decide
    · rw [hlen] at hsz
      have hsz' : (marks l).map Mark.nread = [100, 100, 100, 100, 100, 0] := by
        rw [hsz]; decide
      rcases hml : marks l with
        _ | ⟨m1, _ | ⟨m2, _ | ⟨m3, _ | ⟨m4, _ | ⟨m5, _ | ⟨m6, _ | ⟨m7, t⟩⟩⟩⟩⟩⟩⟩ <;>
        rw [hml] at hsz' <;> simp only [List.map_cons, List.map_nil] at hsz'
      all_goals first
        | (exfalso; simp at hsz'; done)
        | skip
      rw [hml] at hp hfirst
      simp only [List.head?_cons, Option.some.injEq] at hfirst
      simp only [List.cons.injEq, and_true] at hsz'
      obtain ⟨n1, n2, n3, n4, n5, n6⟩ := hsz'
      simp only [PacedFrom, n1, n2, n3, n4, n5] at hp
      obtain ⟨-, -, -, -, p5, -⟩ := hp
      refine ⟨m1, m5, rfl, rfl, ?_⟩
      rw [← hfirst] at p5
      have hmin : min (((0 + 100 + 100 + 100 + 100 + 100 : Nat) : Int) * 1000000) 1000000000
          = 500000000 := by decide
      rw [hmin] at p5
      exact p5

/-- The amended C2 at the stream of 500 bytes in the world where fifteen
microseconds go by before the fifth reading of the clock. -/
theorem rate_bound_witness :
    lateClockWorld.Steady ∧ (0 : ℚ) < 1000 ∧ fl (1000 : ℚ) = 1000 ∧ 100 < 2147483648 ∧
    lateClockWorld.ReadsOk ∧ lateClockWorld.WritesOk ∧ lateClockWorld.ClocksOk ∧
    lateClockWorld.input.length = 500 ∧
    (∃ l, (throttle .nanosleep 1000 1 (fun _ => 0) 100 lateClockWorld).2.log
        = lateClockWorld.log ++ l ∧
      ∀ m ∈ marks l, m.Fits .nanosleep 1000 → m.Paced .nanosleep 1000) ∧
    (throttle .nanosleep 1000 1 (fun _ => 0) 100 lateClockWorld).1 = .returned 0 ∧
    (∃ l, (throttle .nanosleep 1000 1 (fun _ => 0) 100 lateClockWorld).2.log
        = lateClockWorld.log ++ l ∧
      (marks l).map Mark.nread = [100, 100, 100, 100, 100, 0] ∧
      ∃ first fifth, (marks l)[0]? = some first ∧ (marks l)[4]? = some fifth ∧
        first.winStart.toNs + 500000000 ≤ fifth.t + resolution .nanosleep) :=
  have hst : lateClockWorld.Steady :=
    ⟨fun _ he => absurd he (List.not_mem_nil _), fun _ he => absurd he (List.not_mem_nil _),
      by
        intro e he
        simp only [lateClockWorld, World.start, List.mem_cons, List.mem_singleton,
          List.not_mem_nil, or_false] at he
        rcases he with rfl | rfl | rfl | rfl | rfl <;> decide,
      fun _ he => absurd he (List.not_mem_nil _)⟩
  have hro : lateClockWorld.ReadsOk := fun _ he => absurd he (List.not_mem_nil _)
  have hwo : lateClockWorld.WritesOk := fun _ he => absurd he (List.not_mem_nil _)
  have hco : lateClockWorld.ClocksOk := by
    intro e he
    simp only [lateClockWorld, World.start, List.mem_cons, List.mem_singleton,
      List.not_mem_nil, or_false] at he
    rcases he with h | h | h | h | h <;> rw [h]
  have hlen : lateClockWorld.input.length = 500 := List.length_replicate 500 7
  have hd : fl (1000 : ℚ) = 1000 := by decide!
  ⟨hst, by norm_num, hd, by decide, hro, hwo, hco, hlen,
    (rate_bound .nanosleep (fun _ => 0) _ hst).1 1000 1 100 (by norm_num) hd (by decide),
    ((rate_bound .nanosleep (fun _ => 0) _ hst).2 hro hwo hco hlen).1,
    ((rate_bound .nanosleep (fun _ => 0) _ hst).2 hro hwo hco hlen).2⟩

end Throttle
